import Mathlib

/-!
Shallow embedding of the storage and paging core of the Pintos fork under
verification: the buffer cache (`src/filesys/cache.c`), the inode engine and
adaptive read-ahead (`src/filesys/inode.c`), and the frame evictor
(`src/vm/frame.c`) with its collaborators (`src/vm/page.c`, `src/vm/swap.c`).

Modelling conventions:
* machine integers are `Nat` (unsigned) or `Int` (signed `off_t`), with
  wrap-around made explicit (`u32`) where the C code relies on it;
* a disk is a function from sector number to byte function; bytes are `Nat`;
* kernel heap allocation (`malloc`/`calloc`) is passed in as an explicit
  `allocOk` flag at the cache layer; the inode layer is modelled in runs
  where heap allocation succeeds (the flag is `true` at each call site);
* fallible operations return `Option`; `none` models a code path that
  dereferences a NULL pointer or trips a kernel assertion (a fault), as
  noted at each definition;
* the model is sequential: one operation runs at a time, which matches the
  single global cache lock / frame lock discipline of the source.
-/

namespace Pintos

/-! ## Basic constants (from `devices/block.h`, `filesys/filesys.h`,
`filesys/cache.h`, `filesys/inode.c`) -/

def BLOCK_SECTOR_SIZE : Nat := 512

def CACHE_SIZE : Nat := 64

/-- `SECTOR_ERROR` is `SIZE_MAX` (`filesys/filesys.h`), i.e. `2^32 - 1` on
the 32-bit target. -/
def SECTOR_ERROR : Nat := 4294967295

def READ_AHEAD_WINDOW_SIZE : Nat := 32

def DIRECT_SECTOR_NUMBER : Nat := 12

/-- `BLOCK_SECTOR_SIZE / 4`: slots in one indirect block. -/
def DISK_SECTOR_NUMBER : Nat := 128

/-- `INODE_MAGIC = 0x494e4f44` from `filesys/inode.c`. -/
def INODE_MAGIC : Nat := 0x494e4f44

/-- Truncation of a signed value to `unsigned int` / `block_sector_t`. -/
def u32 (x : Int) : Nat := (x % 4294967296).toNat

/-! ## Bytes, sectors, little-endian 32-bit words -/

/-- Contents of one 512-byte sector: byte offset to byte value. -/
abbrev SectorData := Nat → Nat

/-- The block device: sector number to sector contents. -/
abbrev Disk := Nat → SectorData

/-- Little-endian decoding of four bytes, as the `*(uint32_t *)` loads in
`cache_read_at` do. -/
def le32 (b0 b1 b2 b3 : Nat) : Nat :=
  b0 % 256 + 256 * (b1 % 256) + 65536 * (b2 % 256) + 16777216 * (b3 % 256)

/-- Byte `k` of the little-endian encoding of a 32-bit value. -/
def word_byte (v k : Nat) : Nat := v / 256 ^ k % 256

/-- Little-endian encoding of a 32-bit value, as the `*(uint32_t *)` store in
`cache_write_at` does. -/
def le32_bytes (v : Nat) : List Nat :=
  [word_byte v 0, word_byte v 1, word_byte v 2, word_byte v 3]

/-- The `size` bytes starting at `off` in a sector, as `memcpy` out reads
them. -/
def bytes_of (f : SectorData) (off n : Nat) : List Nat :=
  (List.range n).map fun k => f (off + k)

/-- Overwrite the bytes `[off, off + |bs|)` of a sector, as `memcpy` in
writes them. -/
def write_bytes (f : SectorData) (off : Nat) (bs : List Nat) : SectorData :=
  fun o => if off ≤ o ∧ o < off + bs.length then bs.getD (o - off) 0 else f o

/-- Read the 32-bit word at byte position `pos` of a sector. -/
def word_at (f : SectorData) (pos : Nat) : Nat :=
  le32 (f pos) (f (pos + 1)) (f (pos + 2)) (f (pos + 3))

/-- Word `k` of a 512-byte block previously copied out as a byte list
(`struct data_disk` access `block->sector[k]`). -/
def word_of_block (bs : List Nat) (k : Nat) : Nat :=
  le32 (bs.getD (4 * k) 0) (bs.getD (4 * k + 1) 0)
    (bs.getD (4 * k + 2) 0) (bs.getD (4 * k + 3) 0)

/-- Byte image of an in-memory `struct data_disk` (128 32-bit slots), as
`cache_write (sector, buf, 0, BLOCK_SECTOR_SIZE)` copies it to a block. -/
def block_bytes (w : Nat → Nat) : List Nat :=
  (List.range 512).map fun o => word_byte (w (o / 4)) (o % 4)

/-! ## Buffer cache (`src/filesys/cache.c`)

`struct cache` from `filesys/cache.h`; the hash table and the recency list
are represented by a single list in recency order (head = least recently
touched); under the at-most-one-entry-per-sector invariant the hash lookup
coincides with the first list hit. -/

structure CacheEntry where
  sector : Nat
  data : SectorData
  dirty : Bool
  in_use : Bool
  readahead : Bool
  /-- owner thread id (`struct thread *t`). -/
  owner : Nat

structure CacheState where
  disk : Disk
  /-- `cache_list`, head first; also carries the hash-set membership. -/
  entries : List CacheEntry

/-- `cache_find`: hash lookup by sector. -/
def cache_find (st : CacheState) (sector : Nat) : Option CacheEntry :=
  st.entries.find? fun c => c.sector == sector

/-- Remove the first entry with the given sector from the recency list
(`list_remove` of the looked-up entry). -/
def remove_first : List CacheEntry → Nat → List CacheEntry
  | [], _ => []
  | c :: rest, s => if c.sector = s then rest else c :: remove_first rest s

/-- Apply `f` to the entry a `cache_find (sector)` would return
(models a field store through the returned pointer; no-op when absent). -/
def update_first : List CacheEntry → Nat → (CacheEntry → CacheEntry) → List CacheEntry
  | [], _, _ => []
  | c :: rest, s, f => if c.sector = s then f c :: rest else c :: update_first rest s f

/-- Write a dirty entry back to disk (`block_write` before reuse/discard). -/
def writeback (d : Disk) (c : CacheEntry) : Disk :=
  if c.dirty then fun s => if s = c.sector then c.data else d s else d

/-- The `cache_evict` scan: first non-`in_use` entry from the head of the
recency list, removed; `none` when every entry is pinned. -/
def cache_evict_list : List CacheEntry → Option (CacheEntry × List CacheEntry)
  | [] => none
  | c :: rest =>
      if c.in_use then
        match cache_evict_list rest with
        | some (v, rest') => some (v, c :: rest')
        | none => none
      else some (c, rest)

/-- A freshly loaded entry (`cache_get` miss path: `block_read` fills the
buffer, `dirty = false`, `in_use = true`, `readahead = false`). -/
def fresh_entry (d : Disk) (sector tid : Nat) : CacheEntry :=
  ⟨sector, d sector, false, true, false, tid⟩

/-- Core of `cache_get`: returns the entry that ends up pinned at the tail
of the recency list, the remaining entries (in order), and the disk after
any eviction write-back.  `none` is the source's `return NULL` (pool
exhausted: at capacity with every entry pinned, or `malloc` failure). -/
def cache_get_parts (st : CacheState) (sector tid : Nat) (allocOk : Bool) :
    Option (CacheEntry × List CacheEntry × Disk) :=
  match cache_find st sector with
  | some c => some ({ c with in_use := true }, remove_first st.entries sector, st.disk)
  | none =>
      if st.entries.length < CACHE_SIZE then
        if allocOk then some (fresh_entry st.disk sector tid, st.entries, st.disk)
        else none
      else
        match cache_evict_list st.entries with
        | some (v, rest) =>
            let d := writeback st.disk v
            some (fresh_entry d sector tid, rest, d)
        | none => none

/-- `cache_get`: on success the requested sector's entry is pinned and at
the tail of the recency list. -/
def cache_get (st : CacheState) (sector tid : Nat) (allocOk : Bool) :
    Option CacheState :=
  (cache_get_parts st sector tid allocOk).map fun p => ⟨p.2.2, p.2.1 ++ [p.1]⟩

/-- `cache_read`: `cache_get`, `memcpy` out, unpin.  The source performs the
`memcpy` through the returned pointer without a NULL check, so a `NULL`
from `cache_get` is a fault (`none`). -/
def cache_read (st : CacheState) (sector off n tid : Nat) (allocOk : Bool) :
    Option (List Nat × CacheState) :=
  (cache_get_parts st sector tid allocOk).map fun p =>
    (bytes_of p.1.data off n, ⟨p.2.2, p.2.1 ++ [{ p.1 with in_use := false }]⟩)

/-- `cache_write`: `cache_get`, `memcpy` in, set dirty, unpin; NULL from
`cache_get` is an unchecked dereference (`none`). -/
def cache_write (st : CacheState) (sector : Nat) (bs : List Nat) (off tid : Nat)
    (allocOk : Bool) : Option CacheState :=
  (cache_get_parts st sector tid allocOk).map fun p =>
    let c := { p.1 with data := write_bytes p.1.data off bs, dirty := true, in_use := false }
    ⟨p.2.2, p.2.1 ++ [c]⟩

/-- `cache_read_at`: 32-bit load at byte position `pos`. -/
def cache_read_at (st : CacheState) (sector pos tid : Nat) (allocOk : Bool) :
    Option (Nat × CacheState) :=
  (cache_get_parts st sector tid allocOk).map fun p =>
    (word_at p.1.data pos, ⟨p.2.2, p.2.1 ++ [{ p.1 with in_use := false }]⟩)

/-- `cache_write_at`: 32-bit store at byte position `pos`, sets dirty. -/
def cache_write_at (st : CacheState) (sector pos v tid : Nat) (allocOk : Bool) :
    Option CacheState :=
  (cache_get_parts st sector tid allocOk).map fun p =>
    let c := { p.1 with data := write_bytes p.1.data pos (le32_bytes v),
                        dirty := true, in_use := false }
    ⟨p.2.2, p.2.1 ++ [c]⟩

/-- `cache_set`: `memset` of `n` bytes (stores the low byte of `value`),
sets dirty. -/
def cache_set (st : CacheState) (sector value off n tid : Nat) (allocOk : Bool) :
    Option CacheState :=
  (cache_get_parts st sector tid allocOk).map fun p =>
    let c := { p.1 with
        data := fun o => if off ≤ o ∧ o < off + n then value % 256 else p.1.data o,
        dirty := true, in_use := false }
    ⟨p.2.2, p.2.1 ++ [c]⟩

/-- `cache_readahead`: marker bit of the sector's entry, `false` when
absent. -/
def cache_readahead (st : CacheState) (sector : Nat) : Bool :=
  match cache_find st sector with
  | some c => c.readahead
  | none => false

/-- `cache_set_readahead`: set the marker bit when the sector is cached. -/
def cache_set_readahead (st : CacheState) (sector : Nat) : CacheState :=
  ⟨st.disk, update_first st.entries sector fun c => { c with readahead := true }⟩

/-- `cache_clear_readahead`. -/
def cache_clear_readahead (st : CacheState) (sector : Nat) : CacheState :=
  ⟨st.disk, update_first st.entries sector fun c => { c with readahead := false }⟩

/-- Models the direct store `c->in_use = false` on the entry `cache_get`
returned (used by `do_cache_readahead`). -/
def cache_unpin (st : CacheState) (sector : Nat) : CacheState :=
  ⟨st.disk, update_first st.entries sector fun c => { c with in_use := false }⟩

/-- `cache_flush`: write every dirty entry back (in list order) and clear
its dirty bit; entries stay cached. -/
def cache_flush (st : CacheState) : CacheState :=
  ⟨st.entries.foldl writeback st.disk,
   st.entries.map fun c => { c with dirty := false }⟩

/-- `cache_free (sector)`: drop the entry from hash and list, writing back
if dirty. -/
def cache_free (st : CacheState) (sector : Nat) : CacheState :=
  match cache_find st sector with
  | some c => ⟨writeback st.disk c, remove_first st.entries sector⟩
  | none => st

/-! ### Cache invariants and the abstract view -/

/-- At most one cache entry per sector. -/
def Uniq (st : CacheState) : Prop :=
  st.entries.Pairwise fun a b => a.sector ≠ b.sector

/-- A clean entry agrees with the disk (dirty means the buffer may differ;
clean buffers were loaded by `block_read` or flushed by `block_write`). -/
def Clean (st : CacheState) : Prop :=
  ∀ c ∈ st.entries, c.dirty = false → c.data = st.disk c.sector

/-- No entry is pinned (holds between top-level cache operations in the
sequential model: every composite operation unpins before returning). -/
def NoPins (st : CacheState) : Prop :=
  ∀ c ∈ st.entries, c.in_use = false

/-- The abstract contents of each sector: the cached buffer when present,
the disk otherwise.  Write-back keeps this stable across evictions. -/
def view (st : CacheState) : Disk := fun s =>
  match cache_find st s with
  | some c => c.data
  | none => st.disk s

/-- Bundled cache invariant. -/
def Inv (st : CacheState) : Prop := Uniq st ∧ Clean st ∧ NoPins st

/-! ### List-level helper lemmas -/

theorem remove_first_sublist (l : List CacheEntry) (s : Nat) :
    (remove_first l s).Sublist l := by
  induction l with
  | nil => simp [remove_first]
  | cons c rest ih =>
      by_cases h : c.sector = s
      · simp only [remove_first, if_pos h]
        exact List.sublist_cons_self c rest
      · simp only [remove_first, if_neg h]
        exact ih.cons₂ c

theorem mem_remove_first {l : List CacheEntry} {s : Nat} {e : CacheEntry}
    (h : e ∈ remove_first l s) : e ∈ l :=
  (remove_first_sublist l s).subset h

theorem find?_remove_first_ne {l : List CacheEntry} {s x : Nat} (hx : x ≠ s) :
    (remove_first l s).find? (fun c => c.sector == x) =
      l.find? (fun c => c.sector == x) := by
  induction l with
  | nil => rfl
  | cons c rest ih =>
      by_cases h : c.sector = s
      · simp [remove_first, h, List.find?_cons, Ne.symm hx]
      · by_cases h2 : c.sector = x
        · simp [remove_first, h, List.find?_cons, h2, hx]
        · simp [remove_first, h, List.find?_cons, h2, ih]

theorem find?_remove_first_self {l : List CacheEntry} {s : Nat}
    (hu : l.Pairwise fun a b => a.sector ≠ b.sector) :
    (remove_first l s).find? (fun c => c.sector == s) = none := by
  induction l with
  | nil => rfl
  | cons c rest ih =>
      have hc := List.pairwise_cons.mp hu
      by_cases h : c.sector = s
      · simp only [remove_first, if_pos h]
        refine List.find?_eq_none.mpr fun e he => ?_
        have : c.sector ≠ e.sector := hc.1 e he
        simp [← h, this.symm]
      · simp only [remove_first, if_neg h]
        rw [List.find?_cons_of_neg, ih hc.2]
        simp [h]

theorem remove_first_eq_of_none {l : List CacheEntry} {s : Nat}
    (h : l.find? (fun c => c.sector == s) = none) : remove_first l s = l := by
  induction l with
  | nil => rfl
  | cons c rest ih =>
      rw [List.find?_cons] at h
      by_cases hcs : c.sector = s
      · simp [hcs] at h
      · simp only [remove_first, if_neg hcs]
        have : (c.sector == s) = false := by simp [hcs]
        rw [this] at h
        rw [ih h]

theorem evict_none_of_all_pinned {l : List CacheEntry}
    (h : ∀ c ∈ l, c.in_use = true) : cache_evict_list l = none := by
  induction l with
  | nil => rfl
  | cons c rest ih =>
      have hc : c.in_use = true := h c (List.mem_cons_self c rest)
      simp only [cache_evict_list, hc, if_pos]
      rw [ih fun e he => h e (List.mem_cons_of_mem _ he)]

theorem all_pinned_of_evict_none {l : List CacheEntry}
    (h : cache_evict_list l = none) : ∀ c ∈ l, c.in_use = true := by
  induction l with
  | nil => simp
  | cons c rest ih =>
      by_cases hc : c.in_use
      · simp only [cache_evict_list, if_pos hc] at h
        cases hrec : cache_evict_list rest with
        | some p => rw [hrec] at h; cases p; simp at h
        | none =>
            intro e he
            rcases List.mem_cons.mp he with rfl | he'
            · exact hc
            · exact ih hrec e he'
      · simp [cache_evict_list, hc] at h

theorem cache_evict_list_some {l : List CacheEntry} {v : CacheEntry}
    {rest : List CacheEntry} (h : cache_evict_list l = some (v, rest)) :
    ∃ pre post, l = pre ++ v :: post ∧ rest = pre ++ post ∧
      (∀ e ∈ pre, e.in_use = true) ∧ v.in_use = false := by
  induction l generalizing rest with
  | nil => simp [cache_evict_list] at h
  | cons c tail ih =>
      by_cases hc : c.in_use
      · simp only [cache_evict_list, if_pos hc] at h
        cases hrec : cache_evict_list tail with
        | none => rw [hrec] at h; simp at h
        | some p =>
            rw [hrec] at h
            obtain ⟨rfl, rfl⟩ : p.1 = v ∧ c :: p.2 = rest := by
              cases p; simpa using h
            obtain ⟨pre, post, h1, h2, h3, h4⟩ := ih (by rw [hrec])
            exact ⟨c :: pre, post, by simp [h1], by simp [h2], by
              intro e he
              rcases List.mem_cons.mp he with rfl | he
              · simpa using hc
              · exact h3 e he, h4⟩
      · simp only [cache_evict_list, if_neg hc] at h
        obtain ⟨rfl, rfl⟩ : c = v ∧ tail = rest := by simpa using h
        exact ⟨[], tail, rfl, rfl, by simp, by simpa using hc⟩

/-! ### `cache_get` specification -/

theorem cache_find_some {st : CacheState} {s : Nat} {c : CacheEntry}
    (h : cache_find st s = some c) : c ∈ st.entries ∧ c.sector = s :=
  ⟨List.mem_of_find?_eq_some h, by simpa using List.find?_some h⟩

theorem cache_find_none {st : CacheState} {s : Nat} (h : cache_find st s = none) :
    ∀ c ∈ st.entries, c.sector ≠ s := by
  intro c hc
  simpa using List.find?_eq_none.mp h c hc

theorem cache_get_parts_cases {st : CacheState} {s tid : Nat} {aok : Bool}
    {c : CacheEntry} {rest : List CacheEntry} {d : Disk}
    (h : cache_get_parts st s tid aok = some (c, rest, d)) :
    (∃ c₀, cache_find st s = some c₀ ∧ c = { c₀ with in_use := true } ∧
      rest = remove_first st.entries s ∧ d = st.disk) ∨
    (cache_find st s = none ∧ st.entries.length < CACHE_SIZE ∧ aok = true ∧
      c = fresh_entry st.disk s tid ∧ rest = st.entries ∧ d = st.disk) ∨
    (cache_find st s = none ∧ ¬ st.entries.length < CACHE_SIZE ∧
      ∃ v, cache_evict_list st.entries = some (v, rest) ∧
        d = writeback st.disk v ∧ c = fresh_entry d s tid) := by
  cases hf : cache_find st s with
  | some c₀ =>
      simp only [cache_get_parts, hf, Option.some.injEq] at h
      obtain ⟨h1, h2, h3⟩ : { c₀ with in_use := true } = c ∧
          remove_first st.entries s = rest ∧ st.disk = d := by
        simpa [Prod.ext_iff] using h
      exact Or.inl ⟨c₀, rfl, h1.symm, h2.symm, h3.symm⟩
  | none =>
      simp only [cache_get_parts, hf] at h
      by_cases hlen : st.entries.length < CACHE_SIZE
      · rw [if_pos hlen] at h
        cases aok with
        | false => simp at h
        | true =>
            simp only [if_pos, Option.some.injEq] at h
            obtain ⟨h1, h2, h3⟩ : fresh_entry st.disk s tid = c ∧
                st.entries = rest ∧ st.disk = d := by
              simpa [Prod.ext_iff] using h
            exact Or.inr (Or.inl ⟨rfl, hlen, rfl, h1.symm, h2.symm, h3.symm⟩)
      · rw [if_neg hlen] at h
        cases hev : cache_evict_list st.entries with
        | none => rw [hev] at h; simp at h
        | some p =>
            rw [hev] at h
            cases p with
            | mk v r =>
                obtain ⟨h1, h2, h3⟩ : fresh_entry (writeback st.disk v) s tid = c ∧
                    r = rest ∧ writeback st.disk v = d := by
                  simpa [Prod.ext_iff] using h
                subst h2
                subst h3
                exact Or.inr (Or.inr ⟨rfl, hlen, v, rfl, rfl, h1.symm⟩)

theorem parts_rest_mem {st : CacheState} {s tid : Nat} {aok : Bool}
    {c : CacheEntry} {rest : List CacheEntry} {d : Disk}
    (h : cache_get_parts st s tid aok = some (c, rest, d)) :
    ∀ e ∈ rest, e ∈ st.entries := by
  rcases cache_get_parts_cases h with ⟨c₀, _, _, hr, _⟩ | ⟨_, _, _, _, hr, _⟩ |
    ⟨_, _, v, hev, _, _⟩
  · intro e he; exact mem_remove_first (hr ▸ he)
  · intro e he; exact hr ▸ he
  · obtain ⟨pre, post, hl, hr, _, _⟩ := cache_evict_list_some hev
    intro e he
    rw [hr] at he
    rw [hl]
    rcases List.mem_append.mp he with h' | h'
    · exact List.mem_append.mpr (Or.inl h')
    · exact List.mem_append.mpr (Or.inr (List.mem_cons_of_mem _ h'))

theorem parts_rest_not_sector {st : CacheState} {s tid : Nat} {aok : Bool}
    {c : CacheEntry} {rest : List CacheEntry} {d : Disk}
    (h : cache_get_parts st s tid aok = some (c, rest, d)) (hu : Uniq st) :
    ∀ e ∈ rest, e.sector ≠ s := by
  rcases cache_get_parts_cases h with ⟨c₀, hf, _, hr, _⟩ | ⟨hf, _, _, _, hr, _⟩ |
    ⟨hf, _, v, hev, _, _⟩
  · intro e he hes
    subst hr
    have hnone := @find?_remove_first_self st.entries s hu
    have := List.find?_eq_none.mp hnone e he
    simp [hes] at this
  · intro e he
    exact cache_find_none hf e (hr ▸ he)
  · intro e he
    exact cache_find_none hf e (parts_rest_mem h e he)

theorem parts_rest_pairwise {st : CacheState} {s tid : Nat} {aok : Bool}
    {c : CacheEntry} {rest : List CacheEntry} {d : Disk}
    (h : cache_get_parts st s tid aok = some (c, rest, d)) (hu : Uniq st) :
    rest.Pairwise fun a b => a.sector ≠ b.sector := by
  rcases cache_get_parts_cases h with ⟨c₀, _, _, hr, _⟩ | ⟨_, _, _, _, hr, _⟩ |
    ⟨_, _, v, hev, _, _⟩
  · exact hr ▸ (hu.sublist (remove_first_sublist _ _))
  · exact hr ▸ hu
  · obtain ⟨pre, post, hl, hr, _, _⟩ := cache_evict_list_some hev
    rw [hr]
    have hsub : (pre ++ post).Sublist (pre ++ v :: post) :=
      List.Sublist.append_left (List.sublist_cons_self v post) pre
    have hu' : (pre ++ v :: post).Pairwise fun a b => a.sector ≠ b.sector := by
      rw [← hl]; exact hu
    exact hu'.sublist hsub

theorem parts_sector {st : CacheState} {s tid : Nat} {aok : Bool}
    {c : CacheEntry} {rest : List CacheEntry} {d : Disk}
    (h : cache_get_parts st s tid aok = some (c, rest, d)) : c.sector = s := by
  rcases cache_get_parts_cases h with ⟨c₀, hf, hcq, _, _⟩ | ⟨_, _, _, hcq, _, _⟩ |
    ⟨_, _, v, _, _, hcq⟩
  · rw [hcq]; exact (cache_find_some hf).2
  · rw [hcq]; rfl
  · rw [hcq]; rfl

theorem writeback_ne {d : Disk} {v : CacheEntry} {x : Nat} (h : x ≠ v.sector) :
    writeback d v x = d x := by
  unfold writeback
  split
  · simp [h]
  · rfl

theorem writeback_sector {d : Disk} {v : CacheEntry} :
    writeback d v v.sector = if v.dirty = true then v.data else d v.sector := by
  unfold writeback
  split <;> simp [*]

theorem find?_append_middle_ne {pre post : List CacheEntry} {v : CacheEntry} {x : Nat}
    (hv : v.sector ≠ x) :
    (pre ++ v :: post).find? (fun c => c.sector == x) =
      (pre ++ post).find? (fun c => c.sector == x) := by
  rw [List.find?_append, List.find?_append]
  have : (v :: post).find? (fun c => c.sector == x) =
      post.find? (fun c => c.sector == x) := by
    rw [List.find?_cons_of_neg]
    simp [hv]
  rw [this]

theorem cache_find_assembled {d : Disk} {rest : List CacheEntry} {c' : CacheEntry}
    {x : Nat} :
    cache_find ⟨d, rest ++ [c']⟩ x =
      match rest.find? (fun e => e.sector == x) with
      | some e => some e
      | none => if c'.sector = x then some c' else none := by
  simp only [cache_find, List.find?_append]
  cases rest.find? (fun e => e.sector == x) with
  | some e => simp
  | none =>
      by_cases h : c'.sector = x
      · simp [List.find?, h]
      · have hb : (c'.sector == x) = false := by simp [h]
        simp [List.find?, hb, h]

theorem cache_find_assembled_self {d : Disk} {rest : List CacheEntry} {c' : CacheEntry}
    (hrest : ∀ e ∈ rest, e.sector ≠ c'.sector) :
    cache_find ⟨d, rest ++ [c']⟩ c'.sector = some c' := by
  rw [cache_find_assembled]
  have : rest.find? (fun e => e.sector == c'.sector) = none :=
    List.find?_eq_none.mpr fun e he => by simp [hrest e he]
  rw [this]
  simp

theorem cache_find_assembled_ne {d : Disk} {rest : List CacheEntry} {c' : CacheEntry}
    {x : Nat} (hx : c'.sector ≠ x) :
    cache_find ⟨d, rest ++ [c']⟩ x = rest.find? fun e => e.sector == x := by
  rw [cache_find_assembled]
  cases rest.find? (fun e => e.sector == x) with
  | some e => rfl
  | none => simp [hx]

/-- Effect of a completed `cache_get` (in any of its three paths) on the
abstract sector contents: only the requested sector may change, to the
replacement entry's buffer; every other sector keeps its value even when
an eviction wrote a dirty victim back. -/
theorem parts_view {st : CacheState} {s tid : Nat} {aok : Bool}
    {c : CacheEntry} {rest : List CacheEntry} {d : Disk}
    (h : cache_get_parts st s tid aok = some (c, rest, d))
    (hu : Uniq st) (hc : Clean st)
    (c' : CacheEntry) (hs : c'.sector = s) (x : Nat) :
    view ⟨d, rest ++ [c']⟩ x = if x = s then c'.data else view st x := by
  by_cases hx : x = s
  · subst hx
    rw [if_pos rfl]
    unfold view
    rw [← hs, cache_find_assembled_self (by rw [hs]; exact parts_rest_not_sector h hu)]
  · rw [if_neg hx]
    unfold view
    rw [cache_find_assembled_ne (by rw [hs]; exact fun q => hx q.symm)]
    rcases cache_get_parts_cases h with ⟨c₀, hf, _, hr, hd⟩ | ⟨hf, _, _, _, hr, hd⟩ |
      ⟨hf, _, v, hev, hd, _⟩
    · subst hr
      subst hd
      rw [find?_remove_first_ne hx]
      rfl
    · subst hr
      subst hd
      rfl
    · obtain ⟨pre, post, hl, hr, _, _⟩ := cache_evict_list_some hev
      have hu' : (pre ++ v :: post).Pairwise fun a b => a.sector ≠ b.sector := by
        rw [← hl]; exact hu
      have hvmem : v ∈ st.entries := by
        rw [hl]; exact List.mem_append.mpr (Or.inr (List.mem_cons_self _ _))
      by_cases hxv : x = v.sector
      · subst hxv
        subst hd
        have hnone : rest.find? (fun e => e.sector == v.sector) = none := by
          refine List.find?_eq_none.mpr fun e he => ?_
          rw [hr] at he
          obtain ⟨hpre, hvp, hcross⟩ := List.pairwise_append.mp hu'
          rcases List.mem_append.mp he with h' | h'
          · simpa using hcross e h' v (List.mem_cons_self _ _)
          · have := (List.pairwise_cons.mp hvp).1 e h'
            simpa using this.symm
        have hfv : cache_find st v.sector = some v := by
          unfold cache_find
          rw [hl, List.find?_append]
          have hpre_none : pre.find? (fun e => e.sector == v.sector) = none := by
            refine List.find?_eq_none.mpr fun e he => ?_
            obtain ⟨_, _, hcross⟩ := List.pairwise_append.mp hu'
            simpa using hcross e he v (List.mem_cons_self _ _)
          rw [hpre_none]
          simp [List.find?_cons]
        rw [hnone, hfv]
        show writeback st.disk v v.sector = v.data
        rw [writeback_sector]
        cases hdty : v.dirty with
        | false => simp [hc v hvmem hdty]
        | true => simp
      · have hfind : rest.find? (fun e => e.sector == x) =
            st.entries.find? (fun e => e.sector == x) := by
          rw [hr, hl, find?_append_middle_ne fun q => hxv q.symm]
        subst hd
        simp only [cache_find]
        rw [hfind]
        cases hfx : List.find? (fun e => e.sector == x) st.entries with
        | some e => rfl
        | none => exact writeback_ne hxv

/-- Dirty-tracking fact about the entry `cache_get` hands out. -/
theorem parts_entry_clean {st : CacheState} {s tid : Nat} {aok : Bool}
    {c : CacheEntry} {rest : List CacheEntry} {d : Disk}
    (h : cache_get_parts st s tid aok = some (c, rest, d)) (hc : Clean st) :
    c.dirty = false → c.data = d s := by
  rcases cache_get_parts_cases h with ⟨c₀, hf, hcq, _, hd⟩ | ⟨_, _, _, hcq, _, hd⟩ |
    ⟨_, _, v, _, hd, hcq⟩
  · intro hdty
    obtain ⟨hmem, hsec⟩ := cache_find_some hf
    subst hd
    rw [hcq] at hdty ⊢
    simpa [hsec] using hc c₀ hmem hdty
  · intro _
    subst hd
    rw [hcq]
    rfl
  · intro _
    rw [hcq]
    rfl

theorem parts_rest_clean {st : CacheState} {s tid : Nat} {aok : Bool}
    {c : CacheEntry} {rest : List CacheEntry} {d : Disk}
    (h : cache_get_parts st s tid aok = some (c, rest, d))
    (hu : Uniq st) (hc : Clean st) :
    ∀ e ∈ rest, e.dirty = false → e.data = d e.sector := by
  rcases cache_get_parts_cases h with ⟨c₀, _, _, hr, hd⟩ | ⟨_, _, _, _, hr, hd⟩ |
    ⟨_, _, v, hev, hd, _⟩
  · subst hd; subst hr
    exact fun e he hdty => hc e (mem_remove_first he) hdty
  · subst hd; subst hr
    exact fun e he hdty => hc e he hdty
  · obtain ⟨pre, post, hl, hr, _, _⟩ := cache_evict_list_some hev
    have hu' : (pre ++ v :: post).Pairwise fun a b => a.sector ≠ b.sector := by
      rw [← hl]; exact hu
    intro e he hdty
    have hmem : e ∈ st.entries := parts_rest_mem h e he
    have hne : e.sector ≠ v.sector := by
      rw [hr] at he
      obtain ⟨hpre, hvp, hcross⟩ := List.pairwise_append.mp hu'
      rcases List.mem_append.mp he with h' | h'
      · exact hcross e h' v (List.mem_cons_self _ _)
      · exact ((List.pairwise_cons.mp hvp).1 e h').symm
    subst hd
    rw [writeback_ne hne]
    exact hc e hmem hdty

/-- The invariant survives reassembling the cache after `cache_get`, for any
replacement entry on the fetched sector that is unpinned and clean-consistent. -/
theorem parts_state_inv {st : CacheState} {s tid : Nat} {aok : Bool}
    {c : CacheEntry} {rest : List CacheEntry} {d : Disk}
    (h : cache_get_parts st s tid aok = some (c, rest, d))
    (hI : Inv st) (c' : CacheEntry) (hs : c'.sector = s)
    (hin : c'.in_use = false) (hcl : c'.dirty = false → c'.data = d s) :
    Inv ⟨d, rest ++ [c']⟩ := by
  obtain ⟨hu, hc, hnp⟩ := hI
  refine ⟨?_, ?_, ?_⟩
  · unfold Uniq
    rw [List.pairwise_append]
    refine ⟨parts_rest_pairwise h hu, by simp, fun a ha b hb => ?_⟩
    have hb' : b = c' := by simpa using hb
    subst hb'
    rw [hs]
    exact parts_rest_not_sector h hu a ha
  · intro e he hdty
    rcases List.mem_append.mp he with h' | h'
    · exact parts_rest_clean h hu hc e h' hdty
    · have he' : e = c' := by simpa using h'
      subst he'
      rw [hs]
      exact hcl hdty
  · intro e he
    rcases List.mem_append.mp he with h' | h'
    · exact hnp e (parts_rest_mem h e h')
    · have he' : e = c' := by simpa using h'
      subst he'
      exact hin

theorem cache_get_parts_some (st : CacheState) (s tid : Nat) (hnp : NoPins st) :
    ∃ p, cache_get_parts st s tid true = some p := by
  unfold cache_get_parts
  cases hf : cache_find st s with
  | some c => exact ⟨_, rfl⟩
  | none =>
      by_cases hlen : st.entries.length < CACHE_SIZE
      · rw [if_pos hlen]
        exact ⟨_, rfl⟩
      · rw [if_neg hlen]
        cases hev : cache_evict_list st.entries with
        | some p => exact ⟨_, rfl⟩
        | none =>
            exfalso
            have hall := all_pinned_of_evict_none hev
            have hne : st.entries ≠ [] := by
              intro hnil
              rw [hnil] at hlen
              simp [CACHE_SIZE] at hlen
            obtain ⟨e, he⟩ := List.exists_mem_of_ne_nil st.entries hne
            have h1 := hnp e he
            rw [hall e he] at h1
            exact Bool.noConfusion h1

theorem parts_data {st : CacheState} {s tid : Nat} {aok : Bool}
    {c : CacheEntry} {rest : List CacheEntry} {d : Disk}
    (h : cache_get_parts st s tid aok = some (c, rest, d)) :
    c.data = view st s := by
  rcases cache_get_parts_cases h with ⟨c₀, hf, hcq, _, _⟩ | ⟨hf, _, _, hcq, _, _⟩ |
    ⟨hf, _, v, hev, hd, hcq⟩
  · rw [hcq]
    unfold view
    rw [hf]
  · rw [hcq]
    unfold view
    rw [hf]
    rfl
  · rw [hcq]
    unfold view
    rw [hf]
    show d s = st.disk s
    rw [hd]
    have hvs : v.sector ≠ s := by
      obtain ⟨pre, post, hl, _, _, _⟩ := cache_evict_list_some hev
      exact cache_find_none hf v
        (by rw [hl]; exact List.mem_append.mpr (Or.inr (List.mem_cons_self _ _)))
    exact writeback_ne fun q => hvs q.symm

theorem parts_readahead {st : CacheState} {s tid : Nat} {aok : Bool}
    {c : CacheEntry} {rest : List CacheEntry} {d : Disk}
    (h : cache_get_parts st s tid aok = some (c, rest, d)) :
    c.readahead = cache_readahead st s := by
  rcases cache_get_parts_cases h with ⟨c₀, hf, hcq, _, _⟩ | ⟨hf, _, _, hcq, _, _⟩ |
    ⟨hf, _, v, hev, hd, hcq⟩
  · rw [hcq]
    unfold cache_readahead
    rw [hf]
  · rw [hcq]
    unfold cache_readahead
    rw [hf]
    rfl
  · rw [hcq]
    unfold cache_readahead
    rw [hf]
    rfl

/-- Common shape of the composite cache operations: after `cache_get`, the
fetched entry (possibly modified, keeping sector `s`) is reinstalled at the
tail.  Conclusions: invariant, pointwise view, and lookup of `s`. -/
theorem assembled_spec {st : CacheState} {s tid : Nat} {aok : Bool}
    {c : CacheEntry} {rest : List CacheEntry} {d : Disk}
    (hp : cache_get_parts st s tid aok = some (c, rest, d)) (hI : Inv st)
    (c' : CacheEntry) (hs : c'.sector = s) (hin : c'.in_use = false)
    (hcl : c'.dirty = false → c'.data = d s) :
    Inv ⟨d, rest ++ [c']⟩ ∧
    (∀ x, view ⟨d, rest ++ [c']⟩ x = if x = s then c'.data else view st x) ∧
    cache_find ⟨d, rest ++ [c']⟩ s = some c' := by
  refine ⟨parts_state_inv hp hI c' hs hin hcl,
    fun x => parts_view hp hI.1 hI.2.1 c' hs x, ?_⟩
  have := @cache_find_assembled_self d rest c'
    (by rw [hs]; exact parts_rest_not_sector hp hI.1)
  rw [hs] at this
  exact this


/-! ### Composite operation specifications -/

theorem cache_read_spec {st : CacheState} {s off n tid : Nat} {aok : Bool}
    {bs : List Nat} {st' : CacheState}
    (h : cache_read st s off n tid aok = some (bs, st')) (hI : Inv st) :
    bs = bytes_of (view st s) off n ∧ Inv st' ∧ (∀ x, view st' x = view st x) := by
  obtain ⟨p, hp, hf⟩ := Option.map_eq_some'.mp h
  obtain ⟨c, rest, d⟩ := p
  obtain ⟨hbs, hst⟩ : bytes_of c.data off n = bs ∧
      CacheState.mk d (rest ++ [{ c with in_use := false }]) = st' := by
    simpa [Prod.ext_iff] using hf
  obtain ⟨hInv, hview, _⟩ := assembled_spec hp hI { c with in_use := false }
    (by show c.sector = s; exact parts_sector hp) rfl
    (by show c.dirty = false → c.data = d s; exact parts_entry_clean hp hI.2.1)
  subst hst
  refine ⟨?_, hInv, fun x => ?_⟩
  · rw [← hbs]
    show bytes_of c.data off n = _
    rw [parts_data hp]
  · rw [hview x]
    by_cases hx : x = s
    · subst hx
      rw [if_pos rfl]
      show c.data = _
      rw [parts_data hp]
    · rw [if_neg hx]

theorem cache_read_some (st : CacheState) (s off n tid : Nat) (hnp : NoPins st) :
    ∃ bs st', cache_read st s off n tid true = some (bs, st') := by
  obtain ⟨p, hp⟩ := cache_get_parts_some st s tid hnp
  exact ⟨_, _, by rw [cache_read, hp]; rfl⟩

theorem cache_write_spec {st : CacheState} {s : Nat} {bs : List Nat} {off tid : Nat}
    {aok : Bool} {st' : CacheState}
    (h : cache_write st s bs off tid aok = some st') (hI : Inv st) :
    Inv st' ∧
      (∀ x, view st' x = if x = s then write_bytes (view st s) off bs else view st x) := by
  obtain ⟨p, hp, hf⟩ := Option.map_eq_some'.mp h
  obtain ⟨c, rest, d⟩ := p
  have hst : CacheState.mk d
      (rest ++ [{ c with data := write_bytes c.data off bs, dirty := true, in_use := false }]) = st' := by
    simpa using hf
  obtain ⟨hInv, hview, _⟩ := assembled_spec hp hI
    { c with data := write_bytes c.data off bs, dirty := true, in_use := false }
    (by show c.sector = s; exact parts_sector hp) rfl (by intro hd; simp at hd)
  subst hst
  refine ⟨hInv, fun x => ?_⟩
  rw [hview x]
  by_cases hx : x = s
  · subst hx
    rw [if_pos rfl, if_pos rfl]
    show write_bytes c.data off bs = _
    rw [parts_data hp]
  · rw [if_neg hx, if_neg hx]

theorem cache_write_some (st : CacheState) (s : Nat) (bs : List Nat) (off tid : Nat)
    (hnp : NoPins st) : ∃ st', cache_write st s bs off tid true = some st' := by
  obtain ⟨p, hp⟩ := cache_get_parts_some st s tid hnp
  exact ⟨_, by rw [cache_write, hp]; rfl⟩

theorem cache_read_at_spec {st : CacheState} {s pos tid : Nat} {aok : Bool}
    {v : Nat} {st' : CacheState}
    (h : cache_read_at st s pos tid aok = some (v, st')) (hI : Inv st) :
    v = word_at (view st s) pos ∧ Inv st' ∧ (∀ x, view st' x = view st x) := by
  obtain ⟨p, hp, hf⟩ := Option.map_eq_some'.mp h
  obtain ⟨c, rest, d⟩ := p
  obtain ⟨hv, hst⟩ : word_at c.data pos = v ∧
      CacheState.mk d (rest ++ [{ c with in_use := false }]) = st' := by
    simpa [Prod.ext_iff] using hf
  obtain ⟨hInv, hview, _⟩ := assembled_spec hp hI { c with in_use := false }
    (by show c.sector = s; exact parts_sector hp) rfl
    (by show c.dirty = false → c.data = d s; exact parts_entry_clean hp hI.2.1)
  subst hst
  refine ⟨?_, hInv, fun x => ?_⟩
  · rw [← hv]
    show word_at c.data pos = _
    rw [parts_data hp]
  · rw [hview x]
    by_cases hx : x = s
    · subst hx
      rw [if_pos rfl]
      show c.data = _
      rw [parts_data hp]
    · rw [if_neg hx]

theorem cache_read_at_some (st : CacheState) (s pos tid : Nat) (hnp : NoPins st) :
    ∃ v st', cache_read_at st s pos tid true = some (v, st') := by
  obtain ⟨p, hp⟩ := cache_get_parts_some st s tid hnp
  exact ⟨_, _, by rw [cache_read_at, hp]; rfl⟩

theorem cache_write_at_spec {st : CacheState} {s pos v tid : Nat} {aok : Bool}
    {st' : CacheState}
    (h : cache_write_at st s pos v tid aok = some st') (hI : Inv st) :
    Inv st' ∧
      (∀ x, view st' x =
        if x = s then write_bytes (view st s) pos (le32_bytes v) else view st x) := by
  obtain ⟨p, hp, hf⟩ := Option.map_eq_some'.mp h
  obtain ⟨c, rest, d⟩ := p
  have hst : CacheState.mk d
      (rest ++ [{ c with data := write_bytes c.data pos (le32_bytes v), dirty := true, in_use := false }]) = st' := by
    simpa using hf
  obtain ⟨hInv, hview, _⟩ := assembled_spec hp hI
    { c with data := write_bytes c.data pos (le32_bytes v), dirty := true, in_use := false }
    (by show c.sector = s; exact parts_sector hp) rfl (by intro hd; simp at hd)
  subst hst
  refine ⟨hInv, fun x => ?_⟩
  rw [hview x]
  by_cases hx : x = s
  · subst hx
    rw [if_pos rfl, if_pos rfl]
    show write_bytes c.data pos (le32_bytes v) = _
    rw [parts_data hp]
  · rw [if_neg hx, if_neg hx]

theorem cache_write_at_some (st : CacheState) (s pos v tid : Nat) (hnp : NoPins st) :
    ∃ st', cache_write_at st s pos v tid true = some st' := by
  obtain ⟨p, hp⟩ := cache_get_parts_some st s tid hnp
  exact ⟨_, by rw [cache_write_at, hp]; rfl⟩

theorem cache_set_spec {st : CacheState} {s value off n tid : Nat} {aok : Bool}
    {st' : CacheState}
    (h : cache_set st s value off n tid aok = some st') (hI : Inv st) :
    Inv st' ∧
      (∀ x o, view st' x o = if x = s then
        (if off ≤ o ∧ o < off + n then value % 256 else view st s o)
        else view st x o) := by
  obtain ⟨p, hp, hf⟩ := Option.map_eq_some'.mp h
  obtain ⟨c, rest, d⟩ := p
  have hst : CacheState.mk d
      (rest ++ [{ c with data := (fun o => if off ≤ o ∧ o < off + n then value % 256 else c.data o), dirty := true, in_use := false }]) = st' := by
    simpa using hf
  obtain ⟨hInv, hview, _⟩ := assembled_spec hp hI
    { c with
      data := (fun o => if off ≤ o ∧ o < off + n then value % 256 else c.data o),
      dirty := true, in_use := false }
    (by show c.sector = s; exact parts_sector hp) rfl (by intro hd; simp at hd)
  subst hst
  refine ⟨hInv, fun x o => ?_⟩
  rw [hview x]
  by_cases hx : x = s
  · subst hx
    rw [if_pos rfl, if_pos rfl]
    show (if off ≤ o ∧ o < off + n then value % 256 else c.data o) = _
    rw [parts_data hp]
  · rw [if_neg hx, if_neg hx]

theorem cache_set_some (st : CacheState) (s value off n tid : Nat) (hnp : NoPins st) :
    ∃ st', cache_set st s value off n tid true = some st' := by
  obtain ⟨p, hp⟩ := cache_get_parts_some st s tid hnp
  exact ⟨_, by rw [cache_set, hp]; rfl⟩

/-! ### Marker and unpin operations -/

theorem find?_update_first {l : List CacheEntry} {s x : Nat}
    {f : CacheEntry → CacheEntry} (hsec : ∀ c, (f c).sector = c.sector) :
    (update_first l s f).find? (fun e => e.sector == x) =
      if x = s then (l.find? fun e => e.sector == x).map f
      else l.find? fun e => e.sector == x := by
  induction l with
  | nil => by_cases hx : x = s <;> simp [update_first, hx]
  | cons c rest ih =>
      by_cases hcs : c.sector = s
      · simp only [update_first, if_pos hcs]
        by_cases hx : x = s
        · subst hx
          rw [if_pos rfl]
          rw [List.find?_cons_of_pos _ (by simp [hsec, hcs]),
            List.find?_cons_of_pos _ (by simp [hcs])]
          rfl
        · rw [if_neg hx]
          rw [List.find?_cons_of_neg _ (by simp [hsec, hcs]; exact fun q => hx q.symm),
            List.find?_cons_of_neg _ (by simp [hcs]; exact fun q => hx q.symm)]
      · simp only [update_first, if_neg hcs]
        by_cases hcx : c.sector = x
        · rw [List.find?_cons_of_pos _ (by simp [hcx]),
            List.find?_cons_of_pos _ (by simp [hcx])]
          by_cases hx : x = s
          · exact absurd (hx ▸ hcx) hcs
          · rw [if_neg hx]
        · rw [List.find?_cons_of_neg _ (by simp [hcx]),
            List.find?_cons_of_neg _ (by simp [hcx]), ih]

theorem mem_update_first {l : List CacheEntry} {s : Nat} {f : CacheEntry → CacheEntry}
    {e : CacheEntry} (h : e ∈ update_first l s f) : e ∈ l ∨ ∃ c ∈ l, e = f c := by
  induction l with
  | nil => simp [update_first] at h
  | cons c rest ih =>
      by_cases hcs : c.sector = s
      · rw [update_first, if_pos hcs] at h
        rcases List.mem_cons.mp h with rfl | h'
        · exact Or.inr ⟨c, List.mem_cons_self _ _, rfl⟩
        · exact Or.inl (List.mem_cons_of_mem _ h')
      · rw [update_first, if_neg hcs] at h
        rcases List.mem_cons.mp h with rfl | h'
        · exact Or.inl (List.mem_cons_self _ _)
        · rcases ih h' with h2 | ⟨c2, hc2, he2⟩
          · exact Or.inl (List.mem_cons_of_mem _ h2)
          · exact Or.inr ⟨c2, List.mem_cons_of_mem _ hc2, he2⟩

theorem map_sector_update_first {l : List CacheEntry} {s : Nat}
    {f : CacheEntry → CacheEntry} (hsec : ∀ c, (f c).sector = c.sector) :
    (update_first l s f).map (fun e => e.sector) = l.map fun e => e.sector := by
  induction l with
  | nil => rfl
  | cons c rest ih =>
      by_cases hcs : c.sector = s
      · simp [update_first, hcs, hsec]
      · simp [update_first, hcs, ih]

/-- State-level facts for the three flag writers and `cache_unpin`: the
abstract view never changes, and the invariant is preserved whenever `f`
keeps sector, data and dirty bit. -/
theorem update_state_spec (st : CacheState) (s : Nat) (f : CacheEntry → CacheEntry)
    (hsec : ∀ c, (f c).sector = c.sector) (hdata : ∀ c, (f c).data = c.data)
    (hdirty : ∀ c, (f c).dirty = c.dirty)
    (hin : ∀ c, c.in_use = false → (f c).in_use = false) (hI : Inv st) :
    Inv ⟨st.disk, update_first st.entries s f⟩ ∧
    (∀ x, view ⟨st.disk, update_first st.entries s f⟩ x = view st x) := by
  obtain ⟨hu, hc, hnp⟩ := hI
  constructor
  · refine ⟨?_, ?_, ?_⟩
    · have h1 : (st.entries.map (fun e => e.sector)).Pairwise (· ≠ ·) :=
        List.pairwise_map.mpr hu
      have h2 : ((update_first st.entries s f).map (fun e => e.sector)).Pairwise
          (· ≠ ·) := by
        rw [map_sector_update_first hsec]
        exact h1
      exact List.pairwise_map.mp h2
    · intro e he hd
      rcases mem_update_first he with h' | ⟨c2, hc2, rfl⟩
      · exact hc e h' hd
      · rw [hdata, hsec]
        rw [hdirty] at hd
        exact hc c2 hc2 hd
    · intro e he
      rcases mem_update_first he with h' | ⟨c2, hc2, rfl⟩
      · exact hnp e h'
      · exact hin c2 (hnp c2 hc2)
  · intro x
    unfold view cache_find
    rw [find?_update_first hsec]
    by_cases hx : x = s
    · rw [if_pos hx]
      cases st.entries.find? (fun e => e.sector == x) with
      | some e => simp [hdata]
      | none => rfl
    · rw [if_neg hx]

/-- Lookup in a flag-updated cache: membership is unchanged; the looked-up
entry of sector `s` is seen through `f`. -/
theorem cache_find_update_first (st : CacheState) (s : Nat) (f : CacheEntry → CacheEntry)
    (x : Nat) (hsec : ∀ c, (f c).sector = c.sector) :
    cache_find ⟨st.disk, update_first st.entries s f⟩ x =
      if x = s then (cache_find st x).map f else cache_find st x :=
  find?_update_first hsec

theorem cache_set_readahead_spec (st : CacheState) (s : Nat) (hI : Inv st) :
    Inv (cache_set_readahead st s) ∧
      ∀ x, view (cache_set_readahead st s) x = view st x :=
  update_state_spec st s _ (fun _ => rfl) (fun _ => rfl) (fun _ => rfl)
    (fun _ h => h) hI

theorem cache_clear_readahead_spec (st : CacheState) (s : Nat) (hI : Inv st) :
    Inv (cache_clear_readahead st s) ∧
      ∀ x, view (cache_clear_readahead st s) x = view st x :=
  update_state_spec st s _ (fun _ => rfl) (fun _ => rfl) (fun _ => rfl)
    (fun _ h => h) hI

theorem cache_unpin_spec (st : CacheState) (s : Nat) (hI : Inv st) :
    Inv (cache_unpin st s) ∧ ∀ x, view (cache_unpin st s) x = view st x :=
  update_state_spec st s _ (fun _ => rfl) (fun _ => rfl) (fun _ => rfl)
    (fun _ _ => rfl) hI

/-! ### `cache_flush` and `cache_free` preserve the abstract contents -/

theorem foldl_writeback_not_mem {l : List CacheEntry} {d : Disk} {x : Nat}
    (h : ∀ c ∈ l, c.sector ≠ x) : l.foldl writeback d x = d x := by
  induction l generalizing d with
  | nil => rfl
  | cons c rest ih =>
      rw [List.foldl_cons, ih fun e he => h e (List.mem_cons_of_mem _ he)]
      exact writeback_ne fun q => (h c (List.mem_cons_self _ _)) q.symm

theorem foldl_writeback_at {l : List CacheEntry} {d : Disk} {c : CacheEntry}
    (hu : l.Pairwise fun a b => a.sector ≠ b.sector) (hc : c ∈ l) :
    l.foldl writeback d c.sector = if c.dirty = true then c.data else d c.sector := by
  induction l generalizing d with
  | nil => simp at hc
  | cons e rest ih =>
      obtain ⟨he, hu'⟩ := List.pairwise_cons.mp hu
      rw [List.foldl_cons]
      rcases List.mem_cons.mp hc with rfl | hmem
      · rw [foldl_writeback_not_mem fun a ha => (he a ha).symm]
        exact writeback_sector
      · rw [ih hu' hmem]
        by_cases hd : c.dirty = true
        · rw [if_pos hd, if_pos hd]
        · rw [if_neg hd, if_neg hd]
          refine writeback_ne fun q => ?_
          exact he c hmem q.symm

theorem cache_flush_spec (st : CacheState) (hI : Inv st) :
    Inv (cache_flush st) ∧ ∀ x, view (cache_flush st) x = view st x := by
  obtain ⟨hu, hc, hnp⟩ := hI
  have hfind : ∀ x, cache_find (cache_flush st) x =
      (cache_find st x).map fun c => { c with dirty := false } := by
    intro x
    show (st.entries.map fun c => ({ c with dirty := false } : CacheEntry)).find?
        (fun c => c.sector == x) =
      (st.entries.find? fun c => c.sector == x).map
        fun c => ({ c with dirty := false } : CacheEntry)
    rw [List.find?_map]
    rfl
  refine ⟨⟨?_, ?_, ?_⟩, ?_⟩
  · have h1 : (st.entries.map (fun e => e.sector)).Pairwise (· ≠ ·) :=
      List.pairwise_map.mpr hu
    have h2 : ((cache_flush st).entries.map (fun e => e.sector)).Pairwise (· ≠ ·) := by
      show ((st.entries.map fun c => { c with dirty := false }).map
        (fun e => e.sector)).Pairwise (· ≠ ·)
      rw [List.map_map]
      exact h1
    exact List.pairwise_map.mp h2
  · intro e he _
    obtain ⟨c, hcm, rfl⟩ := List.mem_map.mp he
    show c.data = st.entries.foldl writeback st.disk c.sector
    rw [foldl_writeback_at hu hcm]
    by_cases hd : c.dirty = true
    · rw [if_pos hd]
    · rw [if_neg hd]
      exact hc c hcm (Bool.eq_false_iff.mpr hd ▸ rfl)
  · intro e he
    obtain ⟨c, hcm, rfl⟩ := List.mem_map.mp he
    exact hnp c hcm
  · intro x
    unfold view
    rw [hfind x]
    cases hf : cache_find st x with
    | some c => rfl
    | none =>
        show st.entries.foldl writeback st.disk x = st.disk x
        exact foldl_writeback_not_mem (cache_find_none hf)

theorem cache_free_spec (st : CacheState) (s : Nat) (hI : Inv st) :
    Inv (cache_free st s) ∧ ∀ x, view (cache_free st s) x = view st x := by
  obtain ⟨hu, hc, hnp⟩ := hI
  cases hf : cache_find st s with
  | none =>
      have heq : cache_free st s = st := by
        unfold cache_free
        rw [hf]
      rw [heq]
      exact ⟨⟨hu, hc, hnp⟩, fun x => rfl⟩
  | some c =>
      obtain ⟨hcm, hcs⟩ := cache_find_some hf
      have heq : cache_free st s =
          ⟨writeback st.disk c, remove_first st.entries s⟩ := by
        unfold cache_free
        rw [hf]
      rw [heq]
      have hnots : ∀ e ∈ remove_first st.entries s, e.sector ≠ s := by
        intro e he hes
        have := List.find?_eq_none.mp (@find?_remove_first_self st.entries s hu) e he
        simp [hes] at this
      refine ⟨⟨?_, ?_, ?_⟩, ?_⟩
      · exact hu.sublist (remove_first_sublist _ _)
      · intro e he hd
        show e.data = writeback st.disk c e.sector
        rw [@writeback_ne st.disk c e.sector fun q => hnots e he (q.trans hcs)]
        exact hc e (mem_remove_first he) hd
      · intro e he
        exact hnp e (mem_remove_first he)
      · intro x
        unfold view
        by_cases hx : x = s
        · subst hx
          show (match (remove_first st.entries x).find? (fun e => e.sector == x) with
            | some e => e.data
            | none => writeback st.disk c x) = _
          rw [@find?_remove_first_self st.entries x hu, hf]
          show writeback st.disk c x = c.data
          rw [← hcs, writeback_sector]
          by_cases hd : c.dirty = true
          · rw [if_pos hd]
          · rw [if_neg hd]
            exact (hc c hcm (Bool.eq_false_iff.mpr hd ▸ rfl)).symm
        · show (match (remove_first st.entries s).find? (fun e => e.sector == x) with
            | some e => e.data
            | none => writeback st.disk c x) = _
          rw [find?_remove_first_ne hx,
            @writeback_ne st.disk c x fun q => hx (q.trans hcs)]
          rfl

/-! ### Intervening cache traffic

`Perturb st st'` captures an arbitrary sequence of cache operations that
other threads may run between an `inode_write_at` and an `inode_read_at`:
lookups of any sector through `cache_read` (which miss, allocate and evict
entries at capacity, with dirty write-back), periodic `cache_flush` runs of
the write-behind task, and `cache_free` calls. -/

inductive Perturb : CacheState → CacheState → Prop
  | refl (st : CacheState) : Perturb st st
  | read (st st₁ st₂ : CacheState) (s off n tid : Nat) (bs : List Nat) :
      cache_read st s off n tid true = some (bs, st₁) → Perturb st₁ st₂ →
      Perturb st st₂
  | flush (st st₂ : CacheState) : Perturb (cache_flush st) st₂ → Perturb st st₂
  | free (st st₂ : CacheState) (s : Nat) : Perturb (cache_free st s) st₂ →
      Perturb st st₂

theorem perturb_spec {st st' : CacheState} (h : Perturb st st') :
    Inv st → Inv st' ∧ ∀ x, view st' x = view st x := by
  induction h with
  | refl st => exact fun hI => ⟨hI, fun x => rfl⟩
  | read st st₁ st₂ s off n tid bs hr _ ih =>
      intro hI
      obtain ⟨_, hI₁, hv₁⟩ := cache_read_spec hr hI
      obtain ⟨hI₂, hv₂⟩ := ih hI₁
      exact ⟨hI₂, fun x => (hv₂ x).trans (hv₁ x)⟩
  | flush st st₂ _ ih =>
      intro hI
      obtain ⟨hIf, hvf⟩ := cache_flush_spec st hI
      obtain ⟨hI₂, hv₂⟩ := ih hIf
      exact ⟨hI₂, fun x => (hv₂ x).trans (hvf x)⟩
  | free st st₂ s _ ih =>
      intro hI
      obtain ⟨hIf, hvf⟩ := cache_free_spec st s hI
      obtain ⟨hI₂, hv₂⟩ := ih hIf
      exact ⟨hI₂, fun x => (hv₂ x).trans (hvf x)⟩

/-! ## Inode engine (`src/filesys/inode.c`)

The inode layer runs with `tid = 0` and `allocOk = true` at every cache
call site: kernel heap allocation is modelled as succeeding (the
`MALLOC`-failure early returns of the source are unreachable in the model
and noted where they occur).  The advisory inode lock acquire/release pairs
are elided: the model is sequential. -/

/-- Contents of an in-memory 512-byte buffer copied out of the cache. -/
def bytes_fn (bs : List Nat) : SectorData := fun o => bs.getD o 0

/-- The 512-byte image of an in-memory buffer, for `cache_write (s, buf, 0,
BLOCK_SECTOR_SIZE)`. -/
def fn_bytes (f : SectorData) : List Nat := (List.range 512).map f

/-- Store a 32-bit word into an in-memory buffer (e.g.
`data->sector[i] = s`). -/
def set_word (f : SectorData) (pos v : Nat) : SectorData :=
  write_bytes f pos (le32_bytes v)

/-- The static `char zeros[BLOCK_SECTOR_SIZE]`. -/
def zeros_list : List Nat := List.replicate 512 0

/-- Stateful `find_sector`: resolves a logical sector index through the
12 direct slots, the single-indirect block (`P[12]`, inode byte offset 48)
or the double-indirect block (`P[13]`, offset 52), reading each level
through the cache.  A zero slot at any level yields `SECTOR_ERROR`. -/
def find_sector (st : CacheState) (isec index : Nat) : Option (Nat × CacheState) :=
  if index < DIRECT_SECTOR_NUMBER then
    match cache_read_at st isec (4 * index) 0 true with
    | none => none
    | some (sector, st₁) =>
        if sector ≠ 0 then some (sector, st₁) else some (SECTOR_ERROR, st₁)
  else if index < DIRECT_SECTOR_NUMBER + DISK_SECTOR_NUMBER then
    match cache_read_at st isec 48 0 true with
    | none => none
    | some (sector, st₁) =>
        if sector ≠ 0 then
          match cache_read st₁ sector 0 BLOCK_SECTOR_SIZE 0 true with
          | none => none
          | some (first_level, st₂) =>
              if word_of_block first_level (index - DIRECT_SECTOR_NUMBER) ≠ 0 then
                some (word_of_block first_level (index - DIRECT_SECTOR_NUMBER), st₂)
              else some (SECTOR_ERROR, st₂)
        else some (SECTOR_ERROR, st₁)
  else if index < DIRECT_SECTOR_NUMBER + DISK_SECTOR_NUMBER +
      DISK_SECTOR_NUMBER * DISK_SECTOR_NUMBER then
    match cache_read_at st isec 52 0 true with
    | none => none
    | some (sector, st₁) =>
        if sector ≠ 0 then
          match cache_read st₁ sector 0 BLOCK_SECTOR_SIZE 0 true with
          | none => none
          | some (first_level, st₂) =>
              let fo := (index - DIRECT_SECTOR_NUMBER - DISK_SECTOR_NUMBER) /
                DISK_SECTOR_NUMBER
              let so := (index - DIRECT_SECTOR_NUMBER - DISK_SECTOR_NUMBER) %
                DISK_SECTOR_NUMBER
              if word_of_block first_level fo ≠ 0 then
                match cache_read st₂ (word_of_block first_level fo) 0
                    BLOCK_SECTOR_SIZE 0 true with
                | none => none
                | some (second_level, st₃) =>
                    if word_of_block second_level so ≠ 0 then
                      some (word_of_block second_level so, st₃)
                    else some (SECTOR_ERROR, st₃)
              else some (SECTOR_ERROR, st₂)
        else some (SECTOR_ERROR, st₁)
  else some (SECTOR_ERROR, st)

/-- The 32-bit slot `k` of sector `s` in the abstract storage. -/
def slot (v : Disk) (s k : Nat) : Nat := word_at (v s) (4 * k)

/-- Logical-to-physical resolution written from the specification text
(spec 4.3): direct below 12, single-indirect below 140, double-indirect
below `140 + 128·128`; a zero slot at any level is a hole (`none`).  This
is the spec-side definition of the refinement claim C2, to be compared
with the embedded `find_sector`. -/
def resolve_spec (v : Disk) (isec i : Nat) : Option Nat :=
  if i < 12 then
    let p := slot v isec i
    if p = 0 then none else some p
  else if i < 140 then
    let sn := slot v isec 12
    if sn = 0 then none
    else
      let p := slot v sn (i - 12)
      if p = 0 then none else some p
  else if i < 140 + 128 * 128 then
    let dn := slot v isec 13
    if dn = 0 then none
    else
      let fl := slot v dn ((i - 140) / 128)
      if fl = 0 then none
      else
        let p := slot v fl ((i - 140) % 128)
        if p = 0 then none else some p
  else none

/-- `byte_to_sector`: `find_sector (pos >> 9)` below `length`,
`SECTOR_ERROR` at or past it. -/
def byte_to_sector (st : CacheState) (isec length pos : Nat) :
    Option (Nat × CacheState) :=
  if pos < length then find_sector st isec (pos / 512)
  else some (SECTOR_ERROR, st)

/-- `inode_length`: 32-bit load of the length field (inode byte offset 56,
`offsetof (struct inode_disk, length)`). -/
def inode_length (st : CacheState) (isec : Nat) : Option (Nat × CacheState) :=
  cache_read_at st isec 56 0 true

/-! ## Adaptive read-ahead (`struct inode_ra_state`, `filesys/inode.h`) -/

structure RaState where
  start : Int
  size : Nat
  async_size : Nat
  ra_pages : Nat
  prev_pos : Int
deriving DecidableEq

/-- `fls` from `lib/log2.h`: index of the most significant set bit,
1-based; 0 for input 0. -/
def fls (x : Nat) : Nat := if x = 0 then 0 else Nat.log2 x + 1

/-- `roundup_pow_of_two` (`1UL << fls (x - 1)`); all call sites pass a
positive argument. -/
def roundup_pow_of_two (x : Nat) : Nat := 2 ^ fls (x - 1)

/-- `get_init_ra_size`. -/
def get_init_ra_size (size max : Nat) : Nat :=
  let newsize := roundup_pow_of_two size
  if newsize ≤ max / 32 then newsize * 4
  else if newsize ≤ max / 4 then newsize * 2
  else max

/-- `get_next_ra_size` (reads the current window size from the state). -/
def get_next_ra_size (ra : RaState) (max : Nat) : Nat :=
  if ra.size < max / 16 then 4 * ra.size
  else if ra.size ≤ max / 2 then 2 * ra.size
  else max

/-- `next_miss`: bounded linear scan (up to `max_scan` steps, the last
argument) for the first index whose sector is unresolved or absent from
the cache. -/
def next_miss : CacheState → Nat → Nat → Nat → Option (Nat × CacheState)
  | st, _, index, 0 => some (index, st)
  | st, isec, index, m + 1 =>
      match find_sector st isec index with
      | none => none
      | some (sector, st₁) =>
          if sector = SECTOR_ERROR then some (index, st₁)
          else
            match cache_find st₁ sector with
            | none => some (index, st₁)
            | some _ => next_miss st₁ isec (index + 1) m

/-- Loop body of `do_cache_readahead` over `i < nr_to_read`: an
already-cached sector resets the fresh counter; an absent one is admitted
via `cache_get` (a NULL return would be dereferenced by
`c->in_use = false`, hence `none`), marked when `i` equals
`nr_to_read - lookahead_size` (translated overflow-faithfully as
`i + lookahead = nr_to_read`), and unpinned. -/
def do_ra_loop (isec : Nat) (ed : Int) (start : Int) (nr_to_read lookahead : Nat)
    (i nr : Nat) (st : CacheState) : Option (Nat × CacheState) :=
  if _h : i < nr_to_read then
    let index : Int := start + i
    if index > ed then some (nr, st)
    else
      match find_sector st isec (u32 index) with
      | none => none
      | some (sector, st₁) =>
          match cache_find st₁ sector with
          | some _ => do_ra_loop isec ed start nr_to_read lookahead (i + 1) 0 st₁
          | none =>
              match cache_get st₁ sector 0 true with
              | none => none
              | some st₂ =>
                  let st₃ := if i + lookahead = nr_to_read then
                    cache_set_readahead st₂ sector else st₂
                  do_ra_loop isec ed start nr_to_read lookahead (i + 1) (nr + 1)
                    (cache_unpin st₃ sector)
  else some (nr, st)
termination_by nr_to_read - i

/-- `do_cache_readahead`: returns the count of newly admitted sectors as
maintained by the loop (reset on every cache hit). -/
def do_cache_readahead (st : CacheState) (isec : Nat) (start : Int)
    (nr_to_read lookahead : Nat) : Option (Nat × CacheState) :=
  match inode_length st isec with
  | none => none
  | some (length, st₁) =>
      if length = 0 then some (0, st₁)
      else do_ra_loop isec (((length - 1) / 512 : Nat) : Int) start nr_to_read
        lookahead 0 0 st₁

/-- The `initial_readahead:` label of `ondemand_readahead`. -/
def ra_initial (ra : RaState) (offset req_size max_pages : Nat) : RaState :=
  let sz := get_init_ra_size req_size max_pages
  { ra with
    start := (offset : Int), size := sz,
    async_size := if sz > req_size then sz - req_size else sz }

/-- The `readit:` label of `ondemand_readahead`: optional self-merge of the
next window, then issue. -/
def ra_readit (st : CacheState) (isec : Nat) (ra : RaState) (offset : Nat)
    (max_pages : Nat) : Option (Nat × RaState × CacheState) :=
  let ra' :=
    if (offset : Int) = ra.start ∧ ra.size = ra.async_size then
      let add := get_next_ra_size ra max_pages
      if ra.size + add ≤ max_pages then
        { ra with async_size := add, size := ra.size + add }
      else { ra with size := max_pages, async_size := max_pages / 2 }
    else ra
  (do_cache_readahead st isec ra'.start ra'.size ra'.async_size).map
    fun p => (p.1, ra', p.2)

/-- `ondemand_readahead`: the six-way decision tree.  The unsigned
comparisons of the source are rendered through `u32`. -/
def ondemand_readahead (st : CacheState) (isec : Nat) (ra : RaState)
    (hit_readahead_marker : Bool) (offset req_size : Nat) :
    Option (Nat × RaState × CacheState) :=
  let max_pages := ra.ra_pages
  if offset = 0 then
    ra_readit st isec (ra_initial ra offset req_size max_pages) offset max_pages
  else if u32 (offset : Int) = u32 (ra.start + (ra.size : Int) - (ra.async_size : Int)) ∨
      u32 (offset : Int) = u32 (ra.start + (ra.size : Int)) then
    let ra₁ := { ra with start := ra.start + (ra.size : Int) }
    let ra₂ := { ra₁ with size := get_next_ra_size ra₁ max_pages }
    ra_readit st isec { ra₂ with async_size := ra₂.size } offset max_pages
  else if hit_readahead_marker then
    match next_miss st isec (offset + 1) max_pages with
    | none => none
    | some (start, st₁) =>
        if start - offset > max_pages then some (0, ra, st₁)
        else
          let ra₁ := { ra with
            start := (start : Int), size := (start - offset) + req_size }
          let ra₂ := { ra₁ with size := get_next_ra_size ra₁ max_pages }
          ra_readit st₁ isec { ra₂ with async_size := ra₂.size } offset max_pages
  else if req_size > max_pages then
    ra_readit st isec (ra_initial ra offset req_size max_pages) offset max_pages
  else if (offset : Int) - Int.ediv ra.prev_pos 512 ≤ 1 then
    ra_readit st isec (ra_initial ra offset req_size max_pages) offset max_pages
  else
    (do_cache_readahead st isec (offset : Int) req_size 0).map
      fun p => (p.1, ra, p.2)

/-- `cache_sync_readahead`: no-op when read-ahead is disabled. -/
def cache_sync_readahead (st : CacheState) (isec : Nat) (ra : RaState)
    (offset req_size : Nat) : Option (RaState × CacheState) :=
  if ra.ra_pages = 0 then some (ra, st)
  else (ondemand_readahead st isec ra false offset req_size).map
    fun p => (p.2.1, p.2.2)

/-- `cache_async_readahead`: clears the triggering marker, then runs the
decision tree in marker-hit mode. -/
def cache_async_readahead (st : CacheState) (isec : Nat) (ra : RaState)
    (sector : Nat) (offset req_size : Nat) : Option (RaState × CacheState) :=
  if ra.ra_pages = 0 then some (ra, st)
  else
    (ondemand_readahead (cache_clear_readahead st sector) isec ra true offset
      req_size).map fun p => (p.2.1, p.2.2)

/-! ## `inode_read_at` -/

/-- One pass of the copy loop of `inode_read_at`, recursing on the
remaining byte count.  Each iteration resolves the current logical sector,
triggers synchronous read-ahead on a cache miss and asynchronous
read-ahead on a marker hit, bounds the chunk against EOF and the sector
boundary, copies through the cache, and advances.  All exits rebuild
`prev_pos` as `prev_index * 512 | prev_offset`. -/
def read_loop (isec length last_index : Nat) (size index sector_ofs : Nat)
    (acc : List Nat) (ra : RaState) (prev_index prev_offset : Int)
    (st : CacheState) : Option (List Nat × RaState × CacheState) :=
  if hsz : size = 0 then
    some (acc, { ra with prev_pos := prev_index * 512 + prev_offset }, st)
  else
    match find_sector st isec index with
    | none => none
    | some (sector, st₁) =>
        match (match cache_find st₁ sector with
          | none => cache_sync_readahead st₁ isec ra index (last_index - index)
          | some _ => some (ra, st₁)) with
        | none => none
        | some (ra₁, st₂) =>
            match (if cache_readahead st₂ sector then
                cache_async_readahead st₂ isec ra₁ sector index (last_index - index)
              else some (ra₁, st₂)) with
            | none => none
            | some (ra₂, st₃) =>
                let end_index := (length - 1) / 512
                if index > end_index then
                  some (acc, { ra₂ with prev_pos := prev_index * 512 + prev_offset },
                    st₃)
                else
                  let sector_left₀ :=
                    if index = end_index then ((length - 1) % 512) + 1 else 512
                  if index = end_index ∧ sector_left₀ ≤ sector_ofs then
                    some (acc,
                      { ra₂ with prev_pos := prev_index * 512 + prev_offset }, st₃)
                  else
                    let sector_left := sector_left₀ - sector_ofs
                    let chunk := min size sector_left
                    if hck : chunk = 0 then
                      some (acc,
                        { ra₂ with prev_pos := prev_index * 512 + prev_offset }, st₃)
                    else
                      match cache_read st₃ sector sector_ofs chunk 0 true with
                      | none => none
                      | some (bs, st₄) =>
                          let so' := sector_ofs + chunk
                          read_loop isec length last_index (size - chunk)
                            (index + so' / 512) (so' % 512) (acc ++ bs) ra₂
                            (index : Int) ((so' % 512 : Nat) : Int) st₄
termination_by size
decreasing_by
  exact Nat.sub_lt (Nat.pos_of_ne_zero hsz) (Nat.pos_of_ne_zero hck)

/-- `inode_read_at`: returns the bytes read, the updated read-ahead state
and the cache state.  A zero length returns immediately (after the length
lookup touched the cache) with the read-ahead state untouched. -/
def inode_read_at (st : CacheState) (isec : Nat) (ra : RaState)
    (size offset : Nat) : Option (List Nat × RaState × CacheState) :=
  match inode_length st isec with
  | none => none
  | some (length, st₁) =>
      if length = 0 then some ([], ra, st₁)
      else
        read_loop isec length ((offset + size + 511) / 512) size (offset / 512)
          (offset % 512) [] ra (Int.ediv ra.prev_pos 512)
          (Int.emod ra.prev_pos 512) st₁

/-! ## Free map, creation, extension, write (`src/filesys/inode.c`) -/

/-- Modelled from the spec: the free-sector map (spec 4.2,
`filesys/free-map.c` is outside the sources).  `allocate (1, out)` hands
out a free sector; `release (sn, 1)` frees it.  The model keeps the list
of still-free sectors (`avail`, handed out from the head, standing for
first-fit bitmap order) and logs every release in `freed`. -/
structure FreeMap where
  avail : List Nat
  freed : List Nat
deriving DecidableEq

/-- Modelled from the spec: `free_map_allocate (1, sectorp)`; fails with
`none`-like `false` when no sector is free, in which case the output slot
is untouched. -/
def free_map_allocate (fm : FreeMap) : Option (Nat × FreeMap) :=
  match fm.avail with
  | [] => none
  | s :: rest => some (s, ⟨rest, fm.freed⟩)

/-- Modelled from the spec: `free_map_release (sector, 1)`. -/
def free_map_release (fm : FreeMap) (s : Nat) : FreeMap :=
  ⟨fm.avail, fm.freed ++ [s]⟩

/-- `free_sectors`: release every non-zero slot of an in-memory
`struct data_disk` (slots are 32-bit words `dd i`). -/
def free_sectors (dd : Nat → Nat) (fm : FreeMap) : FreeMap :=
  (List.range DISK_SECTOR_NUMBER).foldl
    (fun acc i => if dd i ≠ 0 then free_map_release acc (dd i) else acc) fm

/-- `free_indirect_sectors`: for every non-zero first-level slot, read the
second-level block through the cache, release its data sectors, then the
slot itself.  The last argument is the scan index `i` (the source loop
from 0 to 127). -/
def free_indirect_loop (fl : Nat → Nat) (i : Nat) (st : CacheState)
    (fm : FreeMap) : Option (CacheState × FreeMap) :=
  if _h : i < DISK_SECTOR_NUMBER then
    if fl i ≠ 0 then
      match cache_read st (fl i) 0 BLOCK_SECTOR_SIZE 0 true with
      | none => none
      | some (bs, st₁) =>
          free_indirect_loop fl (i + 1) st₁
            (free_map_release (free_sectors (word_of_block bs) fm) (fl i))
    else free_indirect_loop fl (i + 1) st fm
  else some (st, fm)
termination_by DISK_SECTOR_NUMBER - i

/-- Inner loop of `allocate_first_level_sector`: allocate and zero-fill up
to `remain` data sectors into consecutive slots from `i`.  `false` reports
a `free_map_allocate` failure at the current point, for the caller's
rollback. -/
def alloc_fl_loop (st : CacheState) (fm : FreeMap) (fl : Nat → Nat)
    (remain i : Nat) : Option (Bool × (Nat → Nat) × CacheState × FreeMap) :=
  if _h : 0 < remain ∧ i < DISK_SECTOR_NUMBER then
    match free_map_allocate fm with
    | none => some (false, fl, st, fm)
    | some (s, fm₁) =>
        match cache_write st s zeros_list 0 0 true with
        | none => none
        | some st₁ =>
            alloc_fl_loop st₁ fm₁ (fun j => if j = i then s else fl j)
              (remain - 1) (i + 1)
  else some (true, fl, st, fm)
termination_by remain

/-- `allocate_first_level_sector`: allocate the indirect block and up to
128 zero-filled data sectors; on data-sector failure, release what the
call allocated and zero the output slot.  `ASSERT (remain > 0)` faults on
zero. -/
def allocate_first_level_sector (st : CacheState) (fm : FreeMap) (remain : Nat)
    (sectorp : Nat) : Option (Bool × Nat × CacheState × FreeMap) :=
  if remain = 0 then none
  else
    match free_map_allocate fm with
    | none => some (false, sectorp, st, fm)
    | some (sp, fm₁) =>
        match alloc_fl_loop st fm₁ (fun _ => 0) remain 0 with
        | none => none
        | some (true, fl, st₁, fm₂) =>
            match cache_write st₁ sp (block_bytes fl) 0 0 true with
            | none => none
            | some st₂ => some (true, sp, st₂, fm₂)
        | some (false, fl, st₁, fm₂) =>
            some (false, 0, st₁, free_map_release (free_sectors fl fm₂) sp)

/-- Inner loop of `allocate_second_level_sector` over one second-level
block. -/
def alloc_sl_inner (st : CacheState) (fm : FreeMap) (sl : Nat → Nat)
    (remain j : Nat) : Option (Bool × (Nat → Nat) × Nat × CacheState × FreeMap) :=
  if _h : 0 < remain ∧ j < DISK_SECTOR_NUMBER then
    match free_map_allocate fm with
    | none => some (false, sl, remain, st, fm)
    | some (s, fm₁) =>
        match cache_write st s zeros_list 0 0 true with
        | none => none
        | some st₁ =>
            alloc_sl_inner st₁ fm₁ (fun k => if k = j then s else sl k)
              (remain - 1) (j + 1)
  else some (true, sl, remain, st, fm)
termination_by remain

/-- Outer loop of `allocate_second_level_sector`: per first-level slot,
allocate the slot, fill a fresh second-level block, write it back;
on failure release everything this call allocated (the current block's
sectors, the slot, then every completed second-level subtree and the
double-indirect block itself). -/
def alloc_sl_outer (st : CacheState) (fm : FreeMap) (fl : Nat → Nat)
    (sp : Nat) (remain i : Nat) :
    Option (Bool × (Nat → Nat) × CacheState × FreeMap) :=
  if _h : 0 < remain ∧ i < DISK_SECTOR_NUMBER then
    match free_map_allocate fm with
    | none =>
        match free_indirect_loop fl 0 st fm with
        | none => none
        | some (st₁, fm₁) => some (false, fl, st₁, free_map_release fm₁ sp)
    | some (si, fm₁) =>
        let fl₁ := fun k => if k = i then si else fl k
        match alloc_sl_inner st fm₁ (fun _ => 0) remain 0 with
        | none => none
        | some (false, sl, _, st₁, fm₂) =>
            let fm₃ := free_map_release (free_sectors sl fm₂) si
            let fl₂ := fun k => if k = i then 0 else fl₁ k
            match free_indirect_loop fl₂ 0 st₁ fm₃ with
            | none => none
            | some (st₂, fm₄) => some (false, fl₂, st₂, free_map_release fm₄ sp)
        | some (true, sl, remain', st₁, fm₂) =>
            match cache_write st₁ si (block_bytes sl) 0 0 true with
            | none => none
            | some st₂ => alloc_sl_outer st₂ fm₂ fl₁ sp remain' (i + 1)
  else some (true, fl, st, fm)
termination_by DISK_SECTOR_NUMBER - i

/-- `allocate_second_level_sector`. -/
def allocate_second_level_sector (st : CacheState) (fm : FreeMap) (remain : Nat)
    (sectorp : Nat) : Option (Bool × Nat × CacheState × FreeMap) :=
  if remain = 0 then none
  else
    match free_map_allocate fm with
    | none => some (false, sectorp, st, fm)
    | some (sp, fm₁) =>
        match alloc_sl_outer st fm₁ (fun _ => 0) sp remain 0 with
        | none => none
        | some (true, fl, st₁, fm₂) =>
            match cache_write st₁ sp (block_bytes fl) 0 0 true with
            | none => none
            | some st₂ => some (true, sp, st₂, fm₂)
        | some (false, _, st₁, fm₂) => some (false, 0, st₁, fm₂)

/-- Group loop of `free_inode` over the double-indirect tree: one completed
second-level block per step (read through the cache, data sectors and the
slot released), or a 128-index skip on a zero slot.  Indices are `Nat`,
so the (unreachable) `i < 140` corner truncates instead of wrapping the
C `size_t` subtraction. -/
def free_sl_groups (fl : Nat → Nat) (sectors i : Nat) (st : CacheState)
    (fm : FreeMap) : Option (CacheState × FreeMap) :=
  if h : i < sectors ∧ i < 140 + 16384 then
    let flo := (i - 140) / 128
    if fl flo ≠ 0 then
      match cache_read st (fl flo) 0 BLOCK_SECTOR_SIZE 0 true with
      | none => none
      | some (bs, st₁) =>
          let bound := min sectors (140 + (flo + 1) * 128)
          let fm₁ := (List.range (bound - i)).foldl
            (fun acc k =>
              if word_of_block bs ((i + k - 140) % 128) ≠ 0 then
                free_map_release acc (word_of_block bs ((i + k - 140) % 128))
              else acc) fm
          free_sl_groups fl sectors bound st₁ (free_map_release fm₁ (fl flo))
    else free_sl_groups fl sectors (i + 128) st fm
  else some (st, fm)
termination_by (140 + 16384) - i
decreasing_by
  · have h1 : i < min sectors (140 + ((i - 140) / 128 + 1) * 128) := by
      refine lt_min h.1 ?_
      omega
    omega
  · omega

/-- `free_inode (data, sectors)`: release the first `sectors` logical
sectors of the inode image `data` (a 512-byte buffer; slot `i` is the word
at byte `4 i`, `P[12]` at byte 48, `P[13]` at byte 52), plus every
consulted indirect block. -/
def free_inode (st : CacheState) (fm : FreeMap) (data : SectorData)
    (sectors : Nat) : Option (CacheState × FreeMap) :=
  if sectors = 0 then some (st, fm)
  else
    let fm₁ := (List.range DIRECT_SECTOR_NUMBER).foldl
      (fun acc i =>
        if i < sectors ∧ word_at data (4 * i) ≠ 0 then
          free_map_release acc (word_at data (4 * i))
        else acc) fm
    if sectors ≤ DIRECT_SECTOR_NUMBER then some (st, fm₁)
    else
      match (if word_at data 48 ≠ 0 then
          (cache_read st (word_at data 48) 0 BLOCK_SECTOR_SIZE 0 true).map fun p =>
            let fmx := (List.range (min sectors 140 - 12)).foldl
              (fun acc k =>
                if word_of_block p.1 k ≠ 0 then
                  free_map_release acc (word_of_block p.1 k)
                else acc) fm₁
            (min sectors 140, p.2, free_map_release fmx (word_at data 48))
        else some (DIRECT_SECTOR_NUMBER, st, fm₁)) with
      | none => none
      | some (i₂, st₁, fm₂) =>
          if sectors ≤ i₂ then some (st₁, fm₂)
          else
            if word_at data 52 ≠ 0 then
              match cache_read st₁ (word_at data 52) 0 BLOCK_SECTOR_SIZE 0 true with
              | none => none
              | some (flbs, st₂) =>
                  match free_sl_groups (word_of_block flbs) sectors i₂ st₂ fm₂ with
                  | none => none
                  | some (st₃, fm₃) =>
                      some (st₃, free_map_release fm₃ (word_at data 52))
            else some (st₁, fm₂)

/-- Allocation loop of `inode_create`: direct slots one at a time, then one
single-indirect stage, then one double-indirect stage; anything larger
aborts.  On failure the partially filled inode image is handed back for
the error path. -/
def inode_create_loop (st : CacheState) (fm : FreeMap) (di : SectorData)
    (sectors i : Nat) : Option (Bool × SectorData × CacheState × FreeMap) :=
  if _h : i < sectors then
    if i < DIRECT_SECTOR_NUMBER then
      match free_map_allocate fm with
      | none => some (false, di, st, fm)
      | some (s, fm₁) =>
          match cache_write st s zeros_list 0 0 true with
          | none => none
          | some st₁ =>
              inode_create_loop st₁ fm₁ (set_word di (4 * i) s) sectors (i + 1)
    else if i < DIRECT_SECTOR_NUMBER + DISK_SECTOR_NUMBER then
      match allocate_first_level_sector st fm (sectors - i) (word_at di 48) with
      | none => none
      | some (true, sp, st₁, fm₁) =>
          inode_create_loop st₁ fm₁ (set_word di 48 sp) sectors
            (i + DISK_SECTOR_NUMBER)
      | some (false, sp, st₁, fm₁) => some (false, set_word di 48 sp, st₁, fm₁)
    else if i < DIRECT_SECTOR_NUMBER + DISK_SECTOR_NUMBER +
        DISK_SECTOR_NUMBER * DISK_SECTOR_NUMBER then
      match allocate_second_level_sector st fm (sectors - i) (word_at di 52) with
      | none => none
      | some (true, sp, st₁, fm₁) =>
          inode_create_loop st₁ fm₁ (set_word di 52 sp) sectors
            (i + DISK_SECTOR_NUMBER * DISK_SECTOR_NUMBER)
      | some (false, sp, st₁, fm₁) => some (false, set_word di 52 sp, st₁, fm₁)
    else some (false, di, st, fm)
  else some (true, di, st, fm)
termination_by sectors - i
decreasing_by
  · omega
  · omega
  · omega

/-- `inode_create (sector, length, type)`: build the zeroed inode image
with length, type and magic, allocate the data sectors, then write the
image; on allocation failure, roll back through
`free_inode (disk_inode, DIRECT_SECTOR_NUMBER)` — note the constant 12
second argument of the source's error path. -/
def inode_create (st : CacheState) (fm : FreeMap) (sector length itype : Nat) :
    Option (Bool × CacheState × FreeMap) :=
  let di₀ : SectorData := fun o =>
    if o < 56 then 0
    else if o < 60 then word_byte length (o - 56)
    else if o < 84 then 0
    else if o < 88 then word_byte itype (o - 84)
    else if o < 92 then word_byte INODE_MAGIC (o - 88)
    else 0
  match inode_create_loop st fm di₀ ((length + 511) / 512) 0 with
  | none => none
  | some (true, di, st₁, fm₁) =>
      match cache_write st₁ sector (fn_bytes di) 0 0 true with
      | none => none
      | some st₂ => some (true, st₂, fm₁)
  | some (false, di, st₁, fm₁) =>
      match free_inode st₁ fm₁ di DIRECT_SECTOR_NUMBER with
      | none => none
      | some (st₂, fm₂) => some (false, st₂, fm₂)

/-! ## `extend_inode` and `inode_write_at` -/

/-- Direct stage of `extend_inode`: allocate and zero-fill missing direct
sectors, recording them in the in-memory inode image. -/
def extend_direct_loop (st : CacheState) (fm : FreeMap) (data : SectorData)
    (sectors i : Nat) :
    Option (Bool × SectorData × CacheState × FreeMap × Nat) :=
  if _h : i < sectors ∧ i < DIRECT_SECTOR_NUMBER then
    match free_map_allocate fm with
    | none => some (false, data, st, fm, i)
    | some (s, fm₁) =>
        match cache_write st s zeros_list 0 0 true with
        | none => none
        | some st₁ =>
            extend_direct_loop st₁ fm₁ (set_word data (4 * i) s) sectors (i + 1)
  else some (true, data, st, fm, i)
termination_by DIRECT_SECTOR_NUMBER - i

/-- Fill loop over an existing single-indirect block during extension. -/
def extend_fl_loop (st : CacheState) (fm : FreeMap) (fl : SectorData)
    (sectors i : Nat) :
    Option (Bool × SectorData × CacheState × FreeMap × Nat) :=
  if _h : i < sectors ∧ i < DIRECT_SECTOR_NUMBER + DISK_SECTOR_NUMBER then
    match free_map_allocate fm with
    | none => some (false, fl, st, fm, i)
    | some (s, fm₁) =>
        match cache_write st s zeros_list 0 0 true with
        | none => none
        | some st₁ =>
            extend_fl_loop st₁ fm₁
              (set_word fl (4 * (i - DIRECT_SECTOR_NUMBER)) s) sectors (i + 1)
  else some (true, fl, st, fm, i)
termination_by DIRECT_SECTOR_NUMBER + DISK_SECTOR_NUMBER - i

/-- Single-indirect stage of `extend_inode`: fill the existing block, or
allocate a whole one via `allocate_first_level_sector`.  Returns the
updated image and scan index.  Failure performs no rollback (the source's
`goto error` frees only the heap buffers). -/
def extend_fl_stage (st : CacheState) (fm : FreeMap) (data : SectorData)
    (sectors i : Nat) :
    Option (Bool × SectorData × CacheState × FreeMap × Nat) :=
  if word_at data 48 ≠ 0 then
    match cache_read st (word_at data 48) 0 BLOCK_SECTOR_SIZE 0 true with
    | none => none
    | some (flbs, st₁) =>
        match extend_fl_loop st₁ fm (bytes_fn flbs) sectors i with
        | none => none
        | some (false, _, st₂, fm₁, i') => some (false, data, st₂, fm₁, i')
        | some (true, fl, st₂, fm₁, i') =>
            match cache_write st₂ (word_at data 48) (fn_bytes fl) 0 0 true with
            | none => none
            | some st₃ => some (true, data, st₃, fm₁, i')
  else
    match allocate_first_level_sector st fm (sectors - i) (word_at data 48) with
    | none => none
    | some (true, sp, st₁, fm₁) =>
        some (true, set_word data 48 sp, st₁, fm₁, i + DISK_SECTOR_NUMBER)
    | some (false, _, st₁, fm₁) => some (false, data, st₁, fm₁, i)

/-- Fill loop over one second-level block during extension: `cnt` indices
starting at `i` (the group-bound count, at least one per outer step). -/
def extend_sl_inner (st : CacheState) (fm : FreeMap) (sl : SectorData)
    (i cnt : Nat) : Option (Bool × SectorData × CacheState × FreeMap × Nat) :=
  match cnt with
  | 0 => some (true, sl, st, fm, i)
  | n + 1 =>
      match free_map_allocate fm with
      | none => some (false, sl, st, fm, i)
      | some (s, fm₁) =>
          match cache_write st s zeros_list 0 0 true with
          | none => none
          | some st₁ =>
              extend_sl_inner st₁ fm₁
                (set_word sl (4 * ((i - 140) % 128)) s) (i + 1) n

/-- Group loop of the double-indirect stage of `extend_inode`. -/
def extend_sl_outer (st : CacheState) (fm : FreeMap) (fl : SectorData)
    (sectors i : Nat) : Option (Bool × SectorData × CacheState × FreeMap) :=
  if h : i < sectors ∧ i < 140 + 16384 then
    let flo := (i - 140) / 128
    let bound := min sectors (140 + (flo + 1) * 128)
    if word_at fl (4 * flo) ≠ 0 then
      match cache_read st (word_at fl (4 * flo)) 0 BLOCK_SECTOR_SIZE 0 true with
      | none => none
      | some (slbs, st₁) =>
          match extend_sl_inner st₁ fm (bytes_fn slbs) i (bound - i) with
          | none => none
          | some (false, _, st₂, fm₁, _) => some (false, fl, st₂, fm₁)
          | some (true, sl, st₂, fm₁, _) =>
              match cache_write st₂ (word_at fl (4 * flo)) (fn_bytes sl) 0 0 true with
              | none => none
              | some st₃ => extend_sl_outer st₃ fm₁ fl sectors bound
    else
      match free_map_allocate fm with
      | none => some (false, fl, st, fm)
      | some (s, fm₁) =>
          let fl₁ := set_word fl (4 * flo) s
          match extend_sl_inner st fm₁ (fun _ => 0) i (bound - i) with
          | none => none
          | some (false, _, st₂, fm₂, _) => some (false, fl₁, st₂, fm₂)
          | some (true, sl, st₂, fm₂, _) =>
              match cache_write st₂ s (fn_bytes sl) 0 0 true with
              | none => none
              | some st₃ => extend_sl_outer st₃ fm₂ fl₁ sectors bound
  else some (true, fl, st, fm)
termination_by (140 + 16384) - i
decreasing_by
  · have h1 : i < min sectors (140 + ((i - 140) / 128 + 1) * 128) := by
      refine lt_min h.1 ?_
      omega
    omega
  · have h1 : i < min sectors (140 + ((i - 140) / 128 + 1) * 128) := by
      refine lt_min h.1 ?_
      omega
    omega

/-- Double-indirect stage of `extend_inode`. -/
def extend_sl_stage (st : CacheState) (fm : FreeMap) (data : SectorData)
    (sectors i : Nat) : Option (Bool × SectorData × CacheState × FreeMap) :=
  if word_at data 52 ≠ 0 then
    match cache_read st (word_at data 52) 0 BLOCK_SECTOR_SIZE 0 true with
    | none => none
    | some (flbs, st₁) =>
        match extend_sl_outer st₁ fm (bytes_fn flbs) sectors i with
        | none => none
        | some (false, _, st₂, fm₁) => some (false, data, st₂, fm₁)
        | some (true, fl, st₂, fm₁) =>
            match cache_write st₂ (word_at data 52) (fn_bytes fl) 0 0 true with
            | none => none
            | some st₃ => some (true, data, st₃, fm₁)
  else
    match allocate_second_level_sector st fm (sectors - i) (word_at data 52) with
    | none => none
    | some (true, sp, st₁, fm₁) => some (true, set_word data 52 sp, st₁, fm₁)
    | some (false, _, st₁, fm₁) => some (false, data, st₁, fm₁)

/-- `extend_inode (inode, size, offset)`: read the inode image, allocate
every missing sector from the current last sector up to
`⌈(offset + size) / 512⌉`, and write the image back; the length field is
not modified here (the caller publishes it last). -/
def extend_inode (st : CacheState) (fm : FreeMap) (isec : Nat)
    (size offset : Nat) : Option (Bool × CacheState × FreeMap) :=
  let sectors := (offset + size + 511) / 512
  match cache_read st isec 0 BLOCK_SECTOR_SIZE 0 true with
  | none => none
  | some (dbs, st₁) =>
      match inode_length st₁ isec with
      | none => none
      | some (len, st₂) =>
          match extend_direct_loop st₂ fm (bytes_fn dbs) sectors
              ((len + 511) / 512) with
          | none => none
          | some (false, _, st₃, fm₁, _) => some (false, st₃, fm₁)
          | some (true, data₁, st₃, fm₁, i₁) =>
              if sectors ≤ i₁ then
                match cache_write st₃ isec (fn_bytes data₁) 0 0 true with
                | none => none
                | some st₄ => some (true, st₄, fm₁)
              else
                match (if i₁ < DIRECT_SECTOR_NUMBER + DISK_SECTOR_NUMBER then
                    extend_fl_stage st₃ fm₁ data₁ sectors i₁
                  else some (true, data₁, st₃, fm₁, i₁)) with
                | none => none
                | some (false, _, st₄, fm₂, _) => some (false, st₄, fm₂)
                | some (true, data₂, st₄, fm₂, i₂) =>
                    if sectors ≤ i₂ then
                      match cache_write st₄ isec (fn_bytes data₂) 0 0 true with
                      | none => none
                      | some st₅ => some (true, st₅, fm₂)
                    else if i₂ < DIRECT_SECTOR_NUMBER + DISK_SECTOR_NUMBER +
                        DISK_SECTOR_NUMBER * DISK_SECTOR_NUMBER then
                      match extend_sl_stage st₄ fm₂ data₂ sectors i₂ with
                      | none => none
                      | some (false, _, st₅, fm₃) => some (false, st₅, fm₃)
                      | some (true, data₃, st₅, fm₃) =>
                          match cache_write st₅ isec (fn_bytes data₃) 0 0 true with
                          | none => none
                          | some st₆ => some (true, st₆, fm₃)
                    else some (false, st₄, fm₂)

/-- Copy loop of `inode_write_at`, recursing on the remaining buffer.  The
inner pre-zero branch of the source (provably unreachable, and aimed at
the inode's own sector) is retained verbatim. -/
def write_loop (isec length : Nat) (buf : List Nat) (offset : Nat)
    (st : CacheState) : Option (Nat × CacheState) :=
  if hb : buf.length = 0 then some (0, st)
  else
    match byte_to_sector st isec length offset with
    | none => none
    | some (sector_idx, st₁) =>
        let sector_ofs := offset % 512
        let inode_left : Int := (length : Int) - (offset : Int)
        let sector_left : Int := 512 - (sector_ofs : Int)
        let min_left := min inode_left sector_left
        let chunkI := min (buf.length : Int) min_left
        if hc : chunkI ≤ 0 then some (0, st₁)
        else
          let chunk := chunkI.toNat
          match (if ¬ (sector_ofs = 0 ∧ chunk = 512) ∧
              ¬ (sector_ofs > 0 ∨ (chunk : Int) < sector_left) then
                cache_set st₁ isec 0 0 BLOCK_SECTOR_SIZE 0 true
              else some st₁) with
          | none => none
          | some st₂ =>
              match cache_write st₂ sector_idx (buf.take chunk) sector_ofs 0 true with
              | none => none
              | some st₃ =>
                  match write_loop isec length (buf.drop chunk) (offset + chunk)
                      st₃ with
                  | none => none
                  | some (n, st₄) => some (chunk + n, st₄)
termination_by buf.length
decreasing_by
  simp only [List.length_drop]
  omega

/-- `inode_write_at`: deny-write returns 0; a write past the current
length extends first (under the advisory lock, elided in the sequential
model) and publishes the new length last via `cache_write_at`. -/
def inode_write_at (st : CacheState) (fm : FreeMap) (isec : Nat)
    (deny_write_cnt : Nat) (buf : List Nat) (offset : Nat) :
    Option (Nat × CacheState × FreeMap) :=
  if deny_write_cnt ≠ 0 then some (0, st, fm)
  else
    match inode_length st isec with
    | none => none
    | some (len, st₁) =>
        if len < offset + buf.length then
          match extend_inode st₁ fm isec buf.length offset with
          | none => none
          | some (false, st₂, fm₁) => some (0, st₂, fm₁)
          | some (true, st₂, fm₁) =>
              match write_loop isec (offset + buf.length) buf offset st₂ with
              | none => none
              | some (n, st₃) =>
                  match cache_write_at st₃ isec 56 (offset + buf.length) 0 true with
                  | none => none
                  | some st₄ => some (n, st₄, fm₁)
        else
          match write_loop isec len buf offset st₁ with
          | none => none
          | some (n, st₂) => some (n, st₂, fm)

/-! ## In-memory inodes (`inode_open`) -/

structure OpenInode where
  sector : Nat
  open_cnt : Nat
  removed : Bool
  deny_write_cnt : Nat
deriving DecidableEq

/-- `inode_reopen` applied in place to the list element `inode_open`
found. -/
def reopen_in_list : List OpenInode → Nat → List OpenInode
  | [], _ => []
  | i :: rest, s =>
      if i.sector = s then { i with open_cnt := i.open_cnt + 1 } :: rest
      else i :: reopen_in_list rest s

/-- `inode_open (sector)`: scan the open-inodes list; on a hit increment
the open count, otherwise allocate (`allocOk` models `MALLOC`) and push a
fresh record with `open_cnt = 1`, `removed = false`, `deny_write_cnt = 0`
to the front.  The function takes no cache or disk state because the
source never reads the on-disk image: no field of the sector — the magic
word included — is examined. -/
def inode_open (lst : List OpenInode) (sector : Nat) (allocOk : Bool) :
    Option (OpenInode × List OpenInode) :=
  match lst.find? (fun i => i.sector == sector) with
  | some i => some ({ i with open_cnt := i.open_cnt + 1 }, reopen_in_list lst sector)
  | none =>
      if allocOk then
        some (⟨sector, 1, false, 0⟩, ⟨sector, 1, false, 0⟩ :: lst)
      else none

/-! ## Virtual memory (`src/vm/frame.c`, `src/vm/page.c`, `src/vm/swap.c`)

Frames are identified by their `kpage` number; the hash table is implied
by the two lists.  The page-directory bits live per `(thread, upage)`
pair; the supplemental page tables are a per-thread partial map. -/

def PAGE_STACK : Nat := 1

def PAGE_FILE : Nat := 2

def PAGE_MMAPFILE : Nat := 4

def PAGE_SWAP : Nat := 8

structure PTE where
  accessed : Bool
  dirty : Bool
  present : Bool
deriving DecidableEq

/-- `union page_source`, flattened (the `file` arm is a superset of the
`mmapfile` arm). -/
structure PageSource where
  handle : Nat
  ofs : Nat
  read_bytes : Nat
  zero_bytes : Nat
  writable : Bool
deriving DecidableEq

/-- `struct page` from `vm/page.h`. -/
structure Page where
  upage : Nat
  source : PageSource
  position : Nat
  swap_slot : Nat
  loaded : Bool
deriving DecidableEq

/-- `struct frame` from `vm/frame.h` (with the `active` membership flag
used by `vm/frame.c`). -/
structure Frame where
  kpage : Nat
  upage : Nat
  tid : Nat
  size : Nat
  active : Bool
deriving DecidableEq

/-- Shared mutable context consulted by `frame_save`: supplemental page
tables, page-directory bits, the swap bitmap (`true` = slot in use), and a
log of mmap write-backs (`file_seek` + `file_write` to handle/offset/count;
the file bytes themselves are outside the frame claims). -/
structure VMEnv where
  pages : Nat → Nat → Option Page
  pte : Nat → Nat → PTE
  swap_map : List Bool
  file_writes : List (Nat × Nat × Nat)

/-- Modelled from the spec: `pagedir_is_accessed` (userprog/pagedir.c is
outside the sources; the spec's frame algorithm consults a per-page
accessed bit). -/
def pagedir_is_accessed (env : VMEnv) (tid upage : Nat) : Bool :=
  (env.pte tid upage).accessed

/-- Modelled from the spec: `pagedir_set_accessed`. -/
def pagedir_set_accessed (env : VMEnv) (tid upage : Nat) (b : Bool) : VMEnv :=
  { env with pte := fun t u =>
      if t = tid ∧ u = upage then { env.pte t u with accessed := b }
      else env.pte t u }

/-- Modelled from the spec: `pagedir_is_dirty`. -/
def pagedir_is_dirty (env : VMEnv) (tid upage : Nat) : Bool :=
  (env.pte tid upage).dirty

/-- Modelled from the spec: `pagedir_clear_page` (the mapping is removed;
its bits stay). -/
def pagedir_clear_page (env : VMEnv) (tid upage : Nat) : VMEnv :=
  { env with pte := fun t u =>
      if t = tid ∧ u = upage then { env.pte t u with present := false }
      else env.pte t u }

/-- `page_find (&t->pages, upage)`. -/
def page_find (env : VMEnv) (tid upage : Nat) : Option Page :=
  env.pages tid upage

/-- In-place mutation of the supplemental entry `page_find` returned. -/
def set_page (env : VMEnv) (tid upage : Nat) (p : Page) : VMEnv :=
  { env with pages := fun t u =>
      if t = tid ∧ u = upage then some p else env.pages t u }

/-- `bitmap_scan_and_flip (free_map, 0, 1, false)` over the swap bitmap:
index of the first free slot, flipped to used. -/
def bitmap_scan_and_flip : List Bool → Option (Nat × List Bool)
  | [] => none
  | b :: rest =>
      if b then (bitmap_scan_and_flip rest).map fun p => (p.1 + 1, b :: p.2)
      else some (0, true :: rest)

/-- `swap_store`: reserve the first free slot (`BITMAPERROR`, i.e. a full
swap, is `none`) and write the page out sector by sector; the swap-device
bytes are not consulted by the frame claims and are not carried. -/
def swap_store (env : VMEnv) : Option (Nat × VMEnv) :=
  (bitmap_scan_and_flip env.swap_map).map
    fun p => (p.1, { env with swap_map := p.2 })

/-- `frame_save`: persist a frame according to its supplemental entry
(swap for writable-file and stack pages, file write-back for dirty mmap
pages, nothing otherwise), then unmap and mark unloaded.  `false` when the
entry is missing, not loaded, or the swap is full. -/
def frame_save (env : VMEnv) (f : Frame) : Bool × VMEnv :=
  match page_find env f.tid f.upage with
  | none => (false, env)
  | some p =>
      if p.loaded = false then (false, env)
      else if (p.position &&& PAGE_FILE ≠ 0 ∧ p.source.writable = true) ∨
          p.position &&& PAGE_STACK ≠ 0 then
        match swap_store env with
        | none => (false, env)
        | some (slot, env₁) =>
            let p₁ := { p with
              swap_slot := slot, position := p.position ||| PAGE_SWAP }
            let env₂ := set_page env₁ f.tid f.upage p₁
            let env₃ := pagedir_clear_page env₂ f.tid p.upage
            (true, set_page env₃ f.tid f.upage { p₁ with loaded := false })
      else if p.position &&& PAGE_MMAPFILE ≠ 0 ∧
          pagedir_is_dirty env f.tid p.upage = true then
        let env₁ := { env with
          file_writes := env.file_writes ++
            [(p.source.handle, p.source.ofs, p.source.read_bytes)] }
        let env₂ := pagedir_clear_page env₁ f.tid p.upage
        (true, set_page env₂ f.tid f.upage { p with loaded := false })
      else
        let env₁ := pagedir_clear_page env f.tid p.upage
        (true, set_page env₁ f.tid f.upage { p with loaded := false })

/-- Global frame-table state: the two lists, their counters, and the
environment `frame_save` works on. -/
structure FrameState where
  active_frames : List Frame
  inactive_frames : List Frame
  nr_active : Nat
  nr_inactive : Nat
  env : VMEnv

/-- Step 1 of `frame_evict`: drain `inactive` from the head, promoting
referenced frames back to `active` and stopping at the first frame whose
save succeeds; a frame whose save fails stays off both lists. -/
def drain_inactive (st : FrameState) : Option Frame × FrameState :=
  match hm : st.inactive_frames with
  | [] => (none, st)
  | f :: rest =>
      let st₁ := { st with
        inactive_frames := rest, nr_inactive := st.nr_inactive - 1 }
      if pagedir_is_accessed st₁.env f.tid f.upage then
        drain_inactive { st₁ with
          env := pagedir_set_accessed st₁.env f.tid f.upage false,
          active_frames := st₁.active_frames ++ [{ f with active := true }],
          nr_active := st₁.nr_active + 1 }
      else
        match frame_save st₁.env f with
        | (true, env₁) => (some f, { st₁ with env := env₁ })
        | (false, env₁) => drain_inactive { st₁ with env := env₁ }
termination_by st.inactive_frames.length
decreasing_by
  · simp [hm]
  · simp [hm]

/-- Step 2 of `frame_evict`: one scan over `active`, clearing accessed
bits; the first unreferenced frame whose save succeeds is removed and
returned. -/
def scan_active (env : VMEnv) : List Frame → Option Frame × List Frame × VMEnv
  | [] => (none, [], env)
  | f :: rest =>
      if pagedir_is_accessed env f.tid f.upage then
        let r := scan_active (pagedir_set_accessed env f.tid f.upage false) rest
        (r.1, f :: r.2.1, r.2.2)
      else
        match frame_save env f with
        | (true, env₁) => (some f, rest, env₁)
        | (false, env₁) =>
            let r := scan_active env₁ rest
            (r.1, f :: r.2.1, r.2.2)

/-- `shrink_active_list`: refill `inactive` to the floor of 10 by popping
the head of `active` unconditionally; `list_pop_front` of an empty list is
an assertion failure (`none`). -/
def shrink_active_list (st : FrameState) : Option FrameState :=
  if st.nr_inactive < 10 then
    match hm : st.active_frames with
    | [] => none
    | f :: rest =>
        shrink_active_list
          { st with
            active_frames := rest, nr_active := st.nr_active - 1,
            env := pagedir_set_accessed st.env f.tid f.upage false,
            inactive_frames := st.inactive_frames ++ [{ f with active := false }],
            nr_inactive := st.nr_inactive + 1 }
  else some st
termination_by st.active_frames.length
decreasing_by
  simp [hm]

/-- `frame_evict`: the three-step second-chance scan followed by the
unconditional `shrink_active_list`.  The outer `none` is a fault (an
empty-list pop in step 3 or inside the shrink); the inner option is the
source's return value, `NULL` when the final save fails. -/
def frame_evict (st : FrameState) : Option (Option Frame × FrameState) :=
  match drain_inactive st with
  | (some v, st₁) => (shrink_active_list st₁).map fun st' => (some v, st')
  | (none, st₁) =>
      match scan_active st₁.env st₁.active_frames with
      | (some v, rest, env₁) =>
          let st₂ := { st₁ with
            active_frames := rest, nr_active := st₁.nr_active - 1, env := env₁ }
          (shrink_active_list st₂).map fun st' => (some v, st')
      | (none, rest, env₁) =>
          match rest with
          | [] => none
          | f :: rest' =>
              let r := frame_save env₁ f
              let st₂ := { st₁ with
                active_frames := rest', nr_active := st₁.nr_active - 1, env := r.2 }
              (shrink_active_list st₂).map fun st' =>
                ((if r.1 then some f else none), st')

/-! ## Claim C5: cache eviction discipline -/

theorem cache_evict_list_eq {pre post : List CacheEntry} {v : CacheEntry}
    (hpre : ∀ e ∈ pre, e.in_use = true) (hv : v.in_use = false) :
    cache_evict_list (pre ++ v :: post) = some (v, pre ++ post) := by
  induction pre with
  | nil => simp [cache_evict_list, hv]
  | cons c rest ih =>
      have hc : c.in_use = true := hpre c (List.mem_cons_self _ _)
      simp only [List.cons_append, cache_evict_list, hc, if_pos, List.append_eq]
      rw [ih fun e he => hpre e (List.mem_cons_of_mem _ he)]

/-- C5: on a `cache_get` miss at capacity, the victim is the first entry
from the head of the recency list with a clear `in_use` pin: the entries
ahead of it (all pinned) stay, the victim's buffer is written back when
dirty (`writeback`) before the entry is reused for the new sector, and the
reloaded entry joins the tail.  When every entry is pinned, `cache_get`
returns absent and the eviction scan removes nothing. -/
theorem c5_cache_eviction_discipline (st : CacheState) (s tid : Nat)
    (hcap : st.entries.length = CACHE_SIZE) (hmiss : cache_find st s = none) :
    (∀ pre v post, st.entries = pre ++ v :: post →
      (∀ e ∈ pre, e.in_use = true) → v.in_use = false →
      cache_get st s tid true = some
        ⟨writeback st.disk v,
          (pre ++ post) ++ [fresh_entry (writeback st.disk v) s tid]⟩) ∧
    ((∀ e ∈ st.entries, e.in_use = true) → cache_get st s tid true = none) := by
  have hnotlt : ¬ st.entries.length < CACHE_SIZE := by
    rw [hcap]
    exact lt_irrefl _
  constructor
  · intro pre v post hsplit hpre hv
    unfold cache_get cache_get_parts
    rw [hmiss]
    rw [if_neg hnotlt]
    rw [hsplit, cache_evict_list_eq hpre hv]
    rfl
  · intro hall
    unfold cache_get cache_get_parts
    rw [hmiss]
    rw [if_neg hnotlt]
    rw [evict_none_of_all_pinned hall]
    rfl

/-- Concrete 64-entry cache at capacity for the C5 witness: the head entry
is unpinned and clean, the rest are pinned. -/
def c5state : CacheState :=
  ⟨fun _ _ => 0,
    ⟨100, fun _ => 0, false, false, false, 0⟩ ::
      ((List.range 63).map fun k => ⟨101 + k, fun _ => 0, false, true, false, 0⟩)⟩

theorem c5_witness :
    cache_get c5state 7 0 true = some
      ⟨writeback c5state.disk ⟨100, fun _ => 0, false, false, false, 0⟩,
        (([] : List CacheEntry) ++
            ((List.range 63).map fun k => ⟨101 + k, fun _ => 0, false, true, false, 0⟩)) ++
          [fresh_entry (writeback c5state.disk
            ⟨100, fun _ => 0, false, false, false, 0⟩) 7 0]⟩ :=
  (c5_cache_eviction_discipline c5state 7 0 (by simp [c5state, CACHE_SIZE])
    (by rfl)).1
    [] ⟨100, fun _ => 0, false, false, false, 0⟩
    ((List.range 63).map fun k => ⟨101 + k, fun _ => 0, false, true, false, 0⟩)
    rfl (by simp) rfl

/-! ## Claim C4: composite operations on an exhausted pool -/

/-- A full cache whose 64 entries are all pinned: `cache_get` has no
victim and no capacity. -/
def c4state : CacheState :=
  ⟨fun _ _ => 0, (List.range 64).map fun k => ⟨100 + k, fun _ => 0, false, true, false, 0⟩⟩

/-- C4 (failing input): with the pool exhausted and every entry pinned,
`cache_get` returns absent — and the composite `cache_read` and
`cache_write` then dereference that NULL result (`memcpy` through
`c->data`, modelled as the fault `none`) instead of degrading gracefully
by copying nothing or dropping the write. -/
theorem c4_composite_faults_on_exhausted_pool :
    cache_get c4state 7 0 true = none ∧
    cache_read c4state 7 0 1 0 true = none ∧
    cache_write c4state 7 [5] 0 0 true = none :=
  ⟨rfl, rfl, rfl⟩

/-! ## Claim C9: no magic validation on load -/

/-- C9 (counterexample): a disk whose sector-7 inode image carries magic 0
(not `INODE_MAGIC`), yet `inode_open` hands out a usable in-memory inode
for sector 7 — nothing is validated and nothing stops. -/
theorem c9_counterexample :
    inode_open [] 7 true = some (⟨7, 1, false, 0⟩, [⟨7, 1, false, 0⟩]) ∧
    word_at ((fun _ _ => 0 : Disk) 7) 88 ≠ INODE_MAGIC :=
  ⟨rfl, by decide⟩

/-- C9 (amended): `inode_open` performs no magic validation — it takes no
look at the cache or disk at all, and (when the `MALLOC` succeeds) always
returns an in-memory inode for the requested sector, whatever the on-disk
magic field holds.  The magic is only ever written, by `inode_create`. -/
theorem c9_inode_open_ignores_magic (lst : List OpenInode) (sector : Nat) :
    ∃ i lst', inode_open lst sector true = some (i, lst') ∧ i.sector = sector := by
  unfold inode_open
  cases hf : lst.find? (fun i => i.sector == sector) with
  | some i =>
      refine ⟨_, _, rfl, ?_⟩
      simpa using List.find?_some hf
  | none => exact ⟨_, _, rfl, rfl⟩

/-! ## Claim C10: `frame_evict` needs more than the inactive floor -/

/-- Number of frames on the two lists. -/
def FrameState.total (st : FrameState) : Nat :=
  st.active_frames.length + st.inactive_frames.length

/-- The source's counters agree with the list lengths. -/
def CntOk (st : FrameState) : Prop :=
  st.nr_active = st.active_frames.length ∧
  st.nr_inactive = st.inactive_frames.length

theorem shrink_eq_done {st : FrameState} (h10 : ¬ st.nr_inactive < 10) :
    shrink_active_list st = some st := by
  unfold shrink_active_list
  rw [if_neg h10]

theorem shrink_eq_nil {st : FrameState} (h10 : st.nr_inactive < 10)
    (hl : st.active_frames = []) : shrink_active_list st = none := by
  unfold shrink_active_list
  rw [if_pos h10]
  split
  · rfl
  · rename_i f rest heq
    rw [hl] at heq
    cases heq

theorem shrink_eq_cons {st : FrameState} {f : Frame} {rest : List Frame}
    (h10 : st.nr_inactive < 10) (hl : st.active_frames = f :: rest) :
    shrink_active_list st = shrink_active_list
      { st with
        active_frames := rest, nr_active := st.nr_active - 1,
        env := pagedir_set_accessed st.env f.tid f.upage false,
        inactive_frames := st.inactive_frames ++ [{ f with active := false }],
        nr_inactive := st.nr_inactive + 1 } := by
  conv_lhs => rw [shrink_active_list]
  rw [if_pos h10]
  split
  · rename_i heq
    rw [hl] at heq
    cases heq
  · rename_i f' rest' heq
    rw [hl] at heq
    injection heq with h1 h2
    subst h1
    subst h2
    rfl

theorem shrink_none_iff (l : List Frame) :
    ∀ st : FrameState, st.active_frames = l → CntOk st →
      (shrink_active_list st = none ↔ st.total < 10) := by
  induction l with
  | nil =>
      intro st hl hc
      obtain ⟨h1, h2⟩ := hc
      by_cases h10 : st.nr_inactive < 10
      · rw [shrink_eq_nil h10 hl]
        have : st.total < 10 := by
          unfold FrameState.total
          rw [hl]
          simp
          omega
        simp [this]
      · rw [shrink_eq_done h10]
        have : ¬ st.total < 10 := by
          unfold FrameState.total
          omega
        simp [this]
  | cons f rest ih =>
      intro st hl hc
      by_cases h10 : st.nr_inactive < 10
      · rw [shrink_eq_cons h10 hl]
        have hc' : CntOk { st with
            active_frames := rest, nr_active := st.nr_active - 1,
            env := pagedir_set_accessed st.env f.tid f.upage false,
            inactive_frames := st.inactive_frames ++ [{ f with active := false }],
            nr_inactive := st.nr_inactive + 1 } := by
          obtain ⟨h1, h2⟩ := hc
          constructor
          · show st.nr_active - 1 = rest.length
            rw [h1, hl]
            simp
          · show st.nr_inactive + 1 = _
            rw [h2]
            simp
        have := ih _ rfl hc'
        rw [this]
        unfold FrameState.total
        rw [hl]
        simp
        omega
      · rw [shrink_eq_done h10]
        have : ¬ st.total < 10 := by
          unfold FrameState.total
          obtain ⟨h1, h2⟩ := hc
          omega
        simp [this]

theorem drain_eq_nil {st : FrameState} (hl : st.inactive_frames = []) :
    drain_inactive st = (none, st) := by
  unfold drain_inactive
  split
  · rfl
  · rename_i f rest heq
    rw [hl] at heq
    cases heq

theorem drain_eq_cons {st : FrameState} {f : Frame} {rest : List Frame}
    (hl : st.inactive_frames = f :: rest) :
    drain_inactive st =
      (if pagedir_is_accessed st.env f.tid f.upage then
        drain_inactive { st with
          inactive_frames := rest, nr_inactive := st.nr_inactive - 1,
          env := pagedir_set_accessed st.env f.tid f.upage false,
          active_frames := st.active_frames ++ [{ f with active := true }],
          nr_active := st.nr_active + 1 }
      else
        match frame_save st.env f with
        | (true, env₁) => (some f, { st with
            inactive_frames := rest, nr_inactive := st.nr_inactive - 1,
            env := env₁ })
        | (false, env₁) => drain_inactive { st with
            inactive_frames := rest, nr_inactive := st.nr_inactive - 1,
            env := env₁ }) := by
  conv_lhs => rw [drain_inactive]
  split
  · rename_i heq
    rw [hl] at heq
    cases heq
  · rename_i f' rest' heq
    rw [hl] at heq
    injection heq with h1 h2
    subst h1
    subst h2
    rfl

theorem drain_spec (l : List Frame) :
    ∀ st : FrameState, st.inactive_frames = l → CntOk st →
      (∀ v st₁, drain_inactive st = (some v, st₁) →
        CntOk st₁ ∧ st₁.total < st.total) ∧
      (∀ st₁, drain_inactive st = (none, st₁) →
        CntOk st₁ ∧ st₁.total ≤ st.total ∧ st₁.inactive_frames = []) := by
  induction l with
  | nil =>
      intro st hl hc
      rw [drain_eq_nil hl]
      constructor
      · intro v st₁ h
        cases h
      · intro st₁ h
        obtain ⟨-, rfl⟩ : none = (none : Option Frame) ∧ st = st₁ := by
          simpa [Prod.ext_iff] using h
        exact ⟨hc, le_refl _, hl⟩
  | cons f rest ih =>
      intro st hl hc
      obtain ⟨h1, h2⟩ := hc
      rw [drain_eq_cons hl]
      by_cases hacc : pagedir_is_accessed st.env f.tid f.upage
      · rw [if_pos hacc]
        have hc' : CntOk { st with
            inactive_frames := rest, nr_inactive := st.nr_inactive - 1,
            env := pagedir_set_accessed st.env f.tid f.upage false,
            active_frames := st.active_frames ++ [{ f with active := true }],
            nr_active := st.nr_active + 1 } := by
          constructor
          · show st.nr_active + 1 = _
            rw [h1]
            simp
          · show st.nr_inactive - 1 = rest.length
            rw [h2, hl]
            simp
        obtain ⟨ha, hb⟩ := ih _ rfl hc'
        refine ⟨fun v st₁ h => ?_, fun st₁ h => ?_⟩
        · obtain ⟨hcv, htv⟩ := ha v st₁ h
          refine ⟨hcv, ?_⟩
          unfold FrameState.total at htv ⊢
          rw [hl]
          simp at htv
          simp
          omega
        · obtain ⟨hcv, htv, hiv⟩ := hb st₁ h
          refine ⟨hcv, ?_, hiv⟩
          unfold FrameState.total at htv ⊢
          rw [hl]
          simp at htv
          simp
          omega
      · rw [if_neg hacc]
        cases hsv : frame_save st.env f with
        | mk ok env₁ =>
            cases ok with
            | true =>
                refine ⟨fun v st₁ h => ?_, fun st₁ h => ?_⟩
                · obtain ⟨-, rfl⟩ : some f = some v ∧
                      ({ st with
                        inactive_frames := rest,
                        nr_inactive := st.nr_inactive - 1,
                        env := env₁ } : FrameState) = st₁ := by
                    simpa [Prod.ext_iff] using h
                  refine ⟨⟨by simpa using h1, ?_⟩, ?_⟩
                  · show st.nr_inactive - 1 = rest.length
                    rw [h2, hl]
                    simp
                  · unfold FrameState.total
                    rw [hl]
                    simp
                · simp [Prod.ext_iff] at h
            | false =>
                have hc' : CntOk { st with
                    inactive_frames := rest, nr_inactive := st.nr_inactive - 1,
                    env := env₁ } := by
                  constructor
                  · simpa using h1
                  · show st.nr_inactive - 1 = rest.length
                    rw [h2, hl]
                    simp
                obtain ⟨ha, hb⟩ := ih _ rfl hc'
                refine ⟨fun v st₁ h => ?_, fun st₁ h => ?_⟩
                · obtain ⟨hcv, htv⟩ := ha v st₁ h
                  refine ⟨hcv, ?_⟩
                  unfold FrameState.total at htv ⊢
                  rw [hl]
                  simp at htv
                  simp
                  omega
                · obtain ⟨hcv, htv, hiv⟩ := hb st₁ h
                  refine ⟨hcv, ?_, hiv⟩
                  unfold FrameState.total at htv ⊢
                  rw [hl]
                  simp at htv
                  simp
                  omega

theorem scan_spec (l : List Frame) : ∀ env : VMEnv,
    (∀ v rest env₁, scan_active env l = (some v, rest, env₁) →
      rest.length + 1 = l.length) ∧
    (∀ rest env₁, scan_active env l = (none, rest, env₁) →
      rest.length = l.length) := by
  induction l with
  | nil =>
      intro env
      refine ⟨fun v rest env₁ h => ?_, fun rest env₁ h => ?_⟩
      · cases h
      · obtain ⟨-, rfl, -⟩ : (none : Option Frame) = none ∧ ([] : List Frame) = rest ∧
            env = env₁ := by simpa [scan_active, Prod.ext_iff] using h
        rfl
  | cons f rest ih =>
      intro env
      simp only [scan_active]
      by_cases hacc : pagedir_is_accessed env f.tid f.upage
      · rw [if_pos hacc]
        obtain ⟨ha, hb⟩ := ih (pagedir_set_accessed env f.tid f.upage false)
        refine ⟨fun v r e h => ?_, fun r e h => ?_⟩
        · obtain ⟨hv, hr, he⟩ : (scan_active _ rest).1 = some v ∧
              f :: (scan_active _ rest).2.1 = r ∧ (scan_active _ rest).2.2 = e := by
            simpa [Prod.ext_iff] using h
          have := ha v (scan_active _ rest).2.1 (scan_active _ rest).2.2
            (by rw [← hv])
          rw [← hr]
          simp
          omega
        · obtain ⟨hv, hr, he⟩ : (scan_active _ rest).1 = none ∧
              f :: (scan_active _ rest).2.1 = r ∧ (scan_active _ rest).2.2 = e := by
            simpa [Prod.ext_iff] using h
          have := hb (scan_active _ rest).2.1 (scan_active _ rest).2.2
            (by rw [← hv])
          rw [← hr]
          simp
          omega
      · rw [if_neg hacc]
        cases hsv : frame_save env f with
        | mk ok env₁ =>
            cases ok with
            | true =>
                refine ⟨fun v r e h => ?_, fun r e h => ?_⟩
                · obtain ⟨-, rfl, -⟩ : some f = some v ∧ rest = r ∧ env₁ = e := by
                    simpa [Prod.ext_iff] using h
                  rfl
                · simp [Prod.ext_iff] at h
            | false =>
                obtain ⟨ha, hb⟩ := ih env₁
                refine ⟨fun v r e h => ?_, fun r e h => ?_⟩
                · obtain ⟨hv, hr, he⟩ : (scan_active env₁ rest).1 = some v ∧
                      f :: (scan_active env₁ rest).2.1 = r ∧
                      (scan_active env₁ rest).2.2 = e := by
                    simpa [Prod.ext_iff] using h
                  have := ha v (scan_active env₁ rest).2.1 (scan_active env₁ rest).2.2
                    (by rw [← hv])
                  rw [← hr]
                  simp
                  omega
                · obtain ⟨hv, hr, he⟩ : (scan_active env₁ rest).1 = none ∧
                      f :: (scan_active env₁ rest).2.1 = r ∧
                      (scan_active env₁ rest).2.2 = e := by
                    simpa [Prod.ext_iff] using h
                  have := hb (scan_active env₁ rest).2.1 (scan_active env₁ rest).2.2
                    (by rw [← hv])
                  rw [← hr]
                  simp
                  omega

theorem frame_evict_drain_some {st : FrameState} {vf : Frame}
    {st₁ : FrameState} (hd : drain_inactive st = (some vf, st₁)) :
    frame_evict st = (shrink_active_list st₁).map fun q => (some vf, q) := by
  unfold frame_evict
  rw [hd]

theorem frame_evict_drain_none {st st₁ : FrameState}
    (hd : drain_inactive st = (none, st₁)) :
    frame_evict st =
      match scan_active st₁.env st₁.active_frames with
      | (some v, rest, env₁) =>
          (shrink_active_list { st₁ with
            active_frames := rest, nr_active := st₁.nr_active - 1,
            env := env₁ }).map fun q => (some v, q)
      | (none, rest, env₁) =>
          match rest with
          | [] => none
          | f :: rest' =>
              (shrink_active_list { st₁ with
                active_frames := rest', nr_active := st₁.nr_active - 1,
                env := (frame_save env₁ f).2 }).map fun q =>
                  ((if (frame_save env₁ f).1 then some f else none), q) := by
  unfold frame_evict
  rw [hd]

/-- C10: `frame_evict` ends with an unconditional `shrink_active_list`
that pops the head of the active list (with no emptiness check) until the
inactive list holds 10 frames; a call finding at most 10 frames on the two
lists in total therefore always reaches an empty-list pop — an assertion
failure, modelled as `none` — so `frame_evict` is safe only when the frame
table holds more than the inactive floor of 10 frames. -/
theorem c10_frame_evict_faults_without_headroom (st : FrameState)
    (hc : CntOk st) (h : st.total ≤ 10) : frame_evict st = none := by
  obtain ⟨hsome, hnone⟩ := drain_spec st.inactive_frames st rfl hc
  cases hd : drain_inactive st with
  | mk v st₁ =>
      cases v with
      | some vf =>
          obtain ⟨hc₁, ht₁⟩ := hsome vf st₁ hd
          rw [frame_evict_drain_some hd,
            (shrink_none_iff st₁.active_frames st₁ rfl hc₁).mpr (by omega)]
          rfl
      | none =>
          obtain ⟨hc₁, ht₁, hi₁⟩ := hnone st₁ hd
          obtain ⟨hs1, hs2⟩ := scan_spec st₁.active_frames st₁.env
          rw [frame_evict_drain_none hd]
          cases hs : scan_active st₁.env st₁.active_frames with
          | mk v2 q =>
              cases q with
              | mk rest env₁ =>
                  cases v2 with
                  | some vf =>
                      have hlen := hs1 vf rest env₁ hs
                      have hc₂ : CntOk { st₁ with
                          active_frames := rest,
                          nr_active := st₁.nr_active - 1, env := env₁ } := by
                        obtain ⟨ha, hb⟩ := hc₁
                        refine ⟨?_, by simpa using hb⟩
                        show st₁.nr_active - 1 = rest.length
                        omega
                      have hsh : shrink_active_list { st₁ with
                          active_frames := rest,
                          nr_active := st₁.nr_active - 1, env := env₁ } = none := by
                        refine (shrink_none_iff rest _ rfl hc₂).mpr ?_
                        unfold FrameState.total at h ht₁ ⊢
                        simp
                        omega
                      show Option.map (fun q => ((some vf : Option Frame), q))
                        (shrink_active_list { st₁ with
                          active_frames := rest,
                          nr_active := st₁.nr_active - 1, env := env₁ }) = none
                      rw [hsh]
                      rfl
                  | none =>
                      have hlen := hs2 rest env₁ hs
                      cases hr : rest with
                      | nil => rfl
                      | cons f rest' =>
                          rw [hr] at hlen
                          simp only [List.length_cons] at hlen
                          have hc₂ : CntOk { st₁ with
                              active_frames := rest',
                              nr_active := st₁.nr_active - 1,
                              env := (frame_save env₁ f).2 } := by
                            obtain ⟨ha, hb⟩ := hc₁
                            refine ⟨?_, by simpa using hb⟩
                            show st₁.nr_active - 1 = rest'.length
                            omega
                          have hsh : shrink_active_list { st₁ with
                              active_frames := rest',
                              nr_active := st₁.nr_active - 1,
                              env := (frame_save env₁ f).2 } = none := by
                            refine (shrink_none_iff rest' _ rfl hc₂).mpr ?_
                            unfold FrameState.total at h ht₁ ⊢
                            simp [hi₁] at ht₁ ⊢
                            omega
                          show Option.map (fun q =>
                              ((if (frame_save env₁ f).1 = true then some f
                                else none : Option Frame), q))
                            (shrink_active_list { st₁ with
                              active_frames := rest',
                              nr_active := st₁.nr_active - 1,
                              env := (frame_save env₁ f).2 }) = none
                          rw [hsh]
                          rfl

/-- Concrete state for the C10 witness: a single frame on the lists. -/
def c10state : FrameState :=
  ⟨[⟨0, 0, 0, 1, true⟩], [], 1, 0,
    ⟨fun _ _ => none, fun _ _ => ⟨false, false, true⟩, [], []⟩⟩

theorem c10_witness : CntOk c10state ∧ c10state.total ≤ 10 ∧
    frame_evict c10state = none :=
  ⟨⟨rfl, rfl⟩, by decide,
    c10_frame_evict_faults_without_headroom c10state ⟨rfl, rfl⟩ (by decide)⟩

/-! ## Claim C8: does `frame_evict` always yield a victim? -/

theorem shrink_some_of (l : List Frame) : ∀ st : FrameState,
    st.active_frames = l → 10 ≤ st.nr_inactive + l.length →
    ∃ st', shrink_active_list st = some st' := by
  induction l with
  | nil =>
      intro st hl hb
      by_cases h10 : st.nr_inactive < 10
      · exact absurd hb (by simp; omega)
      · exact ⟨st, shrink_eq_done h10⟩
  | cons f rest ih =>
      intro st hl hb
      by_cases h10 : st.nr_inactive < 10
      · rw [shrink_eq_cons h10 hl]
        refine ih _ rfl ?_
        show 10 ≤ st.nr_inactive + 1 + rest.length
        simp only [List.length_cons] at hb
        omega
      · exact ⟨st, shrink_eq_done h10⟩

/-- A frame whose supplemental entry is absent (`page_find` fails, so
every save fails) and whose accessed bit is clear. -/
def c8frame : Frame := ⟨0, 0, 0, 1, true⟩

def c8env : VMEnv := ⟨fun _ _ => none, fun _ _ => ⟨false, false, true⟩, [], []⟩

/-- Eleven unsaveable active frames: enough (> 10) for the final shrink,
and a counterexample to step 3 always yielding a victim. -/
def c8state : FrameState := ⟨List.replicate 11 c8frame, [], 11, 0, c8env⟩

/-- `c8state` after step 3 popped the oldest active frame. -/
def c8mid : FrameState := ⟨List.replicate 10 c8frame, [], 10, 0, c8env⟩

/-- C8 counterexample: a non-empty frame table on which `frame_evict`
completes (no fault) yet returns no victim — every frame's supplemental
entry is missing, so the final `frame_save` of step 3 fails and the
`evictor` stays `NULL`. -/
theorem c8_counterexample :
    c8state.active_frames ≠ [] ∧
    (frame_evict c8state).map (fun r => r.1) = some none := by
  refine ⟨by decide, ?_⟩
  obtain ⟨st', hst'⟩ :=
    shrink_some_of (List.replicate 10 c8frame) c8mid rfl (by decide)
  rw [frame_evict_drain_none (drain_eq_nil rfl)]
  show ((shrink_active_list c8mid).map fun q =>
    ((if (frame_save c8env c8frame).1 = true then some c8frame else none),
      q)).map (fun r => r.1) = some none
  rw [hst']
  rfl

/-- C8 (amended): when the inactive drain (step 1) and the active scan
(step 2) produce no victim, step 3 pops the oldest active frame and saves
it, but returns it as the victim only when that final `frame_save`
succeeds; when the final save fails, `frame_evict` completes with no
victim (`NULL`) even on a non-empty frame table. -/
theorem c8_final_save_decides_victim (st st₁ : FrameState) (f : Frame)
    (rest : List Frame) (env₁ : VMEnv)
    (hd : drain_inactive st = (none, st₁))
    (hs : scan_active st₁.env st₁.active_frames = (none, f :: rest, env₁)) :
    ∀ v st₂, frame_evict st = some (v, st₂) →
      v = if (frame_save env₁ f).1 = true then some f else none := by
  intro v st₂ h
  rw [frame_evict_drain_none hd, hs] at h
  have h' : ((shrink_active_list { st₁ with
      active_frames := rest, nr_active := st₁.nr_active - 1,
      env := (frame_save env₁ f).2 }).map fun q =>
        ((if (frame_save env₁ f).1 = true then some f else none), q)) =
      some (v, st₂) := h
  cases hsh : shrink_active_list { st₁ with
      active_frames := rest, nr_active := st₁.nr_active - 1,
      env := (frame_save env₁ f).2 } with
  | none =>
      rw [hsh] at h'
      cases h'
  | some stq =>
      rw [hsh] at h'
      obtain ⟨hv, -⟩ :
          (if (frame_save env₁ f).1 = true then some f else none) = v ∧
          stq = st₂ := by
        simpa [Prod.ext_iff] using h'
      exact hv.symm

theorem c8_witness : (frame_evict c8state).map (fun r => r.1) = some none := by
  have hthm := c8_final_save_decides_victim c8state c8state c8frame
    (List.replicate 10 c8frame) c8env (drain_eq_nil rfl) rfl
  obtain ⟨st', hst'⟩ :=
    shrink_some_of (List.replicate 10 c8frame) c8mid rfl (by decide)
  have hev : frame_evict c8state = some
      ((if (frame_save c8env c8frame).1 = true then some c8frame else none),
        st') := by
    rw [frame_evict_drain_none (drain_eq_nil rfl)]
    show ((shrink_active_list c8mid).map fun q =>
      ((if (frame_save c8env c8frame).1 = true then some c8frame else none),
        q)) = _
    rw [hst']
    rfl
  rw [hev, hthm _ _ hev]
  rfl

/-! ## Claim C3: rollback of a failed `inode_create` -/

theorem set_word_out {f : SectorData} {pos v : Nat} (o : Nat)
    (h : o < pos ∨ pos + 4 ≤ o) : set_word f pos v o = f o := by
  unfold set_word write_bytes
  rw [if_neg]
  show ¬ (pos ≤ o ∧ o < pos + 4)
  omega

theorem set_word_at_byte {f : SectorData} {pos v : Nat} (k : Nat) (hk : k < 4) :
    set_word f pos v (pos + k) = word_byte v k := by
  have hc : pos ≤ pos + k ∧ pos + k < pos + (le32_bytes v).length := by
    refine ⟨by omega, ?_⟩
    show pos + k < pos + 4
    omega
  unfold set_word write_bytes
  rw [if_pos hc]
  have hkk : pos + k - pos = k := by omega
  rw [hkk]
  interval_cases k <;> rfl

theorem word_at_set_word_self {f : SectorData} {pos v : Nat} :
    word_at (set_word f pos v) pos = v % 4294967296 := by
  have h0 : set_word f pos v pos = word_byte v 0 := by
    have := @set_word_at_byte f pos v 0 (by omega)
    simpa using this
  have h1 := @set_word_at_byte f pos v 1 (by omega)
  have h2 := @set_word_at_byte f pos v 2 (by omega)
  have h3 := @set_word_at_byte f pos v 3 (by omega)
  unfold word_at
  rw [h0, h1, h2, h3]
  unfold le32 word_byte
  norm_num
  omega

theorem word_at_set_word_ne {f : SectorData} {pos v : Nat} (q : Nat)
    (h : q + 4 ≤ pos ∨ pos + 4 ≤ q) :
    word_at (set_word f pos v) q = word_at f q := by
  unfold word_at
  rw [set_word_out q (by omega), set_word_out (q + 1) (by omega),
    set_word_out (q + 2) (by omega), set_word_out (q + 3) (by omega)]

theorem word_at_congr {f g : SectorData} {p : Nat}
    (h : ∀ o, p ≤ o → o < p + 4 → f o = g o) : word_at f p = word_at g p := by
  unfold word_at
  rw [h p (le_refl p) (by omega), h (p + 1) (by omega) (by omega),
    h (p + 2) (by omega) (by omega), h (p + 3) (by omega) (by omega)]

theorem getD_mem_of_lt : ∀ (l : List Nat) (k : Nat), k < l.length →
    l.getD k 0 ∈ l := by
  intro l
  induction l with
  | nil => intro k h; simp at h
  | cons a t ih =>
      intro k h
      cases k with
      | zero => simp
      | succ q =>
          simp only [List.getD_cons_succ]
          exact List.mem_cons_of_mem a (ih q (by simpa using h))

theorem cache_write_ok (st : CacheState) (s : Nat) (bs : List Nat)
    (hI : Inv st) : ∃ st', cache_write st s bs 0 0 true = some st' ∧ Inv st' := by
  obtain ⟨st', hw⟩ := cache_write_some st s bs 0 0 hI.2.2
  exact ⟨st', hw, (cache_write_spec hw hI).1⟩

theorem alloc_fl_loop_success (remain : Nat) : ∀ (i : Nat) (st : CacheState)
    (fm : FreeMap) (fl : Nat → Nat), Inv st →
    min remain (DISK_SECTOR_NUMBER - i) ≤ fm.avail.length →
    ∃ fl' st' fm', alloc_fl_loop st fm fl remain i = some (true, fl', st', fm') ∧
      fm'.avail = fm.avail.drop (min remain (DISK_SECTOR_NUMBER - i)) ∧
      fm'.freed = fm.freed ∧ Inv st' := by
  induction remain with
  | zero =>
      intro i st fm fl hI _
      refine ⟨fl, st, fm, ?_, by simp, rfl, hI⟩
      unfold alloc_fl_loop
      rw [dif_neg (by omega)]
  | succ r ih =>
      intro i st fm fl hI hlen
      by_cases hi : i < DISK_SECTOR_NUMBER
      · have hmin : min (r + 1) (DISK_SECTOR_NUMBER - i) =
            min r (DISK_SECTOR_NUMBER - (i + 1)) + 1 := by
          simp only [DISK_SECTOR_NUMBER] at hi ⊢
          omega
        cases hav : fm.avail with
        | nil =>
            rw [hav] at hlen
            simp at hlen
            omega
        | cons s rest =>
            have hfa : free_map_allocate fm = some (s, ⟨rest, fm.freed⟩) := by
              unfold free_map_allocate
              rw [hav]
            obtain ⟨st₁, hw, hI₁⟩ := cache_write_ok st s zeros_list hI
            obtain ⟨fl', st', fm', hrec, hava, hfre, hI'⟩ :=
              ih (i + 1) st₁ ⟨rest, fm.freed⟩ (fun j => if j = i then s else fl j)
                hI₁ (by
                  show min r (DISK_SECTOR_NUMBER - (i + 1)) ≤ rest.length
                  rw [hav] at hlen
                  simp only [List.length_cons] at hlen
                  omega)
            refine ⟨fl', st', fm', ?_, ?_, hfre, hI'⟩
            · unfold alloc_fl_loop
              rw [dif_pos ⟨by omega, hi⟩, hfa]
              show (match cache_write st s zeros_list 0 0 true with
                | none => none
                | some st₁ => alloc_fl_loop st₁ ⟨rest, fm.freed⟩
                    (fun j => if j = i then s else fl j) (r + 1 - 1) (i + 1)) =
                some (true, fl', st', fm')
              rw [hw]
              exact hrec
            · rw [hava, hmin, List.drop_succ_cons]
      · refine ⟨fl, st, fm, ?_, ?_, rfl, hI⟩
        · unfold alloc_fl_loop
          rw [dif_neg (by omega)]
        · have hz : DISK_SECTOR_NUMBER - i = 0 := by omega
          rw [hz]
          simp

theorem allocate_fl_success (st : CacheState) (fm : FreeMap) (remain p : Nat)
    (hI : Inv st) (h0 : ¬ remain = 0)
    (hlen : fm.avail.length = 1 + min remain DISK_SECTOR_NUMBER) :
    ∃ sp st' fm', allocate_first_level_sector st fm remain p =
      some (true, sp, st', fm') ∧
      fm'.avail = [] ∧ fm'.freed = fm.freed ∧ Inv st' := by
  cases hav : fm.avail with
  | nil =>
      rw [hav] at hlen
      simp at hlen
      omega
  | cons s rest =>
      have hfa : free_map_allocate fm = some (s, ⟨rest, fm.freed⟩) := by
        unfold free_map_allocate
        rw [hav]
      have hrl : min remain (DISK_SECTOR_NUMBER - 0) = rest.length := by
        rw [hav] at hlen
        simp only [List.length_cons, Nat.sub_zero] at hlen ⊢
        omega
      obtain ⟨fl', st₁, fm', hloop, hava, hfre, hI₁⟩ :=
        alloc_fl_loop_success remain 0 st ⟨rest, fm.freed⟩ (fun _ => 0) hI
          (le_of_eq hrl)
      obtain ⟨st₂, hw, hI₂⟩ := cache_write_ok st₁ s (block_bytes fl') hI₁
      refine ⟨s, st₂, fm', ?_, ?_, hfre, hI₂⟩
      · unfold allocate_first_level_sector
        rw [if_neg h0, hfa]
        show (match alloc_fl_loop st ⟨rest, fm.freed⟩ (fun _ => 0) remain 0 with
          | none => none
          | some (true, fl, st₁, fm₂) =>
              match cache_write st₁ s (block_bytes fl) 0 0 true with
              | none => none
              | some st₂ => some (true, s, st₂, fm₂)
          | some (false, fl, st₁, fm₂) =>
              some (false, 0, st₁, free_map_release (free_sectors fl fm₂) s)) =
          some (true, s, st₂, fm')
        rw [hloop]
        show (match cache_write st₁ s (block_bytes fl') 0 0 true with
          | none => none
          | some st₂ => some (true, s, st₂, fm')) = some (true, s, st₂, fm')
        rw [hw]
      · rw [hava, hrl]
        exact List.drop_length rest

theorem c3_loop (n : Nat) : ∀ (i : Nat) (st : CacheState) (fm : FreeMap)
    (di : SectorData), i + n = 12 → Inv st → fm.avail.length = n + 129 →
    ∃ di' st' fm', inode_create_loop st fm di 141 i =
        some (false, di', st', fm') ∧
      fm'.avail = [] ∧ fm'.freed = fm.freed ∧ Inv st' ∧
      (∀ o, o < 4 * i → di' o = di o) ∧
      (∀ k, k < n → word_at di' (4 * (i + k)) =
        fm.avail.getD k 0 % 4294967296) := by
  induction n with
  | zero =>
      intro i st fm di hin hI hlen
      have h12 : i = 12 := by omega
      subst h12
      obtain ⟨sp, st', fm', hE, hava, hfre, hI'⟩ :=
        allocate_fl_success st fm (141 - 12) (word_at di 48) hI (by decide)
          (by simp only [DISK_SECTOR_NUMBER]; omega)
      have hfa2 : free_map_allocate fm' = none := by
        unfold free_map_allocate
        rw [hava]
      have hsl : allocate_second_level_sector st' fm'
          (141 - (12 + DISK_SECTOR_NUMBER)) (word_at (set_word di 48 sp) 52) =
          some (false, word_at (set_word di 48 sp) 52, st', fm') := by
        unfold allocate_second_level_sector
        rw [if_neg (by decide), hfa2]
      refine ⟨set_word (set_word di 48 sp) 52 (word_at (set_word di 48 sp) 52),
        st', fm', ?_, hava, hfre, hI', ?_, ?_⟩
      · unfold inode_create_loop
        rw [dif_pos (by omega), if_neg (by decide), if_pos (by decide), hE]
        show inode_create_loop st' fm' (set_word di 48 sp) 141
          (12 + DISK_SECTOR_NUMBER) =
          some (false, set_word (set_word di 48 sp) 52
            (word_at (set_word di 48 sp) 52), st', fm')
        unfold inode_create_loop
        rw [dif_pos (by decide), if_neg (by decide), if_neg (by decide),
          if_pos (by decide), hsl]
      · intro o ho
        rw [set_word_out o (by omega), set_word_out o (by omega)]
      · intro k hk
        exact absurd hk (by omega)
  | succ n ih =>
      intro i st fm di hin hI hlen
      cases hav : fm.avail with
      | nil =>
          rw [hav] at hlen
          simp at hlen
      | cons s rest =>
          have hfa : free_map_allocate fm = some (s, ⟨rest, fm.freed⟩) := by
            unfold free_map_allocate
            rw [hav]
          obtain ⟨st₁, hw, hI₁⟩ := cache_write_ok st s zeros_list hI
          have hlen' : rest.length = n + 129 := by
            rw [hav] at hlen
            simp only [List.length_cons] at hlen
            omega
          obtain ⟨di', st', fm', heq, hava, hfre, hI', hpres, hwords⟩ :=
            ih (i + 1) st₁ ⟨rest, fm.freed⟩ (set_word di (4 * i) s)
              (by omega) hI₁ hlen'
          refine ⟨di', st', fm', ?_, hava, hfre, hI', ?_, ?_⟩
          · unfold inode_create_loop
            rw [dif_pos (by omega),
              if_pos (show i < DIRECT_SECTOR_NUMBER by
                simp only [DIRECT_SECTOR_NUMBER]; omega), hfa]
            show (match cache_write st s zeros_list 0 0 true with
              | none => none
              | some st₁ => inode_create_loop st₁ ⟨rest, fm.freed⟩
                  (set_word di (4 * i) s) 141 (i + 1)) =
              some (false, di', st', fm')
            rw [hw]
            exact heq
          · intro o ho
            rw [hpres o (by omega), set_word_out o (by omega)]
          · intro k hk
            cases k with
            | zero =>
                have h1 : word_at di' (4 * (i + 0)) =
                    word_at (set_word di (4 * i) s) (4 * (i + 0)) := by
                  refine word_at_congr ?_
                  intro o ho1 ho2
                  exact hpres o (by omega)
                rw [h1]
                have h4 : 4 * (i + 0) = 4 * i := by omega
                rw [h4, word_at_set_word_self]
                rfl
            | succ q =>
                have h1 := hwords q (by omega)
                have harr : 4 * (i + (q + 1)) = 4 * ((i + 1) + q) := by ring
                rw [harr, h1]
                simp

/-- The source error path `free_inode (disk_inode, DIRECT_SECTOR_NUMBER)`:
with `sectors = 12` the function releases (at most) the 12 direct slots and
returns without ever consulting `P[12]` or `P[13]`. -/
theorem free_inode_direct (st : CacheState) (fm : FreeMap)
    (data : SectorData) :
    free_inode st fm data DIRECT_SECTOR_NUMBER = some (st,
      (List.range DIRECT_SECTOR_NUMBER).foldl (fun acc i =>
        if i < DIRECT_SECTOR_NUMBER ∧ word_at data (4 * i) ≠ 0 then
          free_map_release acc (word_at data (4 * i))
        else acc) fm) := rfl

theorem free_fold_range (M : Nat) (g : Nat → Nat) : ∀ (m : Nat) (fm : FreeMap),
    m ≤ M → (∀ i, i < m → g i ≠ 0) →
    (List.range m).foldl (fun acc i =>
      if i < M ∧ g i ≠ 0 then free_map_release acc (g i) else acc) fm =
    ⟨fm.avail, fm.freed ++ (List.range m).map g⟩ := by
  intro m
  induction m with
  | zero => intro fm _ _; simp
  | succ m ih =>
      intro fm hm hnz
      rw [List.range_succ, List.foldl_append,
        ih fm (by omega) (fun i hi => hnz i (by omega))]
      simp only [List.foldl_cons, List.foldl_nil]
      rw [if_pos ⟨by omega, hnz m (by omega)⟩]
      unfold free_map_release
      simp [List.range_succ]

theorem inode_create_of_loop_fail {st : CacheState} {fm : FreeMap}
    {sector length itype : Nat} {di : SectorData} {st₁ : CacheState}
    {fm₁ : FreeMap}
    (h : inode_create_loop st fm (fun o =>
        if o < 56 then 0
        else if o < 60 then word_byte length (o - 56)
        else if o < 84 then 0
        else if o < 88 then word_byte itype (o - 84)
        else if o < 92 then word_byte INODE_MAGIC (o - 88)
        else 0) ((length + 511) / 512) 0 = some (false, di, st₁, fm₁)) :
    inode_create st fm sector length itype =
      (free_inode st₁ fm₁ di DIRECT_SECTOR_NUMBER).map fun p =>
        (false, p.1, p.2) := by
  unfold inode_create
  show (match inode_create_loop st fm (fun o =>
      if o < 56 then 0
      else if o < 60 then word_byte length (o - 56)
      else if o < 84 then 0
      else if o < 88 then word_byte itype (o - 84)
      else if o < 92 then word_byte INODE_MAGIC (o - 88)
      else 0) ((length + 511) / 512) 0 with
    | none => none
    | some (true, di, st₁, fm₁) =>
        match cache_write st₁ sector (fn_bytes di) 0 0 true with
        | none => none
        | some st₂ => some (true, st₂, fm₁)
    | some (false, di, st₁, fm₁) =>
        match free_inode st₁ fm₁ di DIRECT_SECTOR_NUMBER with
        | none => none
        | some (st₂, fm₂) => some (false, st₂, fm₂)) = _
  rw [h]
  show (match free_inode st₁ fm₁ di DIRECT_SECTOR_NUMBER with
    | none => none
    | some (st₂, fm₂) => some (false, st₂, fm₂)) = _
  cases free_inode st₁ fm₁ di DIRECT_SECTOR_NUMBER with
  | none => rfl
  | some p => rfl

/-- C3: refuted — a failed `inode_create` does NOT release everything it
allocated.  With 141 free sectors and length 72192 (141 sectors) the direct
and single-indirect stages consume all 141 sectors, the double-indirect
stage then fails on the empty free map, and the error path
`free_inode (disk_inode, DIRECT_SECTOR_NUMBER)` releases only the 12 direct
slots: the single-indirect block and its 128 data sectors stay reserved. -/
theorem c3_create_failure_leaks_indirect_tree (st : CacheState) (fm : FreeMap)
    (sector itype : Nat) (hI : Inv st) (hlen : fm.avail.length = 141)
    (hfr : fm.freed = [])
    (hb : ∀ s ∈ fm.avail, 0 < s ∧ s < 4294967296) :
    (inode_create st fm sector 72192 itype).map (fun r => (r.1, r.2.2)) =
      some (false, ⟨[], (List.range DIRECT_SECTOR_NUMBER).map
        fun k => fm.avail.getD k 0⟩) := by
  obtain ⟨di', st', fm', heq, hava, hfre, hI', hpres, hwords⟩ :=
    c3_loop 12 0 st fm (fun o =>
      if o < 56 then 0
      else if o < 60 then word_byte 72192 (o - 56)
      else if o < 84 then 0
      else if o < 88 then word_byte itype (o - 84)
      else if o < 92 then word_byte INODE_MAGIC (o - 88)
      else 0) (by omega) hI (by omega)
  have heq' : inode_create_loop st fm (fun o =>
      if o < 56 then 0
      else if o < 60 then word_byte 72192 (o - 56)
      else if o < 84 then 0
      else if o < 88 then word_byte itype (o - 84)
      else if o < 92 then word_byte INODE_MAGIC (o - 88)
      else 0) ((72192 + 511) / 512) 0 = some (false, di', st', fm') := by
    rw [show ((72192 : Nat) + 511) / 512 = 141 from by norm_num]
    exact heq
  have hwnz : ∀ k, k < DIRECT_SECTOR_NUMBER →
      word_at di' (4 * k) = fm.avail.getD k 0 ∧ word_at di' (4 * k) ≠ 0 := by
    intro k hk
    have hk' : k < 12 := by simpa [DIRECT_SECTOR_NUMBER] using hk
    have h1 := hwords k hk'
    simp only [Nat.zero_add] at h1
    have hmem : fm.avail.getD k 0 ∈ fm.avail := getD_mem_of_lt _ _ (by omega)
    obtain ⟨hp, hlt⟩ := hb _ hmem
    rw [Nat.mod_eq_of_lt hlt] at h1
    exact ⟨h1, by rw [h1]; omega⟩
  have hfi : free_inode st' fm' di' DIRECT_SECTOR_NUMBER = some (st',
      ⟨fm'.avail, fm'.freed ++ (List.range DIRECT_SECTOR_NUMBER).map
        fun i => word_at di' (4 * i)⟩) := by
    rw [free_inode_direct,
      free_fold_range DIRECT_SECTOR_NUMBER (fun i => word_at di' (4 * i))
        DIRECT_SECTOR_NUMBER fm' le_rfl (fun i hi => (hwnz i hi).2)]
  have hmapeq : (List.range DIRECT_SECTOR_NUMBER).map
      (fun i => word_at di' (4 * i)) =
      (List.range DIRECT_SECTOR_NUMBER).map fun k => fm.avail.getD k 0 := by
    refine List.map_congr_left ?_
    intro i hi
    exact (hwnz i (List.mem_range.mp hi)).1
  rw [inode_create_of_loop_fail heq', hfi, hava, hfre, hfr, hmapeq]
  rfl

/-- A free map with 141 distinct free sectors (2..142) for the C3
witness. -/
def c3fm : FreeMap := ⟨(List.range 141).map fun k => k + 2, []⟩

/-- An empty cache over an all-zero disk. -/
def c3cache : CacheState := ⟨fun _ _ => 0, []⟩

theorem c3_witness :
    (inode_create c3cache c3fm 1 72192 1).map (fun r => (r.1, r.2.2)) =
      some (false, ⟨[], (List.range DIRECT_SECTOR_NUMBER).map
        fun k => c3fm.avail.getD k 0⟩) :=
  c3_create_failure_leaks_indirect_tree c3cache c3fm 1 1
    ⟨List.Pairwise.nil, fun c hc => absurd hc (List.not_mem_nil c),
      fun c hc => absurd hc (List.not_mem_nil c)⟩
    (by simp [c3fm]) rfl
    (by
      intro s hs
      simp only [c3fm, List.mem_map, List.mem_range] at hs
      obtain ⟨k, hk, rfl⟩ := hs
      omega)

/-! ## Claim C7: reads beyond EOF and the read-ahead state -/

/-- Disk for the C7 instance: the inode at sector 5 has length 512
(bytes 56..59 hold 512 little-endian, i.e. byte 57 = 2) and every `P`
slot zero. -/
def c7disk : Disk := fun s o => if s = 5 ∧ o = 57 then 2 else 0

def c7st0 : CacheState := ⟨c7disk, []⟩

/-- `c7st0` after the inode sector was pulled into the cache (every later
step of the run reproduces this same state). -/
def c7st1 : CacheState := ⟨c7disk, [⟨5, c7disk 5, false, false, false, 0⟩]⟩

theorem c7do : do_ra_loop 5 0 4 8 8 0 0 c7st1 = some (0, c7st1) := by
  unfold do_ra_loop
  rfl

/-- The synchronous read-ahead issued for the beyond-EOF index 1: the
sequential-window branch of `ondemand_readahead` fires
(`offset = start + size - async_size`) and advances the window from
`(start 0, size 4, async 3)` to `(start 4, size 8, async 8)`; the issue
loop exits at once because the new window lies beyond EOF. -/
theorem c7sync : cache_sync_readahead c7st1 5 ⟨0, 4, 3, 32, 0⟩ 1 1 =
    some (⟨4, 8, 8, 32, 0⟩, c7st1) := by
  have hstage : cache_sync_readahead c7st1 5 ⟨0, 4, 3, 32, 0⟩ 1 1 =
      ((do_ra_loop 5 0 4 8 8 0 0 c7st1).map
        (fun p => (p.1, (⟨4, 8, 8, 32, 0⟩ : RaState), p.2))).map
        (fun p => (p.2.1, p.2.2)) := rfl
  rw [hstage, c7do]
  rfl

/-- C7 counterexample: a read of 4 bytes at offset 512 of an inode of
length 512 (exactly at EOF) returns no bytes, yet the read-ahead window
advances from `(start 0, size 4, async 3)` to `(start 4, size 8, async 8)`
— the claim's "leaves the read-ahead state unchanged" fails. -/
theorem c7_counterexample :
    word_at (c7disk 5) 56 = 512 ∧
    (inode_read_at c7st0 5 ⟨0, 4, 3, 32, 0⟩ 4 512).map (fun r => (r.1, r.2.1)) =
      some ([], ⟨4, 8, 8, 32, 0⟩) ∧
    (⟨4, 8, 8, 32, 0⟩ : RaState) ≠ ⟨0, 4, 3, 32, 0⟩ := by
  refine ⟨by decide, ?_, by decide⟩
  have hfs : find_sector c7st1 5 1 = some (SECTOR_ERROR, c7st1) := rfl
  have hcf : cache_find c7st1 SECTOR_ERROR = none := rfl
  have hra : cache_readahead c7st1 SECTOR_ERROR = false := rfl
  have h2 : read_loop 5 512 2 4 1 0 [] ⟨0, 4, 3, 32, 0⟩ 0 0 c7st1 =
      some ([], ⟨4, 8, 8, 32, 0⟩, c7st1) := by
    unfold read_loop
    simp [hfs, hcf, c7sync, hra]
  have h1 : inode_read_at c7st0 5 ⟨0, 4, 3, 32, 0⟩ 4 512 =
      read_loop 5 512 2 4 1 0 [] ⟨0, 4, 3, 32, 0⟩ 0 0 c7st1 := rfl
  rw [h1, h2]
  rfl

/-- C7 (amended): a read at or beyond EOF (`length ≤ offset`, with a
non-zero length and size) returns no bytes and preserves `prev_pos`
exactly (`out:` rebuilds it from its own halves), but the rest of the
read-ahead state is whatever the synchronous/asynchronous read-ahead of
the first iteration left behind — the window may advance. -/
theorem c7_beyond_eof_reads_preserve_prev_pos {st st₁ : CacheState}
    {isec len size offset : Nat} {ra : RaState}
    (hlen : inode_length st isec = some (len, st₁)) (hnz : len ≠ 0)
    (hsz : size ≠ 0) (hoff : len ≤ offset) {sector : Nat} {stA : CacheState}
    (hfs : find_sector st₁ isec (offset / 512) = some (sector, stA))
    {ra₁ : RaState} {stB : CacheState}
    (hsync : (match cache_find stA sector with
      | none => cache_sync_readahead stA isec ra (offset / 512)
          ((offset + size + 511) / 512 - offset / 512)
      | some _ => some (ra, stA)) = some (ra₁, stB))
    {ra₂ : RaState} {stC : CacheState}
    (hasync : (if cache_readahead stB sector then
        cache_async_readahead stB isec ra₁ sector (offset / 512)
          ((offset + size + 511) / 512 - offset / 512)
      else some (ra₁, stB)) = some (ra₂, stC)) :
    inode_read_at st isec ra size offset =
      some ([], { ra₂ with prev_pos := ra.prev_pos }, stC) := by
  have hdm : Int.ediv ra.prev_pos 512 * 512 + Int.emod ra.prev_pos 512 =
      ra.prev_pos := by
    rw [mul_comm]
    exact Int.ediv_add_emod ra.prev_pos 512
  unfold inode_read_at
  rw [hlen]
  show (if len = 0 then some ([], ra, st₁)
    else read_loop isec len ((offset + size + 511) / 512) size (offset / 512)
      (offset % 512) [] ra (Int.ediv ra.prev_pos 512) (Int.emod ra.prev_pos 512)
      st₁) = _
  rw [if_neg hnz]
  unfold read_loop
  rw [dif_neg hsz, hfs]
  by_cases hgt : (len - 1) / 512 < offset / 512
  · simp only [hsync]
    simp only [hasync]
    simp [hgt, hdm]
  · have heq2 : offset / 512 = (len - 1) / 512 := by omega
    have hle2 : (len - 1) % 512 + 1 ≤ offset % 512 := by omega
    simp only [hsync]
    simp only [hasync]
    simp [hgt, heq2, hle2, hdm]

theorem c7_witness : inode_read_at c7st0 5 ⟨0, 4, 3, 32, 0⟩ 4 512 =
    some ([], ⟨4, 8, 8, 32, 0⟩, c7st1) :=
  @c7_beyond_eof_reads_preserve_prev_pos c7st0 c7st1 5 512 4 512
    ⟨0, 4, 3, 32, 0⟩ rfl (by decide) (by decide) (by decide) SECTOR_ERROR
    c7st1 rfl ⟨4, 8, 8, 32, 0⟩ c7st1
    (by
      rw [show cache_find c7st1 SECTOR_ERROR = none from rfl]
      exact c7sync)
    ⟨4, 8, 8, 32, 0⟩ c7st1 rfl

/-! ## Claim C6: the read-ahead issue loop -/

/-- Disk for the C6 instance: the inode at sector 5 has `P[0] = 2`,
`P[1] = 3`, `P[2] = 4` and length 1536 (byte 57 = 6). -/
def c6disk : Disk := fun s o =>
  if s = 5 then
    if o = 0 then 2 else if o = 4 then 3 else if o = 8 then 4
    else if o = 57 then 6 else 0
  else 0

/-- A clean unpinned unmarked entry holding sector `s` of `c6disk`. -/
def c6e (s : Nat) : CacheEntry := ⟨s, c6disk s, false, false, false, 0⟩

/-- Initial cache: the inode sector and data sector 4 (logical index 2)
already cached; indices 0 and 1 (sectors 2 and 3) absent. -/
def c6st0 : CacheState := ⟨c6disk, [c6e 5, c6e 4]⟩

def c6stA : CacheState := ⟨c6disk, [c6e 4, c6e 5]⟩

def c6stC : CacheState := ⟨c6disk, [c6e 4, c6e 5, c6e 2]⟩

def c6stF : CacheState := ⟨c6disk, [c6e 4, c6e 2, c6e 5, c6e 3]⟩

def c6stG : CacheState := ⟨c6disk, [c6e 4, c6e 2, c6e 3, c6e 5]⟩

/-- C6 counterexample: `do_cache_readahead (inode, 0, 3, 1)` admits two
fresh sectors (2 and 3) but returns 0 because the cache hit at the last
position resets the counter, and no marker is set anywhere — the position
`n - lookahead = 2` was a hit, and the claim's "(n − lookahead)-th fresh
sector" (the second fresh one, sector 3) is left unmarked. -/
theorem c6_counterexample :
    do_cache_readahead c6st0 5 0 3 1 = some (0, c6stG) ∧
    cache_find c6st0 2 = none ∧ cache_find c6st0 3 = none ∧
    (cache_find c6stG 2).isSome = true ∧ (cache_find c6stG 3).isSome = true ∧
    cache_readahead c6stG 3 = false ∧ (0 : Nat) ≠ 2 := by
  refine ⟨?_, rfl, rfl, rfl, rfl, rfl, by decide⟩
  have s0 : do_ra_loop 5 2 0 3 1 0 0 c6stA = do_ra_loop 5 2 0 3 1 1 1 c6stC := by
    conv_lhs => rw [do_ra_loop]
    rfl
  have s1 : do_ra_loop 5 2 0 3 1 1 1 c6stC = do_ra_loop 5 2 0 3 1 2 2 c6stF := by
    conv_lhs => rw [do_ra_loop]
    rfl
  have s2 : do_ra_loop 5 2 0 3 1 2 2 c6stF = do_ra_loop 5 2 0 3 1 3 0 c6stG := by
    conv_lhs => rw [do_ra_loop]
    rfl
  have s3 : do_ra_loop 5 2 0 3 1 3 0 c6stG = some (0, c6stG) := by
    conv_lhs => rw [do_ra_loop]
    rfl
  have h1 : do_cache_readahead c6st0 5 0 3 1 =
      do_ra_loop 5 2 0 3 1 0 0 c6stA := rfl
  rw [h1, s0, s1, s2, s3]

/-- C6 (amended): in the issue loop, a position whose sector is already
cached resets the counter of newly admitted sectors to zero (so the
returned value counts only the sectors admitted after the last cache hit,
and is independent of the count accumulated before the hit); a fresh
position is admitted and its marker is set exactly when the loop position
`i` satisfies `i + lookahead = nr_to_read` — the marker goes by loop
position, not by fresh-sector ordinal. -/
theorem c6_hit_resets_counter_marker_at_position
    (isec : Nat) (ed start : Int) (n la i nr : Nat) (st st₁ : CacheState)
    (sector : Nat) (hlt : i < n) (hed : ¬ start + (i : Int) > ed)
    (hfs : find_sector st isec (u32 (start + (i : Int))) = some (sector, st₁)) :
    (∀ c, cache_find st₁ sector = some c →
      (do_ra_loop isec ed start n la i nr st =
        do_ra_loop isec ed start n la (i + 1) 0 st₁ ∧
       ∀ m, do_ra_loop isec ed start n la i nr st =
        do_ra_loop isec ed start n la i m st)) ∧
    (∀ st₂, cache_find st₁ sector = none →
      cache_get st₁ sector 0 true = some st₂ →
      do_ra_loop isec ed start n la i nr st =
        do_ra_loop isec ed start n la (i + 1) (nr + 1)
          (cache_unpin (if i + la = n then cache_set_readahead st₂ sector
            else st₂) sector)) := by
  have hstep : ∀ m, do_ra_loop isec ed start n la i m st =
      match cache_find st₁ sector with
      | some _ => do_ra_loop isec ed start n la (i + 1) 0 st₁
      | none =>
          match cache_get st₁ sector 0 true with
          | none => none
          | some st₂ =>
              do_ra_loop isec ed start n la (i + 1) (m + 1)
                (cache_unpin (if i + la = n then cache_set_readahead st₂ sector
                  else st₂) sector) := by
    intro m
    conv_lhs => rw [do_ra_loop]
    rw [dif_pos hlt, if_neg hed, hfs]
  constructor
  · intro c hc
    constructor
    · rw [hstep nr, hc]
    · intro m
      rw [hstep nr, hstep m, hc]
  · intro st₂ hc hg
    rw [hstep nr, hc, hg]

theorem c6_witness :
    do_ra_loop 5 2 0 3 1 2 2 c6stF = do_ra_loop 5 2 0 3 1 3 0 c6stG ∧
    do_ra_loop 5 2 0 3 1 2 2 c6stF = do_ra_loop 5 2 0 3 1 2 0 c6stF := by
  have h := c6_hit_resets_counter_marker_at_position 5 2 0 3 1 2 2 c6stF c6stG
    4 (by decide) (by decide) rfl
  obtain ⟨hres, hind⟩ := h.1 ⟨4, c6disk 4, false, false, false, 0⟩ rfl
  exact ⟨hres, hind 0⟩

/-! ## Claim C2: logical-to-physical resolution, and what holes read -/

theorem bytes_of_getD (f : SectorData) (off n j : Nat) (hj : j < n) :
    (bytes_of f off n).getD j 0 = f (off + j) := by
  simp [bytes_of, List.getD_eq_getElem?_getD, List.getElem?_map,
    List.getElem?_range, hj]

theorem word_of_block_bytes_of (f : SectorData) (k : Nat) (hk : k < 128) :
    word_of_block (bytes_of f 0 512) k = word_at f (4 * k) := by
  unfold word_of_block word_at
  rw [bytes_of_getD f 0 512 (4 * k) (by omega),
    bytes_of_getD f 0 512 (4 * k + 1) (by omega),
    bytes_of_getD f 0 512 (4 * k + 2) (by omega),
    bytes_of_getD f 0 512 (4 * k + 3) (by omega)]
  simp

/-- `find_sector` computed against the abstract view: it always succeeds
under the invariant, returns exactly what `resolve_spec` (the
specification formula) resolves — `SECTOR_ERROR` standing for a hole —
and preserves the view and the invariant. -/
theorem find_sector_spec (st : CacheState) (isec i : Nat) (hI : Inv st) :
    ∃ st', find_sector st isec i =
        some ((resolve_spec (view st) isec i).getD SECTOR_ERROR, st') ∧
      Inv st' ∧ (∀ x, view st' x = view st x) := by
  by_cases h1 : i < DIRECT_SECTOR_NUMBER
  · have hi12 : i < 12 := by simpa [DIRECT_SECTOR_NUMBER] using h1
    obtain ⟨v, st₁, hr1⟩ := cache_read_at_some st isec (4 * i) 0 hI.2.2
    obtain ⟨hv, hI₁, hview₁⟩ := cache_read_at_spec hr1 hI
    have hslot : slot (view st) isec i = v := by rw [hv]; rfl
    have hres : resolve_spec (view st) isec i =
        (if v = 0 then none else some v) := by
      unfold resolve_spec
      rw [if_pos hi12, hslot]
    refine ⟨st₁, ?_, hI₁, hview₁⟩
    unfold find_sector
    rw [if_pos h1]
    simp only [hr1]
    rw [hres]
    by_cases hz : v = 0
    · rw [if_neg (by simp [hz]), if_pos hz]
      rfl
    · rw [if_pos hz, if_neg hz]
      rfl
  · have hi12 : ¬ i < 12 := by simpa [DIRECT_SECTOR_NUMBER] using h1
    by_cases h2 : i < DIRECT_SECTOR_NUMBER + DISK_SECTOR_NUMBER
    · have hi140 : i < 140 := by
        simpa [DIRECT_SECTOR_NUMBER, DISK_SECTOR_NUMBER] using h2
      obtain ⟨v, st₁, hr1⟩ := cache_read_at_some st isec 48 0 hI.2.2
      obtain ⟨hv, hI₁, hview₁⟩ := cache_read_at_spec hr1 hI
      have hsn : slot (view st) isec 12 = v := by rw [hv]; rfl
      by_cases hz : v = 0
      · have hres : resolve_spec (view st) isec i = none := by
          unfold resolve_spec
          rw [if_neg hi12, if_pos hi140, hsn, if_pos hz]
        refine ⟨st₁, ?_, hI₁, hview₁⟩
        unfold find_sector
        rw [if_neg h1, if_pos h2]
        simp only [hr1]
        rw [if_neg (by simp [hz]), hres]
        rfl
      · obtain ⟨bs, st₂, hr2⟩ :=
          cache_read_some st₁ v 0 BLOCK_SECTOR_SIZE 0 hI₁.2.2
        obtain ⟨hbs, hI₂, hview₂⟩ := cache_read_spec hr2 hI₁
        have hw : word_of_block bs (i - DIRECT_SECTOR_NUMBER) =
            slot (view st) v (i - 12) := by
          rw [hbs, hview₁ v]
          exact word_of_block_bytes_of (view st v) (i - 12) (by omega)
        have hres : resolve_spec (view st) isec i =
            (if slot (view st) v (i - 12) = 0 then none
              else some (slot (view st) v (i - 12))) := by
          unfold resolve_spec
          rw [if_neg hi12, if_pos hi140, hsn, if_neg hz]
        refine ⟨st₂, ?_, hI₂, fun x => by rw [hview₂ x, hview₁ x]⟩
        unfold find_sector
        rw [if_neg h1, if_pos h2]
        simp only [hr1]
        rw [if_pos hz]
        simp only [hr2]
        rw [hres, hw]
        by_cases hz2 : slot (view st) v (i - 12) = 0
        · rw [if_neg (by simp [hz2]), if_pos hz2]
          rfl
        · rw [if_pos hz2, if_neg hz2]
          rfl
    · have hi140 : ¬ i < 140 := by
        simpa [DIRECT_SECTOR_NUMBER, DISK_SECTOR_NUMBER] using h2
      by_cases h3 : i < DIRECT_SECTOR_NUMBER + DISK_SECTOR_NUMBER +
          DISK_SECTOR_NUMBER * DISK_SECTOR_NUMBER
      · have hi16524 : i < 140 + 128 * 128 := by
          simpa [DIRECT_SECTOR_NUMBER, DISK_SECTOR_NUMBER] using h3
        obtain ⟨v, st₁, hr1⟩ := cache_read_at_some st isec 52 0 hI.2.2
        obtain ⟨hv, hI₁, hview₁⟩ := cache_read_at_spec hr1 hI
        have hdn : slot (view st) isec 13 = v := by rw [hv]; rfl
        by_cases hz : v = 0
        · have hres : resolve_spec (view st) isec i = none := by
            unfold resolve_spec
            rw [if_neg hi12, if_neg hi140, if_pos hi16524, hdn, if_pos hz]
          refine ⟨st₁, ?_, hI₁, hview₁⟩
          unfold find_sector
          rw [if_neg h1, if_neg h2, if_pos h3]
          simp only [hr1]
          rw [if_neg (by simp [hz]), hres]
          rfl
        · obtain ⟨bs, st₂, hr2⟩ :=
            cache_read_some st₁ v 0 BLOCK_SECTOR_SIZE 0 hI₁.2.2
          obtain ⟨hbs, hI₂, hview₂⟩ := cache_read_spec hr2 hI₁
          have hfo : (i - DIRECT_SECTOR_NUMBER - DISK_SECTOR_NUMBER) /
              DISK_SECTOR_NUMBER = (i - 140) / 128 := by
            simp only [DIRECT_SECTOR_NUMBER, DISK_SECTOR_NUMBER]
            omega
          have hso : (i - DIRECT_SECTOR_NUMBER - DISK_SECTOR_NUMBER) %
              DISK_SECTOR_NUMBER = (i - 140) % 128 := by
            simp only [DIRECT_SECTOR_NUMBER, DISK_SECTOR_NUMBER]
            omega
          have hw : word_of_block bs
              ((i - DIRECT_SECTOR_NUMBER - DISK_SECTOR_NUMBER) /
                DISK_SECTOR_NUMBER) = slot (view st) v ((i - 140) / 128) := by
            rw [hbs, hview₁ v, hfo]
            exact word_of_block_bytes_of (view st v) ((i - 140) / 128)
              (by omega)
          by_cases hz2 : slot (view st) v ((i - 140) / 128) = 0
          · have hres : resolve_spec (view st) isec i = none := by
              unfold resolve_spec
              rw [if_neg hi12, if_neg hi140, if_pos hi16524, hdn, if_neg hz,
                if_pos hz2]
            refine ⟨st₂, ?_, hI₂, fun x => by rw [hview₂ x, hview₁ x]⟩
            unfold find_sector
            rw [if_neg h1, if_neg h2, if_pos h3]
            simp only [hr1]
            rw [if_pos hz]
            simp only [hr2]
            rw [hw, if_neg (by simp [hz2]), hres]
            rfl
          · obtain ⟨bs₂, st₃, hr3⟩ := cache_read_some st₂
              (slot (view st) v ((i - 140) / 128)) 0 BLOCK_SECTOR_SIZE 0
              hI₂.2.2
            obtain ⟨hbs₂, hI₃, hview₃⟩ := cache_read_spec hr3 hI₂
            have hw2 : word_of_block bs₂
                ((i - DIRECT_SECTOR_NUMBER - DISK_SECTOR_NUMBER) %
                  DISK_SECTOR_NUMBER) =
                slot (view st) (slot (view st) v ((i - 140) / 128))
                  ((i - 140) % 128) := by
              rw [hbs₂, hview₂ _, hview₁ _, hso]
              exact word_of_block_bytes_of _ ((i - 140) % 128) (by omega)
            have hres : resolve_spec (view st) isec i =
                (if slot (view st) (slot (view st) v ((i - 140) / 128))
                    ((i - 140) % 128) = 0 then none
                  else some (slot (view st) (slot (view st) v ((i - 140) / 128))
                    ((i - 140) % 128))) := by
              unfold resolve_spec
              rw [if_neg hi12, if_neg hi140, if_pos hi16524, hdn, if_neg hz,
                if_neg hz2]
            refine ⟨st₃, ?_, hI₃,
              fun x => by rw [hview₃ x, hview₂ x, hview₁ x]⟩
            unfold find_sector
            rw [if_neg h1, if_neg h2, if_pos h3]
            simp only [hr1]
            rw [if_pos hz]
            simp only [hr2]
            rw [hw, if_pos hz2]
            simp only [hr3]
            rw [hres, hw2]
            by_cases hz3 : slot (view st)
                (slot (view st) v ((i - 140) / 128)) ((i - 140) % 128) = 0
            · rw [if_neg (by simp [hz3]), if_pos hz3]
              rfl
            · rw [if_pos hz3, if_neg hz3]
              rfl
      · have hres : resolve_spec (view st) isec i = none := by
          unfold resolve_spec
          rw [if_neg hi12, if_neg hi140, if_neg (by
            simpa [DIRECT_SECTOR_NUMBER, DISK_SECTOR_NUMBER] using h3)]
        refine ⟨st, ?_, hI, fun x => rfl⟩
        unfold find_sector
        rw [if_neg h1, if_neg h2, if_neg h3, hres]
        rfl

/-- C2 (amended): the resolution formula — direct below 12, single-indirect
below 140, double-indirect below 140 + 128·128, a zero slot at any level a
hole — is exactly what `find_sector` computes (with `SECTOR_ERROR`
standing for the hole), and the lookup preserves the cache view and
invariant; but a hole is NOT read back as zeros (see the
counterexample: the resolved `SECTOR_ERROR` value is used as an ordinary
sector number by `inode_read_at`, which then returns the cached bytes of
device sector 4294967295). -/
theorem c2_find_sector_refines_resolve (st : CacheState) (isec i : Nat)
    (hI : Inv st) :
    (find_sector st isec i).map (fun p => p.1) =
      some ((resolve_spec (view st) isec i).getD SECTOR_ERROR) ∧
    ∀ r st', find_sector st isec i = some (r, st') →
      Inv st' ∧ ∀ x, view st' x = view st x := by
  obtain ⟨st', heq, hI', hview⟩ := find_sector_spec st isec i hI
  refine ⟨by rw [heq]; rfl, ?_⟩
  intro r st₂ hr
  rw [heq] at hr
  obtain ⟨h1, h2⟩ : (resolve_spec (view st) isec i).getD SECTOR_ERROR = r ∧
      st' = st₂ := by
    simpa [Prod.ext_iff] using hr
  subst h2
  exact ⟨hI', hview⟩

/-- Disk for the C2 counterexample: the inode at sector 5 has `P[0] = 2`,
`P[1] = 0` (a hole) and length 1024 (byte 57 = 4); every byte of device
sector `SECTOR_ERROR` (4294967295) is 9. -/
def c2disk : Disk := fun s o =>
  if s = 5 then (if o = 0 then 2 else if o = 57 then 4 else 0)
  else if s = SECTOR_ERROR then 9 else 0

def c2st0 : CacheState := ⟨c2disk, []⟩

def c2stA : CacheState := ⟨c2disk, [⟨5, c2disk 5, false, false, false, 0⟩]⟩

def c2stB : CacheState := ⟨c2disk,
  [⟨5, c2disk 5, false, false, false, 0⟩,
   ⟨SECTOR_ERROR, c2disk SECTOR_ERROR, false, false, false, 0⟩]⟩

/-- C2 counterexample: reading 4 bytes at offset 512 — logical sector 1,
a hole (`P[1] = 0`) inside the 1024-byte length — returns the bytes of
device sector 4294967295 (all 9 here), not zeros: `byte_to_sector`'s
`SECTOR_ERROR` is fed to the cache as a plain sector number. -/
theorem c2_counterexample :
    (inode_read_at c2st0 5 ⟨0, 0, 0, 0, 0⟩ 4 512).map (fun r => r.1) =
      some [9, 9, 9, 9] ∧
    word_at (c2disk 5) 4 = 0 ∧
    word_at (c2disk 5) 56 = 1024 ∧
    [9, 9, 9, 9] ≠ [0, 0, 0, 0] := by
  refine ⟨?_, by decide, by decide, by decide⟩
  have h1 : inode_read_at c2st0 5 ⟨0, 0, 0, 0, 0⟩ 4 512 =
      read_loop 5 1024 2 4 1 0 [] ⟨0, 0, 0, 0, 0⟩ 0 0 c2stA := rfl
  have r0 : read_loop 5 1024 2 4 1 0 [] ⟨0, 0, 0, 0, 0⟩ 0 0 c2stA =
      read_loop 5 1024 2 0 1 4 [9, 9, 9, 9] ⟨0, 0, 0, 0, 0⟩ 1 4 c2stB := by
    conv_lhs => rw [read_loop]
    rfl
  have r1 : read_loop 5 1024 2 0 1 4 [9, 9, 9, 9] ⟨0, 0, 0, 0, 0⟩ 1 4 c2stB =
      some ([9, 9, 9, 9], ⟨0, 0, 0, 0, 516⟩, c2stB) := by
    conv_lhs => rw [read_loop]
    rfl
  rw [h1, r0, r1]
  rfl

theorem c2_witness :
    (find_sector c2st0 5 1).map (fun p => p.1) = some SECTOR_ERROR :=
  (c2_find_sector_refines_resolve c2st0 5 1
    ⟨List.Pairwise.nil, fun c hc => absurd hc (List.not_mem_nil c),
      fun c hc => absurd hc (List.not_mem_nil c)⟩).1

/-! ## Claim C1: machinery — the read-ahead calls preserve the view -/

theorem resolve_spec_congr {v w : Disk} {isec i : Nat}
    (h0 : w isec = v isec)
    (h1 : w (slot v isec 12) = v (slot v isec 12))
    (h2 : w (slot v isec 13) = v (slot v isec 13))
    (h3 : w (slot v (slot v isec 13) ((i - 140) / 128)) =
      v (slot v (slot v isec 13) ((i - 140) / 128))) :
    resolve_spec w isec i = resolve_spec v isec i := by
  have hs0 : ∀ k, slot w isec k = slot v isec k := by
    intro k
    show word_at (w isec) (4 * k) = word_at (v isec) (4 * k)
    rw [h0]
  have hs1 : slot w (slot v isec 12) (i - 12) =
      slot v (slot v isec 12) (i - 12) := by
    show word_at (w (slot v isec 12)) (4 * (i - 12)) =
      word_at (v (slot v isec 12)) (4 * (i - 12))
    rw [h1]
  have hs2 : slot w (slot v isec 13) ((i - 140) / 128) =
      slot v (slot v isec 13) ((i - 140) / 128) := by
    show word_at (w (slot v isec 13)) (4 * ((i - 140) / 128)) =
      word_at (v (slot v isec 13)) (4 * ((i - 140) / 128))
    rw [h2]
  have hs3 : slot w (slot v (slot v isec 13) ((i - 140) / 128))
      ((i - 140) % 128) =
      slot v (slot v (slot v isec 13) ((i - 140) / 128)) ((i - 140) % 128) := by
    show word_at (w (slot v (slot v isec 13) ((i - 140) / 128)))
      (4 * ((i - 140) % 128)) =
      word_at (v (slot v (slot v isec 13) ((i - 140) / 128)))
      (4 * ((i - 140) % 128))
    rw [h3]
  show (if i < 12 then
      if slot w isec i = 0 then none else some (slot w isec i)
    else if i < 140 then
      if slot w isec 12 = 0 then none
      else if slot w (slot w isec 12) (i - 12) = 0 then none
        else some (slot w (slot w isec 12) (i - 12))
    else if i < 140 + 128 * 128 then
      if slot w isec 13 = 0 then none
      else if slot w (slot w isec 13) ((i - 140) / 128) = 0 then none
        else if slot w (slot w (slot w isec 13) ((i - 140) / 128))
            ((i - 140) % 128) = 0 then none
          else some (slot w (slot w (slot w isec 13) ((i - 140) / 128))
            ((i - 140) % 128))
    else none) = _
  rw [hs0 i, hs0 12, hs0 13, hs1, hs2, hs3]
  rfl

theorem update_first_append {rest : List CacheEntry} {c : CacheEntry} {s : Nat}
    {f : CacheEntry → CacheEntry} (hr : ∀ e ∈ rest, e.sector ≠ s)
    (hc : c.sector = s) :
    update_first (rest ++ [c]) s f = rest ++ [f c] := by
  induction rest with
  | nil => simp [update_first, hc]
  | cons e t ih =>
      have he : e.sector ≠ s := hr e (List.mem_cons_self _ _)
      simp only [List.cons_append, List.append_eq, update_first, if_neg he]
      rw [ih fun x hx => hr x (List.mem_cons_of_mem _ hx)]

/-- `cache_get` followed by an optional marker store and the direct unpin,
as `do_cache_readahead` performs them: the invariant and the view
survive. -/
theorem cache_get_mark_unpin_spec {st st₂ : CacheState} {s tid : Nat}
    (h : cache_get st s tid true = some st₂) (hI : Inv st) (P : Prop)
    [Decidable P] :
    Inv (cache_unpin (if P then cache_set_readahead st₂ s else st₂) s) ∧
    ∀ x, view (cache_unpin (if P then cache_set_readahead st₂ s else st₂) s) x =
      view st x := by
  obtain ⟨p, hp, hf⟩ := Option.map_eq_some'.mp h
  obtain ⟨c, rest, d⟩ := p
  have hst : CacheState.mk d (rest ++ [c]) = st₂ := hf
  subst hst
  have hrest : ∀ e ∈ rest, e.sector ≠ s := parts_rest_not_sector hp hI.1
  have hcs : c.sector = s := parts_sector hp
  by_cases hP : P
  · rw [if_pos hP]
    have hstate : cache_unpin
        (cache_set_readahead (CacheState.mk d (rest ++ [c])) s) s =
        ⟨d, rest ++ [{ { c with readahead := true } with in_use := false }]⟩ := by
      unfold cache_unpin cache_set_readahead
      show (⟨d, update_first (update_first (rest ++ [c]) s _) s _⟩ : CacheState) = _
      rw [update_first_append hrest hcs]
      rw [update_first_append hrest
        (show ({ c with readahead := true } : CacheEntry).sector = s from hcs)]
    obtain ⟨hInv, hview, _⟩ := assembled_spec hp hI
      { { c with readahead := true } with in_use := false } hcs rfl
      (by
        intro hd
        have hx : c.data = d s := parts_entry_clean hp hI.2.1 hd
        exact hx)
    rw [hstate]
    refine ⟨hInv, fun x => ?_⟩
    rw [hview x]
    by_cases hx : x = s
    · subst hx
      rw [if_pos rfl]
      show c.data = _
      rw [parts_data hp]
    · rw [if_neg hx]
  · rw [if_neg hP]
    have hstate : cache_unpin (CacheState.mk d (rest ++ [c])) s =
        ⟨d, rest ++ [{ c with in_use := false }]⟩ := by
      unfold cache_unpin
      show (⟨d, update_first (rest ++ [c]) s _⟩ : CacheState) = _
      rw [update_first_append hrest hcs]
    obtain ⟨hInv, hview, _⟩ := assembled_spec hp hI
      { c with in_use := false } hcs rfl
      (by
        intro hd
        have hx : c.data = d s := parts_entry_clean hp hI.2.1 hd
        exact hx)
    rw [hstate]
    refine ⟨hInv, fun x => ?_⟩
    rw [hview x]
    by_cases hx : x = s
    · subst hx
      rw [if_pos rfl]
      show c.data = _
      rw [parts_data hp]
    · rw [if_neg hx]

theorem cache_get_some (st : CacheState) (s tid : Nat) (hnp : NoPins st) :
    ∃ st', cache_get st s tid true = some st' := by
  obtain ⟨p, hp⟩ := cache_get_parts_some st s tid hnp
  exact ⟨_, by rw [cache_get, hp]; rfl⟩

theorem do_ra_loop_ok (k : Nat) : ∀ (isec : Nat) (ed start : Int)
    (n la i nr : Nat) (st : CacheState), n - i ≤ k → Inv st →
    ∃ r st', do_ra_loop isec ed start n la i nr st = some (r, st') ∧
      Inv st' ∧ ∀ x, view st' x = view st x := by
  induction k with
  | zero =>
      intro isec ed start n la i nr st hk hI
      refine ⟨nr, st, ?_, hI, fun x => rfl⟩
      unfold do_ra_loop
      rw [dif_neg (by omega)]
  | succ k ih =>
      intro isec ed start n la i nr st hk hI
      by_cases hin : i < n
      · by_cases hed : start + (i : Int) > ed
        · refine ⟨nr, st, ?_, hI, fun x => rfl⟩
          unfold do_ra_loop
          rw [dif_pos hin, if_pos hed]
        · obtain ⟨st₁, hfs, hI₁, hview₁⟩ :=
            find_sector_spec st isec (u32 (start + (i : Int))) hI
          cases hcf : cache_find st₁
            ((resolve_spec (view st) isec (u32 (start + (i : Int)))).getD
              SECTOR_ERROR) with
          | some c =>
              obtain ⟨r, st', hrec, hI', hview'⟩ :=
                ih isec ed start n la (i + 1) 0 st₁ (by omega) hI₁
              refine ⟨r, st', ?_, hI',
                fun x => (hview' x).trans (hview₁ x)⟩
              unfold do_ra_loop
              rw [dif_pos hin, if_neg hed]
              simp only [hfs, hcf]
              exact hrec
          | none =>
              obtain ⟨st₂, hg⟩ := cache_get_some st₁
                ((resolve_spec (view st) isec
                  (u32 (start + (i : Int)))).getD SECTOR_ERROR) 0 hI₁.2.2
              obtain ⟨hIu, hvu⟩ := cache_get_mark_unpin_spec hg hI₁ (i + la = n)
              obtain ⟨r, st', hrec, hI', hview'⟩ :=
                ih isec ed start n la (i + 1) (nr + 1) _ (by omega) hIu
              refine ⟨r, st', ?_, hI', fun x =>
                ((hview' x).trans (hvu x)).trans (hview₁ x)⟩
              unfold do_ra_loop
              rw [dif_pos hin, if_neg hed]
              simp only [hfs, hcf, hg]
              exact hrec
      · refine ⟨nr, st, ?_, hI, fun x => rfl⟩
        unfold do_ra_loop
        rw [dif_neg (by omega)]

theorem inode_length_ok (st : CacheState) (isec : Nat) (hI : Inv st) :
    ∃ st', inode_length st isec = some (word_at (view st isec) 56, st') ∧
      Inv st' ∧ ∀ x, view st' x = view st x := by
  obtain ⟨v, st', hr⟩ := cache_read_at_some st isec 56 0 hI.2.2
  obtain ⟨hv, hI', hview⟩ := cache_read_at_spec hr hI
  exact ⟨st', by rw [← hv]; exact hr, hI', hview⟩

theorem do_cache_readahead_ok (st : CacheState) (isec : Nat) (start : Int)
    (n la : Nat) (hI : Inv st) :
    ∃ r st', do_cache_readahead st isec start n la = some (r, st') ∧
      Inv st' ∧ ∀ x, view st' x = view st x := by
  obtain ⟨st₁, hl, hI₁, hview₁⟩ := inode_length_ok st isec hI
  by_cases hz : word_at (view st isec) 56 = 0
  · refine ⟨0, st₁, ?_, hI₁, hview₁⟩
    unfold do_cache_readahead
    rw [hl, hz]
    rfl
  · obtain ⟨r, st', hloop, hI', hview'⟩ :=
      do_ra_loop_ok n isec (((word_at (view st isec) 56 - 1) / 512 : Nat) : Int)
        start n la 0 0 st₁ (by omega) hI₁
    refine ⟨r, st', ?_, hI', fun x => (hview' x).trans (hview₁ x)⟩
    unfold do_cache_readahead
    rw [hl]
    show (if word_at (view st isec) 56 = 0 then some (0, st₁)
      else do_ra_loop isec (((word_at (view st isec) 56 - 1) / 512 : Nat) : Int)
        start n la 0 0 st₁) = _
    rw [if_neg hz]
    exact hloop

theorem ra_readit_ok_aux (st : CacheState) (isec : Nat) (ra2 : RaState)
    (hI : Inv st) :
    ∃ r st', (do_cache_readahead st isec ra2.start ra2.size
        ra2.async_size).map (fun p => (p.1, ra2, p.2)) = some (r, ra2, st') ∧
      Inv st' ∧ ∀ x, view st' x = view st x := by
  obtain ⟨r, st', hd, hI', hview'⟩ :=
    do_cache_readahead_ok st isec ra2.start ra2.size ra2.async_size hI
  refine ⟨r, st', ?_, hI', hview'⟩
  rw [hd]
  rfl

theorem ra_readit_ok (st : CacheState) (isec : Nat) (ra : RaState)
    (offset max_pages : Nat) (hI : Inv st) :
    ∃ r ra' st', ra_readit st isec ra offset max_pages = some (r, ra', st') ∧
      Inv st' ∧ ∀ x, view st' x = view st x := by
  obtain ⟨r, st', heq, hI', hview'⟩ := ra_readit_ok_aux st isec
    (if (offset : Int) = ra.start ∧ ra.size = ra.async_size then
      (if ra.size + get_next_ra_size ra max_pages ≤ max_pages then
        (⟨ra.start, ra.size + get_next_ra_size ra max_pages,
          get_next_ra_size ra max_pages, ra.ra_pages, ra.prev_pos⟩ : RaState)
      else ⟨ra.start, max_pages, max_pages / 2, ra.ra_pages, ra.prev_pos⟩)
     else ra) hI
  exact ⟨r, _, st', heq, hI', hview'⟩

theorem next_miss_ok : ∀ (m : Nat) (st : CacheState) (isec index : Nat),
    Inv st →
    ∃ r st', next_miss st isec index m = some (r, st') ∧
      Inv st' ∧ ∀ x, view st' x = view st x := by
  intro m
  induction m with
  | zero => exact fun st isec index hI => ⟨index, st, rfl, hI, fun x => rfl⟩
  | succ m ih =>
      intro st isec index hI
      obtain ⟨st₁, hfs, hI₁, hview₁⟩ := find_sector_spec st isec index hI
      by_cases he : (resolve_spec (view st) isec index).getD SECTOR_ERROR =
          SECTOR_ERROR
      · refine ⟨index, st₁, ?_, hI₁, hview₁⟩
        unfold next_miss
        rw [hfs]
        show (if (resolve_spec (view st) isec index).getD SECTOR_ERROR =
            SECTOR_ERROR then some (index, st₁) else _) = _
        rw [if_pos he]
      · cases hcf : cache_find st₁
            ((resolve_spec (view st) isec index).getD SECTOR_ERROR) with
        | none =>
            refine ⟨index, st₁, ?_, hI₁, hview₁⟩
            unfold next_miss
            rw [hfs]
            show (if (resolve_spec (view st) isec index).getD SECTOR_ERROR =
                SECTOR_ERROR then some (index, st₁)
              else match cache_find st₁
                  ((resolve_spec (view st) isec index).getD SECTOR_ERROR) with
                | none => some (index, st₁)
                | some _ => next_miss st₁ isec (index + 1) m) = _
            rw [if_neg he, hcf]
        | some c =>
            obtain ⟨r, st', hrec, hI', hview'⟩ := ih st₁ isec (index + 1) hI₁
            refine ⟨r, st', ?_, hI', fun x => (hview' x).trans (hview₁ x)⟩
            unfold next_miss
            rw [hfs]
            show (if (resolve_spec (view st) isec index).getD SECTOR_ERROR =
                SECTOR_ERROR then some (index, st₁)
              else match cache_find st₁
                  ((resolve_spec (view st) isec index).getD SECTOR_ERROR) with
                | none => some (index, st₁)
                | some _ => next_miss st₁ isec (index + 1) m) = _
            rw [if_neg he, hcf]
            exact hrec

theorem ondemand_readahead_ok (st : CacheState) (isec : Nat) (ra : RaState)
    (hit : Bool) (offset req_size : Nat) (hI : Inv st) :
    ∃ r ra' st', ondemand_readahead st isec ra hit offset req_size =
        some (r, ra', st') ∧
      Inv st' ∧ ∀ x, view st' x = view st x := by
  simp only [ondemand_readahead]
  by_cases h0 : offset = 0
  · rw [if_pos h0]
    exact ra_readit_ok st isec _ _ _ hI
  · rw [if_neg h0]
    by_cases h1 : u32 (offset : Int) =
        u32 (ra.start + (ra.size : Int) - (ra.async_size : Int)) ∨
        u32 (offset : Int) = u32 (ra.start + (ra.size : Int))
    · rw [if_pos h1]
      exact ra_readit_ok st isec _ _ _ hI
    · rw [if_neg h1]
      by_cases h2 : hit = true
      · rw [if_pos h2]
        obtain ⟨m, st₁, hnm, hI₁, hview₁⟩ :=
          next_miss_ok ra.ra_pages st isec (offset + 1) hI
        simp only [hnm]
        by_cases h3 : m - offset > ra.ra_pages
        · refine ⟨0, ra, st₁, ?_, hI₁, hview₁⟩
          rw [if_pos h3]
        · rw [if_neg h3]
          obtain ⟨r, ra', st', hr, hI', hview'⟩ :=
            ra_readit_ok st₁ isec _ offset ra.ra_pages hI₁
          exact ⟨r, ra', st', hr, hI', fun x => (hview' x).trans (hview₁ x)⟩
      · rw [if_neg h2]
        by_cases h4 : req_size > ra.ra_pages
        · rw [if_pos h4]
          exact ra_readit_ok st isec _ _ _ hI
        · rw [if_neg h4]
          by_cases h5 : (offset : Int) - Int.ediv ra.prev_pos 512 ≤ 1
          · rw [if_pos h5]
            exact ra_readit_ok st isec _ _ _ hI
          · rw [if_neg h5]
            obtain ⟨r, st', hd, hI', hview'⟩ :=
              do_cache_readahead_ok st isec (offset : Int) req_size 0 hI
            exact ⟨r, ra, st', by rw [hd]; rfl, hI', hview'⟩

theorem cache_sync_readahead_ok (st : CacheState) (isec : Nat) (ra : RaState)
    (offset req_size : Nat) (hI : Inv st) :
    ∃ ra' st', cache_sync_readahead st isec ra offset req_size =
        some (ra', st') ∧
      Inv st' ∧ ∀ x, view st' x = view st x := by
  unfold cache_sync_readahead
  by_cases hz : ra.ra_pages = 0
  · rw [if_pos hz]
    exact ⟨ra, st, rfl, hI, fun x => rfl⟩
  · rw [if_neg hz]
    obtain ⟨r, ra', st', ho, hI', hview'⟩ :=
      ondemand_readahead_ok st isec ra false offset req_size hI
    exact ⟨ra', st', by rw [ho]; rfl, hI', hview'⟩

theorem cache_async_readahead_ok (st : CacheState) (isec : Nat) (ra : RaState)
    (sector offset req_size : Nat) (hI : Inv st) :
    ∃ ra' st', cache_async_readahead st isec ra sector offset req_size =
        some (ra', st') ∧
      Inv st' ∧ ∀ x, view st' x = view st x := by
  unfold cache_async_readahead
  by_cases hz : ra.ra_pages = 0
  · rw [if_pos hz]
    exact ⟨ra, st, rfl, hI, fun x => rfl⟩
  · rw [if_neg hz]
    obtain ⟨hIc, hviewc⟩ := cache_clear_readahead_spec st sector hI
    obtain ⟨r, ra', st', ho, hI', hview'⟩ :=
      ondemand_readahead_ok (cache_clear_readahead st sector) isec ra true
        offset req_size hIc
    exact ⟨ra', st', by rw [ho]; rfl, hI',
      fun x => (hview' x).trans (hviewc x)⟩

/-! ## Claim C1: machinery — `read_loop` returns the view's bytes -/

theorem map_range_getD (l : List Nat) :
    (List.range l.length).map (fun j => l.getD j 0) = l := by
  refine List.ext_getElem (by simp) ?_
  intro i h1 h2
  simp [List.getD_eq_getElem?_getD, List.getElem?_eq_getElem, h2]

/-- One full iteration of `read_loop`, with every cache interaction given
as an equation. -/
theorem read_loop_step {st st₁ st₂ st₃ st₄ : CacheState} {isec length
    last_index size index sector_ofs : Nat} {acc bs : List Nat}
    {ra ra₁ ra₂ : RaState} {pi po : Int} {sector chunk : Nat}
    (hsz : size ≠ 0)
    (hfs : find_sector st isec index = some (sector, st₁))
    (hsync : (match cache_find st₁ sector with
      | none => cache_sync_readahead st₁ isec ra index (last_index - index)
      | some _ => some (ra, st₁)) = some (ra₁, st₂))
    (hasync : (if cache_readahead st₂ sector then
        cache_async_readahead st₂ isec ra₁ sector index (last_index - index)
      else some (ra₁, st₂)) = some (ra₂, st₃))
    (hgt : ¬ (length - 1) / 512 < index)
    (hcut : ¬ (index = (length - 1) / 512 ∧
      (if index = (length - 1) / 512 then ((length - 1) % 512) + 1 else 512) ≤
        sector_ofs))
    (hchunk : min size ((if index = (length - 1) / 512 then
      ((length - 1) % 512) + 1 else 512) - sector_ofs) = chunk)
    (hck : ¬ chunk = 0)
    (hcr : cache_read st₃ sector sector_ofs chunk 0 true = some (bs, st₄)) :
    read_loop isec length last_index size index sector_ofs acc ra pi po st =
      read_loop isec length last_index (size - chunk)
        (index + (sector_ofs + chunk) / 512) ((sector_ofs + chunk) % 512)
        (acc ++ bs) ra₂ (index : Int)
        (((sector_ofs + chunk) % 512 : Nat) : Int) st₄ := by
  conv_lhs => rw [read_loop]
  rw [dif_neg hsz, hfs]
  simp only []
  simp only [hsync]
  simp only [hasync]
  simp only [hchunk]
  simp [hgt, hcut, hck, hcr]

theorem read_loop_reads_view (k : Nat) : ∀ (isec length last_index size index
    sector_ofs : Nat) (acc : List Nat) (ra : RaState) (pi po : Int)
    (st : CacheState), size ≤ k → Inv st → sector_ofs < 512 →
    index * 512 + sector_ofs + size ≤ length →
    ∃ ra' st', read_loop isec length last_index size index sector_ofs acc ra
        pi po st =
      some (acc ++ (List.range size).map (fun j =>
        view st ((resolve_spec (view st) isec
            ((index * 512 + sector_ofs + j) / 512)).getD SECTOR_ERROR)
          ((index * 512 + sector_ofs + j) % 512)), ra', st') ∧
      Inv st' ∧ ∀ x, view st' x = view st x := by
  induction k with
  | zero =>
      intro isec length last_index size index sector_ofs acc ra pi po st
        hk hI hso hfit
      have hsz : size = 0 := by omega
      subst hsz
      refine ⟨{ ra with prev_pos := pi * 512 + po }, st, ?_, hI, fun x => rfl⟩
      rw [read_loop]
      rw [dif_pos rfl]
      simp
  | succ k ih =>
      intro isec length last_index size index sector_ofs acc ra pi po st
        hk hI hso hfit
      by_cases hsz : size = 0
      · subst hsz
        refine ⟨{ ra with prev_pos := pi * 512 + po }, st, ?_, hI,
          fun x => rfl⟩
        rw [read_loop]
        rw [dif_pos rfl]
        simp
      · obtain ⟨st₁, hfs, hI₁, hview₁⟩ := find_sector_spec st isec index hI
        obtain ⟨ra₁, st₂, hsync, hI₂, hview₂⟩ : ∃ ra₁ st₂,
            (match cache_find st₁
              ((resolve_spec (view st) isec index).getD SECTOR_ERROR) with
            | none => cache_sync_readahead st₁ isec ra index
                (last_index - index)
            | some _ => some (ra, st₁)) = some (ra₁, st₂) ∧
            Inv st₂ ∧ ∀ x, view st₂ x = view st₁ x := by
          cases hcf : cache_find st₁
              ((resolve_spec (view st) isec index).getD SECTOR_ERROR) with
          | none =>
              obtain ⟨ra₁, st₂, hq, hI₂, hv₂⟩ := cache_sync_readahead_ok st₁
                isec ra index (last_index - index) hI₁
              exact ⟨ra₁, st₂, hq, hI₂, hv₂⟩
          | some c => exact ⟨ra, st₁, rfl, hI₁, fun x => rfl⟩
        obtain ⟨ra₂, st₃, hasync, hI₃, hview₃⟩ : ∃ ra₂ st₃,
            (if cache_readahead st₂
                ((resolve_spec (view st) isec index).getD SECTOR_ERROR) then
              cache_async_readahead st₂ isec ra₁
                ((resolve_spec (view st) isec index).getD SECTOR_ERROR) index
                (last_index - index)
            else some (ra₁, st₂)) = some (ra₂, st₃) ∧
            Inv st₃ ∧ ∀ x, view st₃ x = view st₂ x := by
          by_cases hb : cache_readahead st₂
              ((resolve_spec (view st) isec index).getD SECTOR_ERROR) = true
          · obtain ⟨ra₂, st₃, hq, hI₃, hv₃⟩ := cache_async_readahead_ok st₂
              isec ra₁ _ index (last_index - index) hI₂
            exact ⟨ra₂, st₃, by rw [if_pos hb]; exact hq, hI₃, hv₃⟩
          · exact ⟨ra₁, st₂, by rw [if_neg hb], hI₂, fun x => rfl⟩
        have hgt : ¬ (length - 1) / 512 < index := by omega
        have hcut : ¬ (index = (length - 1) / 512 ∧
            (if index = (length - 1) / 512 then ((length - 1) % 512) + 1
              else 512) ≤ sector_ofs) := by
          by_cases he : index = (length - 1) / 512
          · rw [if_pos he]
            intro hq
            omega
          · rw [if_neg he]
            intro hq
            exact he hq.1
        have hslb : sector_ofs < (if index = (length - 1) / 512 then
            ((length - 1) % 512) + 1 else 512) := by
          by_cases he : index = (length - 1) / 512
          · rw [if_pos he]
            omega
          · rw [if_neg he]
            omega
        have hslub : (if index = (length - 1) / 512 then
            ((length - 1) % 512) + 1 else 512) ≤ 512 := by
          by_cases he : index = (length - 1) / 512
          · rw [if_pos he]
            omega
          · rw [if_neg he]
        have hck : ¬ min size ((if index = (length - 1) / 512 then
            ((length - 1) % 512) + 1 else 512) - sector_ofs) = 0 := by
          omega
        obtain ⟨bs, st₄, hcr⟩ := cache_read_some st₃
          ((resolve_spec (view st) isec index).getD SECTOR_ERROR) sector_ofs
          (min size ((if index = (length - 1) / 512 then
            ((length - 1) % 512) + 1 else 512) - sector_ofs)) 0 hI₃.2.2
        obtain ⟨hbs, hI₄, hview₄⟩ := cache_read_spec hcr hI₃
        have hstep := @read_loop_step st st₁ st₂ st₃ st₄ isec length
          last_index size index sector_ofs acc bs ra ra₁ ra₂ pi po
          ((resolve_spec (view st) isec index).getD SECTOR_ERROR)
          (min size ((if index = (length - 1) / 512 then
            ((length - 1) % 512) + 1 else 512) - sector_ofs))
          hsz hfs hsync hasync hgt hcut rfl hck hcr
        have hveq4 : ∀ x, view st₄ x = view st x := fun x =>
          (((hview₄ x).trans (hview₃ x)).trans (hview₂ x)).trans (hview₁ x)
        have hfveq4 : view st₄ = view st := funext hveq4
        obtain ⟨ra', st', hrec, hI', hview'⟩ := ih isec length last_index
          (size - min size ((if index = (length - 1) / 512 then
            ((length - 1) % 512) + 1 else 512) - sector_ofs))
          (index + (sector_ofs + min size ((if index = (length - 1) / 512 then
            ((length - 1) % 512) + 1 else 512) - sector_ofs)) / 512)
          ((sector_ofs + min size ((if index = (length - 1) / 512 then
            ((length - 1) % 512) + 1 else 512) - sector_ofs)) % 512)
          (acc ++ bs) ra₂ (index : Int)
          (((sector_ofs + min size ((if index = (length - 1) / 512 then
            ((length - 1) % 512) + 1 else 512) - sector_ofs)) % 512 : Nat) :
            Int) st₄ (by omega) hI₄ (by omega) (by omega)
        rw [hfveq4] at hrec
        refine ⟨ra', st', ?_, hI', fun x => (hview' x).trans (hveq4 x)⟩
        have hsplit : size = min size ((if index = (length - 1) / 512 then
            ((length - 1) % 512) + 1 else 512) - sector_ofs) +
            (size - min size ((if index = (length - 1) / 512 then
              ((length - 1) % 512) + 1 else 512) - sector_ofs)) := by
          omega
        have hM : (List.range size).map (fun j =>
            view st ((resolve_spec (view st) isec
              ((index * 512 + sector_ofs + j) / 512)).getD SECTOR_ERROR)
              ((index * 512 + sector_ofs + j) % 512)) =
            (List.range (min size ((if index = (length - 1) / 512 then
              ((length - 1) % 512) + 1 else 512) - sector_ofs))).map (fun j =>
              view st ((resolve_spec (view st) isec
                ((index * 512 + sector_ofs + j) / 512)).getD SECTOR_ERROR)
                ((index * 512 + sector_ofs + j) % 512)) ++
            (List.range (size - min size ((if index = (length - 1) / 512 then
              ((length - 1) % 512) + 1 else 512) - sector_ofs))).map (fun j =>
              view st ((resolve_spec (view st) isec
                ((index * 512 + sector_ofs +
                  (min size ((if index = (length - 1) / 512 then
                    ((length - 1) % 512) + 1 else 512) - sector_ofs) + j)) /
                  512)).getD SECTOR_ERROR)
                ((index * 512 + sector_ofs +
                  (min size ((if index = (length - 1) / 512 then
                    ((length - 1) % 512) + 1 else 512) - sector_ofs) + j)) %
                  512)) := by
          conv_lhs => rw [hsplit]
          rw [List.range_add, List.map_append, List.map_map]
          rfl
        have hA : bs = (List.range (min size ((if index = (length - 1) / 512
            then ((length - 1) % 512) + 1 else 512) - sector_ofs))).map
            (fun j => view st ((resolve_spec (view st) isec
              ((index * 512 + sector_ofs + j) / 512)).getD SECTOR_ERROR)
              ((index * 512 + sector_ofs + j) % 512)) := by
          rw [hbs]
          unfold bytes_of
          refine List.map_congr_left ?_
          intro j hj
          have hj' : j < min size ((if index = (length - 1) / 512 then
              ((length - 1) % 512) + 1 else 512) - sector_ofs) :=
            List.mem_range.mp hj
          have h1 : (index * 512 + sector_ofs + j) / 512 = index := by omega
          have h2 : (index * 512 + sector_ofs + j) % 512 = sector_ofs + j := by
            omega
          rw [h1, h2, funext hview₃, funext hview₂, funext hview₁]
        have hB : (List.range (size - min size ((if index = (length - 1) / 512
            then ((length - 1) % 512) + 1 else 512) - sector_ofs))).map
            (fun j => view st ((resolve_spec (view st) isec
              (((index + (sector_ofs + min size ((if index = (length - 1) / 512
                then ((length - 1) % 512) + 1 else 512) - sector_ofs)) / 512) *
                512 +
                (sector_ofs + min size ((if index = (length - 1) / 512 then
                  ((length - 1) % 512) + 1 else 512) - sector_ofs)) % 512 +
                j) / 512)).getD SECTOR_ERROR)
              (((index + (sector_ofs + min size ((if index = (length - 1) / 512
                then ((length - 1) % 512) + 1 else 512) - sector_ofs)) / 512) *
                512 +
                (sector_ofs + min size ((if index = (length - 1) / 512 then
                  ((length - 1) % 512) + 1 else 512) - sector_ofs)) % 512 +
                j) % 512)) =
            (List.range (size - min size ((if index = (length - 1) / 512 then
              ((length - 1) % 512) + 1 else 512) - sector_ofs))).map (fun j =>
              view st ((resolve_spec (view st) isec
                ((index * 512 + sector_ofs +
                  (min size ((if index = (length - 1) / 512 then
                    ((length - 1) % 512) + 1 else 512) - sector_ofs) + j)) /
                  512)).getD SECTOR_ERROR)
                ((index * 512 + sector_ofs +
                  (min size ((if index = (length - 1) / 512 then
                    ((length - 1) % 512) + 1 else 512) - sector_ofs) + j)) %
                  512)) := by
          refine List.map_congr_left ?_
          intro j hj
          have h1 : (index + (sector_ofs + min size
              ((if index = (length - 1) / 512 then ((length - 1) % 512) + 1
                else 512) - sector_ofs)) / 512) * 512 +
              (sector_ofs + min size ((if index = (length - 1) / 512 then
                ((length - 1) % 512) + 1 else 512) - sector_ofs)) % 512 + j =
              index * 512 + sector_ofs +
              (min size ((if index = (length - 1) / 512 then
                ((length - 1) % 512) + 1 else 512) - sector_ofs) + j) := by
            omega
          rw [h1]
        rw [hstep, hrec, hA, hB, hM, List.append_assoc]

theorem inode_read_at_reads_view (st : CacheState) (isec : Nat) (ra : RaState)
    (size offset : Nat) (hI : Inv st)
    (hlen0 : word_at (view st isec) 56 ≠ 0)
    (hfit : offset + size ≤ word_at (view st isec) 56) :
    ∃ ra' st', inode_read_at st isec ra size offset =
      some ((List.range size).map (fun j =>
        view st ((resolve_spec (view st) isec ((offset + j) / 512)).getD
          SECTOR_ERROR) ((offset + j) % 512)), ra', st') ∧
      Inv st' ∧ ∀ x, view st' x = view st x := by
  obtain ⟨st₁, hl, hI₁, hview₁⟩ := inode_length_ok st isec hI
  have hfv : view st₁ = view st := funext hview₁
  obtain ⟨ra', st', hrl, hI', hview'⟩ := read_loop_reads_view size isec
    (word_at (view st isec) 56) ((offset + size + 511) / 512) size
    (offset / 512) (offset % 512) [] ra (Int.ediv ra.prev_pos 512)
    (Int.emod ra.prev_pos 512) st₁ le_rfl hI₁ (by omega) (by omega)
  rw [hfv] at hrl
  have hP : offset / 512 * 512 + offset % 512 = offset := by omega
  simp only [hP] at hrl
  refine ⟨ra', st', ?_, hI', fun x => (hview' x).trans (hview₁ x)⟩
  unfold inode_read_at
  rw [hl]
  show (if word_at (view st isec) 56 = 0 then some ([], ra, st₁)
    else read_loop isec (word_at (view st isec) 56)
      ((offset + size + 511) / 512) size (offset / 512) (offset % 512) [] ra
      (Int.ediv ra.prev_pos 512) (Int.emod ra.prev_pos 512) st₁) = _
  rw [if_neg hlen0, hrl]
  simp

/-! ## Claim C1: the write loop establishes the view's bytes -/

theorem getD_take : ∀ (l : List Nat) (n m : Nat), m < n →
    (l.take n).getD m 0 = l.getD m 0 := by
  intro l
  induction l with
  | nil => intro n m h; simp
  | cons a t ih =>
      intro n m h
      cases n with
      | zero => omega
      | succ n =>
          cases m with
          | zero => simp
          | succ m => simpa using ih n m (by omega)

theorem getD_drop : ∀ (l : List Nat) (n m : Nat),
    (l.drop n).getD m 0 = l.getD (n + m) 0 := by
  intro l
  induction l with
  | nil => intro n m; simp
  | cons a t ih =>
      intro n m
      cases n with
      | zero => simp
      | succ n =>
          show (t.drop n).getD m 0 = (a :: t).getD (n + 1 + m) 0
          rw [ih n m]
          have h : n + 1 + m = (n + m) + 1 := by omega
          rw [h]
          simp

/-- One full iteration of `write_loop`, with the cache interactions given
as equations; the source's pre-zeroing branch is provably dead, so the
step is `byte_to_sector` followed by a single `cache_write` of the
chunk. -/
theorem write_loop_step {st st₁ st₃ : CacheState} {isec length : Nat}
    {buf : List Nat} {offset chunk : Nat} {sector : Nat}
    (hb : ¬ buf.length = 0)
    (hbts : byte_to_sector st isec length offset = some (sector, st₁))
    (hcpos : ¬ min (buf.length : Int) (min ((length : Int) - (offset : Int))
      ((512 : Int) - ((offset % 512 : Nat) : Int))) ≤ 0)
    (hchunk : (min (buf.length : Int) (min ((length : Int) - (offset : Int))
      ((512 : Int) - ((offset % 512 : Nat) : Int)))).toNat = chunk)
    (hpz : ¬ (¬ (offset % 512 = 0 ∧ chunk = 512) ∧
      ¬ (offset % 512 > 0 ∨ (chunk : Int) <
        (512 : Int) - ((offset % 512 : Nat) : Int))))
    (hcw : cache_write st₁ sector (buf.take chunk) (offset % 512) 0 true =
      some st₃) :
    write_loop isec length buf offset st =
      (write_loop isec length (buf.drop chunk) (offset + chunk) st₃).map
        (fun p => (chunk + p.1, p.2)) := by
  conv_lhs => rw [write_loop]
  rw [dif_neg hb, hbts]
  simp only []
  rw [dif_neg hcpos]
  rw [hchunk, if_neg hpz]
  simp only []
  rw [hcw]
  simp only []
  cases write_loop isec length (buf.drop chunk) (offset + chunk) st₃ with
  | none => rfl
  | some p => rfl

set_option maxHeartbeats 1000000 in
/-- `write_loop` over a well-formed region of the block mapping: every
touched logical sector is resolved, resolutions are pairwise distinct and
disjoint from the inode's metadata sectors.  Then the loop succeeds with
count `buf.length`, keeps the invariant, installs exactly `buf`'s bytes at
the resolved device positions, leaves every other sector's view unchanged,
and leaves the block mapping itself stable. -/
theorem write_loop_writes_view (k : Nat) : ∀ (isec length : Nat)
    (buf : List Nat) (offset : Nat) (st : CacheState), buf.length ≤ k →
    Inv st → offset + buf.length ≤ length →
    (∀ i, offset / 512 ≤ i → i ≤ (offset + buf.length - 1) / 512 →
      resolve_spec (view st) isec i ≠ none) →
    (∀ i, offset / 512 ≤ i → i ≤ (offset + buf.length - 1) / 512 →
      ((resolve_spec (view st) isec i).getD SECTOR_ERROR ≠ isec ∧
       (resolve_spec (view st) isec i).getD SECTOR_ERROR ≠
         slot (view st) isec 12 ∧
       (resolve_spec (view st) isec i).getD SECTOR_ERROR ≠
         slot (view st) isec 13 ∧
       ∀ kk, (resolve_spec (view st) isec i).getD SECTOR_ERROR ≠
         slot (view st) (slot (view st) isec 13) kk)) →
    (∀ i j, offset / 512 ≤ i → i ≤ (offset + buf.length - 1) / 512 →
      offset / 512 ≤ j → j ≤ (offset + buf.length - 1) / 512 → i ≠ j →
      (resolve_spec (view st) isec i).getD SECTOR_ERROR ≠
        (resolve_spec (view st) isec j).getD SECTOR_ERROR) →
    ∃ st', write_loop isec length buf offset st = some (buf.length, st') ∧
      Inv st' ∧
      (∀ j, j < buf.length → view st'
        ((resolve_spec (view st) isec ((offset + j) / 512)).getD SECTOR_ERROR)
        ((offset + j) % 512) = buf.getD j 0) ∧
      (∀ x, (∀ i, offset / 512 ≤ i → i ≤ (offset + buf.length - 1) / 512 →
        buf.length ≠ 0 →
        x ≠ (resolve_spec (view st) isec i).getD SECTOR_ERROR) →
        view st' x = view st x) ∧
      (∀ i, offset / 512 ≤ i → i ≤ (offset + buf.length - 1) / 512 →
        resolve_spec (view st') isec i = resolve_spec (view st) isec i) := by
  induction k with
  | zero =>
      intro isec length buf offset st hk hI hfit hres hmeta hinj
      have hb : buf.length = 0 := by omega
      refine ⟨st, ?_, hI, fun j hj => absurd hj (by omega),
        fun x _ => rfl, fun i _ _ => rfl⟩
      rw [write_loop, dif_pos hb, hb]
  | succ k ih =>
      intro isec length buf offset st hk hI hfit hres hmeta hinj
      by_cases hb : buf.length = 0
      · refine ⟨st, ?_, hI, fun j hj => absurd hj (by omega),
          fun x _ => rfl, fun i _ _ => rfl⟩
        rw [write_loop, dif_pos hb, hb]
      · have hio : offset / 512 ≤ (offset + buf.length - 1) / 512 := by omega
        obtain ⟨st₁, hfs, hI₁, hview₁⟩ :=
          find_sector_spec st isec (offset / 512) hI
        have hbts : byte_to_sector st isec length offset =
            some ((resolve_spec (view st) isec (offset / 512)).getD
              SECTOR_ERROR, st₁) := by
          unfold byte_to_sector
          rw [if_pos (by omega)]
          exact hfs
        have hcpos : ¬ min (buf.length : Int)
            (min ((length : Int) - (offset : Int))
              ((512 : Int) - ((offset % 512 : Nat) : Int))) ≤ 0 := by
          omega
        have hchunk : (min (buf.length : Int)
            (min ((length : Int) - (offset : Int))
              ((512 : Int) - ((offset % 512 : Nat) : Int)))).toNat =
            min buf.length (512 - offset % 512) := by
          omega
        have hpz : ¬ (¬ (offset % 512 = 0 ∧
            min buf.length (512 - offset % 512) = 512) ∧
            ¬ (offset % 512 > 0 ∨
              ((min buf.length (512 - offset % 512) : Nat) : Int) <
                (512 : Int) - ((offset % 512 : Nat) : Int))) := by
          omega
        obtain ⟨st₃, hcw⟩ := cache_write_some st₁
          ((resolve_spec (view st) isec (offset / 512)).getD SECTOR_ERROR)
          (buf.take (min buf.length (512 - offset % 512))) (offset % 512) 0
          hI₁.2.2
        have hstep := @write_loop_step st st₁ st₃ isec length buf offset
          (min buf.length (512 - offset % 512))
          ((resolve_spec (view st) isec (offset / 512)).getD SECTOR_ERROR)
          hb hbts hcpos hchunk hpz hcw
        clear hcpos hchunk hpz hbts
        obtain ⟨hI₃, hview₃⟩ := cache_write_spec hcw hI₁
        have hview₃st : ∀ x, view st₃ x = if x = (resolve_spec (view st) isec
            (offset / 512)).getD SECTOR_ERROR then
            write_bytes (view st ((resolve_spec (view st) isec
              (offset / 512)).getD SECTOR_ERROR)) (offset % 512)
              (buf.take (min buf.length (512 - offset % 512)))
          else view st x := by
          intro x
          rw [hview₃ x]
          by_cases hx : x = (resolve_spec (view st) isec
              (offset / 512)).getD SECTOR_ERROR
          · rw [if_pos hx, if_pos hx, hview₁]
          · rw [if_neg hx, if_neg hx, hview₁]
        have hmeta0 := hmeta (offset / 512) le_rfl hio
        have hview₃ne : ∀ x, x ≠ (resolve_spec (view st) isec
            (offset / 512)).getD SECTOR_ERROR → view st₃ x = view st x := by
          intro x hx
          rw [hview₃st x, if_neg hx]
        have hslot12 : slot (view st₃) isec 12 = slot (view st) isec 12 := by
          unfold slot
          rw [hview₃ne isec (fun q => hmeta0.1 q.symm)]
        have hslot13 : slot (view st₃) isec 13 = slot (view st) isec 13 := by
          unfold slot
          rw [hview₃ne isec (fun q => hmeta0.1 q.symm)]
        have hslotfl : ∀ kk, slot (view st₃) (slot (view st) isec 13) kk =
            slot (view st) (slot (view st) isec 13) kk := by
          intro kk
          show word_at (view st₃ (slot (view st) isec 13)) (4 * kk) =
            word_at (view st (slot (view st) isec 13)) (4 * kk)
          rw [hview₃ne (slot (view st) isec 13)
            (fun q => hmeta0.2.2.1 q.symm)]
        have hstab : ∀ i, offset / 512 ≤ i →
            i ≤ (offset + buf.length - 1) / 512 →
            resolve_spec (view st₃) isec i =
              resolve_spec (view st) isec i := by
          intro i h1 h2
          exact resolve_spec_congr
            (hview₃ne isec (fun q => hmeta0.1 q.symm))
            (hview₃ne _ (fun q => hmeta0.2.1 q.symm))
            (hview₃ne _ (fun q => hmeta0.2.2.1 q.symm))
            (hview₃ne _ (fun q => (hmeta0.2.2.2 ((i - 140) / 128)) q.symm))
        have harg1 : (buf.drop (min buf.length (512 - offset % 512))).length ≤
            k := by
          simp only [List.length_drop]
          omega
        have harg2 : offset + min buf.length (512 - offset % 512) +
            (buf.drop (min buf.length (512 - offset % 512))).length ≤
            length := by
          simp only [List.length_drop]
          omega
        have harg3 : ∀ i, (offset + min buf.length (512 - offset % 512)) /
            512 ≤ i →
            i ≤ (offset + min buf.length (512 - offset % 512) +
              (buf.drop (min buf.length (512 - offset % 512))).length - 1) /
              512 →
            resolve_spec (view st₃) isec i ≠ none := by
          intro i h1 h2
          simp only [List.length_drop] at h2
          rw [hstab i (by omega) (by omega)]
          exact hres i (by omega) (by omega)
        have harg4 : ∀ i, (offset + min buf.length (512 - offset % 512)) /
            512 ≤ i →
            i ≤ (offset + min buf.length (512 - offset % 512) +
              (buf.drop (min buf.length (512 - offset % 512))).length - 1) /
              512 →
            ((resolve_spec (view st₃) isec i).getD SECTOR_ERROR ≠ isec ∧
             (resolve_spec (view st₃) isec i).getD SECTOR_ERROR ≠
               slot (view st₃) isec 12 ∧
             (resolve_spec (view st₃) isec i).getD SECTOR_ERROR ≠
               slot (view st₃) isec 13 ∧
             ∀ kk, (resolve_spec (view st₃) isec i).getD SECTOR_ERROR ≠
               slot (view st₃) (slot (view st₃) isec 13) kk) := by
          intro i h1 h2
          simp only [List.length_drop] at h2
          rw [hstab i (by omega) (by omega), hslot12, hslot13]
          refine ⟨(hmeta i (by omega) (by omega)).1,
            (hmeta i (by omega) (by omega)).2.1,
            (hmeta i (by omega) (by omega)).2.2.1, ?_⟩
          intro kk
          rw [hslotfl kk]
          exact (hmeta i (by omega) (by omega)).2.2.2 kk
        have harg5 : ∀ i j, (offset + min buf.length (512 - offset % 512)) /
            512 ≤ i →
            i ≤ (offset + min buf.length (512 - offset % 512) +
              (buf.drop (min buf.length (512 - offset % 512))).length - 1) /
              512 →
            (offset + min buf.length (512 - offset % 512)) / 512 ≤ j →
            j ≤ (offset + min buf.length (512 - offset % 512) +
              (buf.drop (min buf.length (512 - offset % 512))).length - 1) /
              512 → i ≠ j →
            (resolve_spec (view st₃) isec i).getD SECTOR_ERROR ≠
              (resolve_spec (view st₃) isec j).getD SECTOR_ERROR := by
          intro i j h1 h2 h3 h4 hij
          simp only [List.length_drop] at h2 h4
          rw [hstab i (by omega) (by omega), hstab j (by omega) (by omega)]
          exact hinj i j (by omega) (by omega) (by omega) (by omega) hij
        obtain ⟨st', heq, hI', hbytes, hframe, hstab'⟩ := ih isec length
          (buf.drop (min buf.length (512 - offset % 512)))
          (offset + min buf.length (512 - offset % 512)) st₃
          harg1 hI₃ harg2 harg3 harg4 harg5
        refine ⟨st', ?_, hI', ?_, ?_, ?_⟩
        · rw [hstep, heq]
          show some (min buf.length (512 - offset % 512) +
            (buf.drop (min buf.length (512 - offset % 512))).length, st') =
            some (buf.length, st')
          have hL : min buf.length (512 - offset % 512) +
              (buf.drop (min buf.length (512 - offset % 512))).length =
              buf.length := by
            simp only [List.length_drop]
            omega
          rw [hL]
        · intro j hj
          by_cases hjc : j < min buf.length (512 - offset % 512)
          · have hdiv : (offset + j) / 512 = offset / 512 := by omega
            rw [hdiv]
            have hfr : view st' ((resolve_spec (view st) isec
                (offset / 512)).getD SECTOR_ERROR) =
                view st₃ ((resolve_spec (view st) isec
                (offset / 512)).getD SECTOR_ERROR) := by
              refine hframe _ ?_
              intro i hi1 hi2 hd0
              simp only [List.length_drop] at hi2 hd0
              rw [hstab i (by omega) (by omega)]
              exact hinj (offset / 512) i le_rfl hio (by omega) (by omega)
                (by omega)
            rw [hfr, hview₃st, if_pos rfl]
            unfold write_bytes
            have hmod : (offset + j) % 512 = offset % 512 + j := by omega
            rw [hmod]
            rw [if_pos (by
              refine ⟨by omega, ?_⟩
              simp only [List.length_take]
              omega)]
            have hsub : offset % 512 + j - offset % 512 = j := by omega
            rw [hsub, getD_take buf _ j hjc]
          · have hb2 := hbytes (j - min buf.length (512 - offset % 512))
              (by simp only [List.length_drop]; omega)
            have ha1 : offset + min buf.length (512 - offset % 512) +
                (j - min buf.length (512 - offset % 512)) = offset + j := by
              omega
            rw [ha1, getD_drop] at hb2
            have ha2 : min buf.length (512 - offset % 512) +
                (j - min buf.length (512 - offset % 512)) = j := by omega
            rw [ha2] at hb2
            rw [hstab ((offset + j) / 512) (by omega) (by omega)] at hb2
            exact hb2
        · intro x hx
          have hx0 : x ≠ (resolve_spec (view st) isec
              (offset / 512)).getD SECTOR_ERROR :=
            hx (offset / 512) le_rfl hio hb
          have h1 : view st' x = view st₃ x := by
            refine hframe x ?_
            intro i hi1 hi2 hd0
            simp only [List.length_drop] at hi2 hd0
            rw [hstab i (by omega) (by omega)]
            exact hx i (by omega) (by omega) hb
          rw [h1, hview₃ne x hx0]
        · intro i h1 h2
          have hmA : view st' isec = view st₃ isec := by
            refine hframe isec ?_
            intro q hq1 hq2 hd0
            simp only [List.length_drop] at hq2 hd0
            rw [hstab q (by omega) (by omega)]
            exact fun e => (hmeta q (by omega) (by omega)).1 e.symm
          have hm12 : view st' (slot (view st₃) isec 12) =
              view st₃ (slot (view st₃) isec 12) := by
            rw [hslot12]
            refine hframe _ ?_
            intro q hq1 hq2 hd0
            simp only [List.length_drop] at hq2 hd0
            rw [hstab q (by omega) (by omega)]
            exact fun e => (hmeta q (by omega) (by omega)).2.1 e.symm
          have hm13 : view st' (slot (view st₃) isec 13) =
              view st₃ (slot (view st₃) isec 13) := by
            rw [hslot13]
            refine hframe _ ?_
            intro q hq1 hq2 hd0
            simp only [List.length_drop] at hq2 hd0
            rw [hstab q (by omega) (by omega)]
            exact fun e => (hmeta q (by omega) (by omega)).2.2.1 e.symm
          have hmfl : view st' (slot (view st₃) (slot (view st₃) isec 13)
              ((i - 140) / 128)) = view st₃ (slot (view st₃)
              (slot (view st₃) isec 13) ((i - 140) / 128)) := by
            rw [hslot13, hslotfl]
            refine hframe _ ?_
            intro q hq1 hq2 hd0
            simp only [List.length_drop] at hq2 hd0
            rw [hstab q (by omega) (by omega)]
            exact fun e =>
              ((hmeta q (by omega) (by omega)).2.2.2 ((i - 140) / 128)) e.symm
          rw [resolve_spec_congr hmA hm12 hm13 hmfl, hstab i h1 h2]

/-- `inode_write_at` with `deny_write_cnt = 0` and no length extension is
exactly the write loop over the current length, with the free map passed
through unchanged. -/
theorem inode_write_at_eq_loop {st st₁ : CacheState} {fm : FreeMap}
    {isec : Nat} {buf : List Nat} {offset len : Nat}
    (hl : inode_length st isec = some (len, st₁))
    (hfit : ¬ len < offset + buf.length) :
    inode_write_at st fm isec 0 buf offset =
      match write_loop isec len buf offset st₁ with
      | none => none
      | some (n, st₂) => some (n, st₂, fm) := by
  unfold inode_write_at
  rw [if_neg (by decide), hl]
  simp only []
  rw [if_neg hfit]

/-- C1: write/read round-trip.  For a write that stays within the inode's
current length, over a well-formed block mapping (every touched logical
sector resolves to a device sector, the resolutions are pairwise distinct
and disjoint from the inode sector, its indirect blocks and every
first-level block of the double-indirect tree), `inode_write_at` reports
`buf.length` bytes written, and after any sequence of intervening cache
operations (`Perturb`: reads with their evictions, flushes, frees) a
subsequent `inode_read_at` of the same range returns `buf`
byte-for-byte. -/
theorem c1_write_read_round_trip (st st₁ stP : CacheState) (fm fm₁ : FreeMap)
    (isec : Nat) (buf : List Nat) (offset : Nat) (ra : RaState) (n : Nat)
    (hI : Inv st) (hnz : buf.length ≠ 0)
    (hfit : offset + buf.length ≤ word_at (view st isec) 56)
    (hres : ∀ i, offset / 512 ≤ i → i ≤ (offset + buf.length - 1) / 512 →
      resolve_spec (view st) isec i ≠ none)
    (hmeta : ∀ i, offset / 512 ≤ i → i ≤ (offset + buf.length - 1) / 512 →
      ((resolve_spec (view st) isec i).getD SECTOR_ERROR ≠ isec ∧
       (resolve_spec (view st) isec i).getD SECTOR_ERROR ≠
         slot (view st) isec 12 ∧
       (resolve_spec (view st) isec i).getD SECTOR_ERROR ≠
         slot (view st) isec 13 ∧
       ∀ kk, (resolve_spec (view st) isec i).getD SECTOR_ERROR ≠
         slot (view st) (slot (view st) isec 13) kk))
    (hinj : ∀ i j, offset / 512 ≤ i → i ≤ (offset + buf.length - 1) / 512 →
      offset / 512 ≤ j → j ≤ (offset + buf.length - 1) / 512 → i ≠ j →
      (resolve_spec (view st) isec i).getD SECTOR_ERROR ≠
        (resolve_spec (view st) isec j).getD SECTOR_ERROR)
    (hw : inode_write_at st fm isec 0 buf offset = some (n, st₁, fm₁))
    (hp : Perturb st₁ stP) :
    n = buf.length ∧
    (inode_read_at stP isec ra buf.length offset).map (fun r => r.1) =
      some buf := by
  obtain ⟨stA, hl, hIA, hviewA⟩ := inode_length_ok st isec hI
  have hfvA : view stA = view st := funext hviewA
  have hnlt : ¬ word_at (view st isec) 56 < offset + buf.length := by omega
  have hresA : ∀ i, offset / 512 ≤ i → i ≤ (offset + buf.length - 1) / 512 →
      resolve_spec (view stA) isec i ≠ none := by
    intro i h1 h2
    rw [hfvA]
    exact hres i h1 h2
  have hmetaA : ∀ i, offset / 512 ≤ i → i ≤ (offset + buf.length - 1) / 512 →
      ((resolve_spec (view stA) isec i).getD SECTOR_ERROR ≠ isec ∧
       (resolve_spec (view stA) isec i).getD SECTOR_ERROR ≠
         slot (view stA) isec 12 ∧
       (resolve_spec (view stA) isec i).getD SECTOR_ERROR ≠
         slot (view stA) isec 13 ∧
       ∀ kk, (resolve_spec (view stA) isec i).getD SECTOR_ERROR ≠
         slot (view stA) (slot (view stA) isec 13) kk) := by
    intro i h1 h2
    rw [hfvA]
    exact hmeta i h1 h2
  have hinjA : ∀ i j, offset / 512 ≤ i →
      i ≤ (offset + buf.length - 1) / 512 → offset / 512 ≤ j →
      j ≤ (offset + buf.length - 1) / 512 → i ≠ j →
      (resolve_spec (view stA) isec i).getD SECTOR_ERROR ≠
        (resolve_spec (view stA) isec j).getD SECTOR_ERROR := by
    intro i j h1 h2 h3 h4 hij
    rw [hfvA]
    exact hinj i j h1 h2 h3 h4 hij
  obtain ⟨st', hwl, hI', hbytes, hframe, hstab⟩ :=
    write_loop_writes_view buf.length isec (word_at (view st isec) 56) buf
      offset stA le_rfl hIA hfit hresA hmetaA hinjA
  have heqw := @inode_write_at_eq_loop st stA fm isec buf offset
    (word_at (view st isec) 56) hl hnlt
  rw [heqw, hwl] at hw
  simp only [] at hw
  have hw' := Option.some.inj hw
  have hn : buf.length = n := congrArg (fun p => p.1) hw'
  have hst : st' = st₁ := congrArg (fun p => p.2.1) hw'
  subst hst
  obtain ⟨hIP, hviewP⟩ := perturb_spec hp hI'
  have hfP : view stP = view st' := funext hviewP
  have hisec : view st' isec = view st isec := by
    rw [← hfvA]
    refine hframe isec ?_
    intro i h1 h2 hd
    rw [hfvA]
    exact fun q => (hmeta i h1 h2).1 q.symm
  have hvPs : view stP isec = view st isec := (hviewP isec).trans hisec
  have hlen0 : word_at (view stP isec) 56 ≠ 0 := by
    rw [hvPs]
    omega
  have hfit2 : offset + buf.length ≤ word_at (view stP isec) 56 := by
    rw [hvPs]
    exact hfit
  obtain ⟨ra', st'', hread, hIr, hvr⟩ :=
    inode_read_at_reads_view stP isec ra buf.length offset hIP hlen0 hfit2
  have hlist : (List.range buf.length).map (fun j =>
      view stP ((resolve_spec (view stP) isec ((offset + j) / 512)).getD
        SECTOR_ERROR) ((offset + j) % 512)) = buf := by
    refine (List.map_congr_left ?_).trans (map_range_getD buf)
    intro j hj
    rw [List.mem_range] at hj
    rw [hfP]
    rw [hstab ((offset + j) / 512) (by omega) (by omega)]
    exact hbytes j hj
  refine ⟨hn.symm, ?_⟩
  rw [hread, hlist]
  rfl

/-! ### C1 witness: a concrete one-sector round trip -/

/-- On-disk inode image for the witness: `P[0] = 2` (bytes 0..3) and
`length = 8` (bytes 56..59). -/
def c1ibytes : Nat → Nat := fun o =>
  if o = 0 then 2 else if o = 56 then 8 else 0

/-- Witness disk: the inode lives at device sector 5, everything else is
zero. -/
def c1disk : Disk := fun s => if s = 5 then c1ibytes else fun _ => 0

def c1fm : FreeMap := ⟨[], []⟩

/-- Initial state: empty cache. -/
def c1st0 : CacheState := ⟨c1disk, []⟩

/-- After the `inode_length` read: the inode sector is cached clean. -/
def c1stA : CacheState := ⟨c1disk, [⟨5, c1disk 5, false, false, false, 0⟩]⟩

/-- After the write: device sector 2 is cached dirty with bytes `[7, 8]`
written at offset 1. -/
def c1stC : CacheState :=
  ⟨c1disk, [⟨5, c1disk 5, false, false, false, 0⟩,
    ⟨2, write_bytes (c1disk 2) 1 [7, 8], true, false, false, 0⟩]⟩

theorem c1Inv : Inv c1st0 := by
  refine ⟨List.Pairwise.nil, ?_, ?_⟩ <;> intro c hc <;> simp [c1st0] at hc

theorem c1wl2 : write_loop 5 8 (([7, 8] : List Nat).drop 2) (1 + 2) c1stC =
    some (0, c1stC) := by
  conv_lhs => rw [write_loop]
  rfl

theorem c1wl : write_loop 5 8 ([7, 8] : List Nat) 1 c1stA =
    some (2, c1stC) := by
  have hstep := @write_loop_step c1stA c1stA c1stC 5 8 [7, 8] 1 2 2
    (by decide) rfl (by decide) (by decide) (by decide) rfl
  rw [hstep, c1wl2]
  rfl

theorem c1hw : inode_write_at c1st0 c1fm 5 0 ([7, 8] : List Nat) 1 =
    some (2, c1stC, c1fm) := by
  rw [inode_write_at_eq_loop (show inode_length c1st0 5 = some (8, c1stA)
    from rfl) (by decide), c1wl]

theorem c1res : ∀ i, 1 / 512 ≤ i →
    i ≤ (1 + ([7, 8] : List Nat).length - 1) / 512 →
    resolve_spec (view c1st0) 5 i ≠ none := by
  intro i h1 h2
  simp only [List.length_cons, List.length_nil] at h2
  have h3 : i = 0 := by omega
  subst h3
  decide

theorem c1meta : ∀ i, 1 / 512 ≤ i →
    i ≤ (1 + ([7, 8] : List Nat).length - 1) / 512 →
    ((resolve_spec (view c1st0) 5 i).getD SECTOR_ERROR ≠ 5 ∧
     (resolve_spec (view c1st0) 5 i).getD SECTOR_ERROR ≠
       slot (view c1st0) 5 12 ∧
     (resolve_spec (view c1st0) 5 i).getD SECTOR_ERROR ≠
       slot (view c1st0) 5 13 ∧
     ∀ kk, (resolve_spec (view c1st0) 5 i).getD SECTOR_ERROR ≠
       slot (view c1st0) (slot (view c1st0) 5 13) kk) := by
  intro i h1 h2
  simp only [List.length_cons, List.length_nil] at h2
  have h3 : i = 0 := by omega
  subst h3
  refine ⟨by decide, by decide, by decide, ?_⟩
  intro kk
  have hz : ∀ o, view c1st0 0 o = 0 := fun o => rfl
  have hs : slot (view c1st0) 5 13 = 0 := by decide
  rw [hs]
  have hk : slot (view c1st0) 0 kk = 0 := by
    show le32 (view c1st0 0 (4 * kk)) (view c1st0 0 (4 * kk + 1))
      (view c1st0 0 (4 * kk + 2)) (view c1st0 0 (4 * kk + 3)) = 0
    rw [hz, hz, hz, hz]
    decide
  rw [hk]
  decide

theorem c1inj : ∀ i j, 1 / 512 ≤ i →
    i ≤ (1 + ([7, 8] : List Nat).length - 1) / 512 → 1 / 512 ≤ j →
    j ≤ (1 + ([7, 8] : List Nat).length - 1) / 512 → i ≠ j →
    (resolve_spec (view c1st0) 5 i).getD SECTOR_ERROR ≠
      (resolve_spec (view c1st0) 5 j).getD SECTOR_ERROR := by
  intro i j h1 h2 h3 h4 hij
  simp only [List.length_cons, List.length_nil] at h2 h4
  exact absurd (by omega : i = j) hij

/-- C1 witness: the inode at device sector 5 maps logical sector 0 to
device sector 2 and has length 8; writing `[7, 8]` at offset 1 succeeds
and reading the same 2 bytes back returns `[7, 8]`. -/
theorem c1_witness :
    (inode_read_at c1stC 5 ⟨0, 0, 0, 32, 0⟩ ([7, 8] : List Nat).length 1).map
      (fun r => r.1) = some [7, 8] :=
  (c1_write_read_round_trip c1st0 c1stC c1stC c1fm c1fm 5 [7, 8] 1
    ⟨0, 0, 0, 32, 0⟩ 2 c1Inv (by decide) (by decide) c1res c1meta c1inj
    c1hw (Perturb.refl c1stC)).2

end Pintos
